import Mathlib

/-!
# Oats containers: `array_c`, `dynarray` and `ringbuffer`

A shallow embedding of `src/memory/Oats-Containers.h`.

* `int` is the 32-bit signed integer: a value is an `Int` in `[-2 ^ 31, 2 ^ 31 - 1]`, and the
  result of every addition, subtraction and multiplication that the code performs on `int`
  is taken modulo `2 ^ 32` into that range by `wrap32` (signed overflow as two's-complement
  wrap-around).
* A loop is a recursion on the number of iterations left.  The doubling loop of `insert`,
  whose number of iterations is not known beforehand, runs on an iteration budget; a call
  that uses the budget up stops with `Fault.iteration_budget`, and this happens only when the
  loop of the code does not terminate.
* A raw buffer is a `List α`.  Every element access goes through `readAt` / `writeAt`,
  which stop with `Fault.out_of_bounds` when the index is outside the buffer, so that an
  access the C++ code performs outside its allocation is visible as a fault.
* `%` is C++ remainder (`Int.tmod`), guarded: a zero divisor stops with
  `Fault.division_by_zero`.
* A member function that mutates the object is a function from the old object to
  `Except Fault` of the new object.
* Slots that the C++ code leaves default-initialised hold `default`.
-/

namespace oats

/-- The ways an execution can stop instead of returning. -/
inductive Fault
  | out_of_bounds
  | division_by_zero
  | bad_array_length
  | iteration_budget
  deriving DecidableEq, Repr

deriving instance DecidableEq for Except

/-- The value of a 32-bit signed `int` that holds `x` modulo `2 ^ 32`, in the range
`[-2 ^ 31, 2 ^ 31 - 1]`. -/
def wrap32 (x : Int) : Int :=
  (x + 2147483648) % 4294967296 - 2147483648

/-- Read of `buf[i]` on a raw buffer. -/
def readAt {α : Type} (buf : List α) (i : Int) : Except Fault α :=
  if 0 ≤ i then
    match buf[i.toNat]? with
    | some v => .ok v
    | none => .error .out_of_bounds
  else .error .out_of_bounds

/-- Assignment `buf[i] = v` on a raw buffer. -/
def writeAt {α : Type} (buf : List α) (i : Int) (v : α) : Except Fault (List α) :=
  if 0 ≤ i ∧ i.toNat < buf.length then .ok (buf.set i.toNat v)
  else .error .out_of_bounds

/-- Expression `new DATA_TYPE[n]`: `n` default-initialised slots. -/
def new_array {α : Type} [Inhabited α] (n : Int) : Except Fault (List α) :=
  if n < 0 then .error .bad_array_length
  else .ok (List.replicate n.toNat default)

/-- Function `index1d`. -/
def index1d (col row columnCount : Int) : Int :=
  wrap32 (col + wrap32 (row * columnCount))

/-! ## `array_c` -/

/-- Struct `array_c<DATA_TYPE, CAPACITY>`: `DATA_TYPE _buffer[CAPACITY]`. -/
structure array_c (α : Type) (CAPACITY : Nat) where
  _buffer : List α
  _extent : _buffer.length = CAPACITY
  deriving DecidableEq

/-- Constructors `array_c(const int _)` and `array_c()`: the argument is ignored. -/
def array_c.ctor {α : Type} [Inhabited α] {CAPACITY : Nat} (_ : Int) : array_c α CAPACITY :=
  ⟨List.replicate CAPACITY default, List.length_replicate _ _⟩

/-- Member `const int _capacity = CAPACITY`. -/
def array_c._capacity {α : Type} {CAPACITY : Nat} (_ : array_c α CAPACITY) : Int :=
  CAPACITY

/-- Method `array_c::size`. -/
def array_c.size {α : Type} {CAPACITY : Nat} (_ : array_c α CAPACITY) : Int :=
  CAPACITY

/-- Method `array_c::operator[]`, read. -/
def array_c.get {α : Type} {CAPACITY : Nat} (a : array_c α CAPACITY) (index : Int) :
    Except Fault α :=
  readAt a._buffer index

/-- Method `array_c::operator[]`, assignment through the returned reference. -/
def array_c.set {α : Type} {CAPACITY : Nat} (a : array_c α CAPACITY) (index : Int) (v : α) :
    Except Fault (array_c α CAPACITY) :=
  if 0 ≤ index ∧ index.toNat < a._buffer.length then
    .ok ⟨a._buffer.set index.toNat v, by rw [List.length_set]; exact a._extent⟩
  else .error .out_of_bounds

/-! ## `dynarray` -/

/-- Struct `dynarray<DATA_TYPE>`. -/
structure dynarray (α : Type) where
  _buffer : List α
  _size : Int
  _capacity : Int
  deriving DecidableEq, Repr

/-- Member `const int EXPANSION_FACTOR = 2`. -/
def dynarray.EXPANSION_FACTOR : Int := 2

/-- Constructor `dynarray(const int initialCapacity)`. -/
def dynarray.ctor {α : Type} [Inhabited α] (initialCapacity : Int) : Except Fault (dynarray α) := do
  let buffer ← new_array initialCapacity
  pure { _buffer := buffer, _size := 0, _capacity := initialCapacity }

/-- Method `dynarray::size`. -/
def dynarray.size {α : Type} (d : dynarray α) : Int :=
  d._size

/-- Method `dynarray::operator[]`, read. -/
def dynarray.get {α : Type} (d : dynarray α) (index : Int) : Except Fault α :=
  readAt d._buffer index

/-- Method `dynarray::operator[]`, assignment through the returned reference. -/
def dynarray.set {α : Type} (d : dynarray α) (index : Int) (v : α) :
    Except Fault (dynarray α) := do
  let buffer ← writeAt d._buffer index v
  pure { d with _buffer := buffer }

/-- Loop `for (int i = 0; i < _capacity; i++) temp[i] = _buffer[i];` of `reserve`, with `k`
iterations left, that is at `i = _capacity - k`. -/
def dynarray.reserve_copy {α : Type} (src : List α) (_capacity : Int) :
    Nat → List α → Except Fault (List α)
  | 0, temp => pure temp
  | k + 1, temp => do
    let i : Int := _capacity - ((k + 1 : Nat) : Int)
    let v ← readAt src i
    let temp ← writeAt temp i v
    dynarray.reserve_copy src _capacity k temp

/-- Method `dynarray::reserve`. -/
def dynarray.reserve {α : Type} [Inhabited α] (d : dynarray α) (capacity : Int) :
    Except Fault (dynarray α) :=
  if d._capacity ≥ capacity then pure d
  else do
    let temp ← new_array capacity
    let temp ← dynarray.reserve_copy d._buffer d._capacity d._capacity.toNat temp
    pure { d with _buffer := temp, _capacity := capacity }

/-- Loop `while (cap < topIndex + 1) cap *= EXPANSION_FACTOR;` of `insert` with every
arithmetic result taken modulo `2 ^ 32`, run for at most `fuel` iterations. -/
def dynarray.grow_loop32 (topIndex : Int) : Nat → Int → Except Fault Int
  | 0, cap => if cap < wrap32 (topIndex + 1) then .error .iteration_budget else pure cap
  | fuel + 1, cap =>
    if cap < wrap32 (topIndex + 1) then
      dynarray.grow_loop32 topIndex fuel (wrap32 (cap * dynarray.EXPANSION_FACTOR))
    else pure cap

/-- The doubling `while (cap < topIndex + 1) cap *= 2` in exact integer arithmetic, run for
at most `fuel` iterations.  It is not what the code computes: it is the reference that the
32-bit loop `grow_loop32` is compared with, and the two agree as long as no value leaves the
`int` range (`grow_loop32_eq`). -/
def dynarray.grow_loop_exact (topIndex : Int) : Nat → Int → Except Fault Int
  | 0, cap => if cap < topIndex + 1 then .error .iteration_budget else pure cap
  | fuel + 1, cap =>
    if cap < topIndex + 1 then
      dynarray.grow_loop_exact topIndex fuel (cap * dynarray.EXPANSION_FACTOR)
    else pure cap

/-- Loop `for (int i = _size; i > index; i--) _buffer[i] = _buffer[i - 1];` of `insert`, with
`k` iterations left, that is at `i = index + k`. -/
def dynarray.shift_loop {α : Type} (index : Int) : Nat → List α → Except Fault (List α)
  | 0, buffer => pure buffer
  | k + 1, buffer => do
    let i : Int := index + ((k + 1 : Nat) : Int)
    let v ← readAt buffer (i - 1)
    let buffer ← writeAt buffer i v
    dynarray.shift_loop index k buffer

/-- Method `dynarray::insert`, on 32-bit `int`.  The doubling loop gets an iteration budget
of 64.  After 32 doublings `cap` is 0, whatever it started from (`c0 * 2 ^ 32` is 0 modulo
`2 ^ 32`), and stays 0; so the loop ends within 32 iterations or never, and the budget is
used up only on calls that do not return (`grow_loop32_stuck`). -/
def dynarray.insert {α : Type} [Inhabited α] (d : dynarray α) (index : Int) (t : α) :
    Except Fault (dynarray α) := do
  let topIndex : Int := if index > d._size then index else d._size
  let d ←
    if topIndex > wrap32 (d._capacity - 1) then do
      let cap : Int := if d._capacity > 0 then d._capacity else 1
      let cap ← dynarray.grow_loop32 topIndex 64 cap
      d.reserve cap
    else pure d
  let buffer ← dynarray.shift_loop index (d._size - index).toNat d._buffer
  let buffer ← writeAt buffer index t
  pure { d with _buffer := buffer, _size := wrap32 (topIndex + 1) }

/-- Method `dynarray::push_back`. -/
def dynarray.push_back {α : Type} [Inhabited α] (d : dynarray α) (t : α) :
    Except Fault (dynarray α) :=
  d.insert d._size t

/-- Method `dynarray::push_front`. -/
def dynarray.push_front {α : Type} [Inhabited α] (d : dynarray α) (t : α) :
    Except Fault (dynarray α) :=
  d.insert 0 t

/-- State invariant of a `dynarray`: `0 ≤ _size ≤ _capacity`, and the allocation behind
`_buffer` has `_capacity` slots. -/
def dynarray.WF {α : Type} (d : dynarray α) : Prop :=
  0 ≤ d._size ∧ d._size ≤ d._capacity ∧ (d._buffer.length : Int) = d._capacity

instance {α : Type} (d : dynarray α) : Decidable d.WF := by
  unfold dynarray.WF; infer_instance

/-- Logical contents of a `dynarray`: the slots `0 .. _size - 1`. -/
def dynarray.contents {α : Type} (d : dynarray α) : List α :=
  d._buffer.take d._size.toNat

/-- Calling `push_back` with each value of `vs`, in order. -/
def dynarray.push_back_all {α : Type} [Inhabited α] (d : dynarray α) :
    List α → Except Fault (dynarray α)
  | [] => pure d
  | v :: vs => do
    let d ← d.push_back v
    dynarray.push_back_all d vs

/-- One call on a `dynarray`. -/
inductive dynarray.Call (α : Type)
  | insert (index : Int) (t : α)
  | push_back (t : α)
  | push_front (t : α)
  | reserve (capacity : Int)
  | read (index : Int)
  | write (index : Int) (t : α)
  deriving DecidableEq, Repr

/-- The object after one call. -/
def dynarray.call {α : Type} [Inhabited α] (d : dynarray α) :
    dynarray.Call α → Except Fault (dynarray α)
  | .insert index t => d.insert index t
  | .push_back t => d.push_back t
  | .push_front t => d.push_front t
  | .reserve capacity => d.reserve capacity
  | .read index => do
    let _ ← d.get index
    pure d
  | .write index t => d.set index t

/-- The object after a sequence of calls. -/
def dynarray.calls {α : Type} [Inhabited α] (d : dynarray α) :
    List (dynarray.Call α) → Except Fault (dynarray α)
  | [] => pure d
  | c :: cs => do
    let d ← d.call c
    dynarray.calls d cs

/-- The capacity that `insert index` needs, `max index size + 1`, is available without growth
or is at most `2 ^ 30`, so that the doubling loop cannot leave the `int` range. -/
def dynarray.fits {α : Type} (d : dynarray α) (index : Int) : Prop :=
  max index d._size + 1 ≤ d._capacity ∨ max index d._size + 1 ≤ 1073741824

instance {α : Type} (d : dynarray α) (index : Int) : Decidable (d.fits index) := by
  unfold dynarray.fits; infer_instance

/-- A call on the object `d` whose arguments respect the caller contract and the `int` range:
an inserted index is not negative and its growth fits, a reserved capacity is an `int`, an
indexed access is inside `[0, size)`. -/
def dynarray.Call.admissible {α : Type} (d : dynarray α) : dynarray.Call α → Prop
  | .insert index _ => 0 ≤ index ∧ d.fits index
  | .push_back _ => d.fits d._size
  | .push_front _ => d.fits 0
  | .reserve capacity => capacity ≤ 2147483647
  | .read index => 0 ≤ index ∧ index < d._size
  | .write index _ => 0 ≤ index ∧ index < d._size

/-! ## Backing stores of `ringbuffer` -/

/-- What `ringbuffer` uses of its `CONTAINER_TYPE`: construction from an `int`, the member
`_capacity`, and `operator[]` for reading and for assignment. -/
class Container (C : Type) (α : outParam Type) where
  construct : Int → Except Fault C
  _capacity : C → Int
  get : C → Int → Except Fault α
  set : C → Int → α → Except Fault C

instance {α : Type} [Inhabited α] {CAPACITY : Nat} : Container (array_c α CAPACITY) α where
  construct n := pure (array_c.ctor n)
  _capacity := array_c._capacity
  get := array_c.get
  set := array_c.set

instance {α : Type} [Inhabited α] : Container (dynarray α) α where
  construct := dynarray.ctor
  _capacity := dynarray._capacity
  get := dynarray.get
  set := dynarray.set

/-- The slots of a backing store as a list, with the facts about `Container` operations that
the ring buffer relies on: `operator[]` is an access to the slots, an assignment changes one
slot and nothing else and keeps `_capacity`, and a constructed store has `_capacity` slots. -/
class LawfulContainer (C : Type) (α : outParam Type) [Container C α] where
  slots : C → List α
  inv : C → Prop
  length_slots : ∀ c, inv c → ((slots c).length : Int) = Container._capacity c
  get_eq : ∀ (c : C) (i : Int), Container.get c i = readAt (slots c) i
  set_ok : ∀ (c : C) (i : Int) (v : α), 0 ≤ i → i.toNat < (slots c).length →
    ∃ c', Container.set c i v = .ok c' ∧ slots c' = (slots c).set i.toNat v ∧
      Container._capacity c' = Container._capacity c ∧ (inv c → inv c')
  set_capacity : ∀ (c c' : C) (i : Int) (v : α), Container.set c i v = .ok c' →
    Container._capacity c' = Container._capacity c ∧ (inv c → inv c')
  construct_inv : ∀ (n : Int) (c : C), Container.construct n = .ok c → inv c

instance {α : Type} [Inhabited α] {CAPACITY : Nat} : LawfulContainer (array_c α CAPACITY) α where
  slots a := a._buffer
  inv _ := True
  length_slots a _ := by
    show ((a._buffer.length : Nat) : Int) = ((CAPACITY : Nat) : Int)
    rw [a._extent]
  get_eq _ _ := rfl
  set_ok a i v h0 h1 := by
    refine ⟨⟨a._buffer.set i.toNat v, by rw [List.length_set]; exact a._extent⟩, ?_, rfl, rfl,
      fun _ => trivial⟩
    show array_c.set a i v = _
    unfold array_c.set
    rw [if_pos ⟨h0, h1⟩]
  set_capacity _ _ _ _ _ := ⟨rfl, fun _ => trivial⟩
  construct_inv _ _ _ := trivial

instance {α : Type} [Inhabited α] : LawfulContainer (dynarray α) α where
  slots d := d._buffer
  inv d := (d._buffer.length : Int) = d._capacity
  length_slots _ h := h
  get_eq _ _ := rfl
  set_ok d i v h0 h1 := by
    refine ⟨{ d with _buffer := d._buffer.set i.toNat v }, ?_, rfl, rfl, ?_⟩
    · show dynarray.set d i v = _
      unfold dynarray.set writeAt
      rw [if_pos ⟨h0, h1⟩]
      rfl
    · intro h
      show (((d._buffer.set i.toNat v).length : Nat) : Int) = d._capacity
      rw [List.length_set]
      exact h
  set_capacity d d' i v h := by
    have h : dynarray.set d i v = Except.ok d' := h
    unfold dynarray.set writeAt at h
    by_cases hi : 0 ≤ i ∧ i.toNat < d._buffer.length
    · rw [if_pos hi] at h
      cases h
      refine ⟨rfl, fun hinv => ?_⟩
      show (((d._buffer.set i.toNat v).length : Nat) : Int) = d._capacity
      rw [List.length_set]
      exact hinv
    · rw [if_neg hi] at h
      cases h
  construct_inv n d h := by
    have h : dynarray.ctor n = Except.ok d := h
    unfold dynarray.ctor new_array at h
    show ((d._buffer.length : Nat) : Int) = d._capacity
    by_cases hn : n < 0
    · rw [if_pos hn] at h
      cases h
    · rw [if_neg hn] at h
      cases h
      show (((List.replicate n.toNat (default : α)).length : Nat) : Int) = n
      rw [List.length_replicate]
      exact Int.toNat_of_nonneg (Int.not_lt.mp hn)

/-! ## `ringbuffer` -/

/-- Struct `ringbuffer<DATA_TYPE, CONTAINER_TYPE>`. -/
structure ringbuffer (α : Type) (C : Type) where
  _buffer : C
  _count : Int
  _dequeue_index : Int
  deriving DecidableEq, Repr

/-- Alias `ringbuffer_heap<DATA_TYPE>`. -/
abbrev ringbuffer_heap (α : Type) : Type := ringbuffer α (dynarray α)

/-- Alias `ringbuffer_c<DATA_TYPE, SIZE>`. -/
abbrev ringbuffer_c (α : Type) (SIZE : Nat) : Type := ringbuffer α (array_c α SIZE)

/-- Constructor `ringbuffer(const int capacity) : _buffer(capacity)`. -/
def ringbuffer.ctor {α C : Type} [Container C α] (capacity : Int) :
    Except Fault (ringbuffer α C) := do
  let buffer ← Container.construct capacity
  pure { _buffer := buffer, _count := 0, _dequeue_index := 0 }

/-- Constructor `ringbuffer() : _buffer(0)`. -/
def ringbuffer.ctor0 {α C : Type} [Container C α] : Except Fault (ringbuffer α C) := do
  let buffer ← Container.construct 0
  pure { _buffer := buffer, _count := 0, _dequeue_index := 0 }

/-- Method `ringbuffer::abs_index`. -/
def ringbuffer.abs_index {α C : Type} [Container C α] (rb : ringbuffer α C)
    (relative_index : Int) : Except Fault Int :=
  if Container._capacity rb._buffer = 0 then .error .division_by_zero
  else
    pure ((wrap32 (rb._dequeue_index + relative_index)).tmod (Container._capacity rb._buffer))

/-- Method `ringbuffer::size`. -/
def ringbuffer.size {α C : Type} (rb : ringbuffer α C) : Int :=
  rb._count

/-- Method `ringbuffer::capacity`. -/
def ringbuffer.capacity {α C : Type} [Container C α] (rb : ringbuffer α C) : Int :=
  Container._capacity rb._buffer

/-- Method `ringbuffer::operator[]`, read. -/
def ringbuffer.get {α C : Type} [Container C α] (rb : ringbuffer α C) (index : Int) :
    Except Fault α := do
  let i ← rb.abs_index index
  Container.get rb._buffer i

/-- Method `ringbuffer::operator[]`, assignment through the returned reference. -/
def ringbuffer.set {α C : Type} [Container C α] (rb : ringbuffer α C) (index : Int) (v : α) :
    Except Fault (ringbuffer α C) := do
  let i ← rb.abs_index index
  let buffer ← Container.set rb._buffer i v
  pure { rb with _buffer := buffer }

/-- Method `ringbuffer::dequeue`: the returned value and the object afterwards. -/
def ringbuffer.dequeue {α C : Type} [Container C α] (rb : ringbuffer α C) :
    Except Fault (α × ringbuffer α C) := do
  let t ← Container.get rb._buffer rb._dequeue_index
  let i ← rb.abs_index 1
  pure (t, { rb with _dequeue_index := i, _count := wrap32 (rb._count - 1) })

/-- Method `ringbuffer::enqueue`. -/
def ringbuffer.enqueue {α C : Type} [Container C α] (rb : ringbuffer α C) (d : α) :
    Except Fault (ringbuffer α C) := do
  let rb ←
    if rb._count = rb.capacity then do
      let (_, rb) ← rb.dequeue
      pure rb
    else pure rb
  let i ← rb.abs_index rb._count
  let buffer ← Container.set rb._buffer i d
  pure { rb with _buffer := buffer, _count := wrap32 (rb._count + 1) }

/-- State invariant of a `ringbuffer` with a positive capacity: the backing store has
`_capacity` slots, `0 ≤ head < capacity`, `0 ≤ count ≤ capacity`, and the capacity, being an
`int`, is at most `2 ^ 31 - 1`. -/
def ringbuffer.WF {α C : Type} [Container C α] [LawfulContainer C α] (rb : ringbuffer α C) :
    Prop :=
  LawfulContainer.inv rb._buffer ∧ 0 < rb.capacity ∧
    0 ≤ rb._dequeue_index ∧ rb._dequeue_index < rb.capacity ∧
    0 ≤ rb._count ∧ rb._count ≤ rb.capacity ∧ rb.capacity ≤ 2147483647

/-- The values `rb[i], rb[i + 1], ..., rb[i + n - 1]`, read with `operator[]`. -/
def ringbuffer.read_from {α C : Type} [Container C α] (rb : ringbuffer α C) (i : Int) :
    Nat → Except Fault (List α)
  | 0 => pure []
  | n + 1 => do
    let x ← rb.get i
    let xs ← ringbuffer.read_from rb (i + 1) n
    pure (x :: xs)

/-- Logical contents of a `ringbuffer`: `rb[0], ..., rb[size() - 1]`. -/
def ringbuffer.to_list {α C : Type} [Container C α] (rb : ringbuffer α C) :
    Except Fault (List α) :=
  rb.read_from 0 rb.size.toNat

/-- Calling `enqueue` with each value of `vs`, in order. -/
def ringbuffer.enqueue_all {α C : Type} [Container C α] (rb : ringbuffer α C) :
    List α → Except Fault (ringbuffer α C)
  | [] => pure rb
  | v :: vs => do
    let rb ← rb.enqueue v
    ringbuffer.enqueue_all rb vs

/-- One queue operation. -/
inductive QueueOp (α : Type)
  | enqueue (d : α)
  | dequeue
  deriving DecidableEq, Repr

/-- The values passed to `enqueue` in a sequence of queue operations, in order. -/
def QueueOp.enqueued {α : Type} : List (QueueOp α) → List α
  | [] => []
  | .enqueue d :: ops => d :: QueueOp.enqueued ops
  | .dequeue :: ops => QueueOp.enqueued ops

/-- Running a sequence of queue operations: the values returned by the `dequeue` calls, in
order, and the object afterwards. -/
def ringbuffer.run {α C : Type} [Container C α] (rb : ringbuffer α C) :
    List (QueueOp α) → Except Fault (List α × ringbuffer α C)
  | [] => pure ([], rb)
  | .enqueue d :: ops => do
    let rb ← rb.enqueue d
    ringbuffer.run rb ops
  | .dequeue :: ops => do
    let (t, rb) ← rb.dequeue
    let (ts, rb) ← ringbuffer.run rb ops
    pure (t :: ts, rb)

/-- No `dequeue` of the sequence is applied when `size() == 0`: before each `dequeue` the
object is asked for its `size()`. -/
def ringbuffer.no_underflow {α C : Type} [Container C α] :
    ringbuffer α C → List (QueueOp α) → Bool
  | _, [] => true
  | rb, .enqueue d :: ops =>
    match rb.enqueue d with
    | .ok rb => ringbuffer.no_underflow rb ops
    | .error _ => true
  | rb, .dequeue :: ops =>
    rb.size != 0 &&
      match rb.dequeue with
      | .ok (_, rb) => ringbuffer.no_underflow rb ops
      | .error _ => true

/-- No `enqueue` of the sequence is applied to a full buffer, one with
`size() == capacity()`. -/
def ringbuffer.no_eviction {α C : Type} [Container C α] :
    ringbuffer α C → List (QueueOp α) → Bool
  | _, [] => true
  | rb, .enqueue d :: ops =>
    rb.size != rb.capacity &&
      match rb.enqueue d with
      | .ok rb => ringbuffer.no_eviction rb ops
      | .error _ => true
  | rb, .dequeue :: ops =>
    match rb.dequeue with
    | .ok (_, rb) => ringbuffer.no_eviction rb ops
    | .error _ => true

/-- The logical contents of `rb` are the list `L`: `L` has `_count` values, and `L[i]` is the
backing slot `(head + i) mod capacity`, for `0 ≤ i < _count`. -/
def ringbuffer.contents_are {α C : Type} [Container C α] (rb : ringbuffer α C) (L : List α) :
    Prop :=
  (L.length : Int) = rb._count ∧
    ∀ i : Fin L.length,
      Container.get rb._buffer ((rb._dequeue_index + ((i : Nat) : Int)) % rb.capacity) =
        .ok (L.get i)

/-- The same on the slots of the backing store: `L` has `_count` values, and `L[k]` is the
slot `(head + k) mod capacity`, for `0 ≤ k < _count`. -/
def ringbuffer.slots_are {α C : Type} [Container C α] [LawfulContainer C α]
    (rb : ringbuffer α C) (L : List α) : Prop :=
  L.length = rb._count.toNat ∧
    ∀ k : Nat, k < rb._count.toNat → L[k]? = (LawfulContainer.slots rb._buffer)[
      ((rb._dequeue_index + (k : Int)) % rb.capacity).toNat]?

/-- The sum `head + i` that `enqueue` hands to `abs_index`, after the `dequeue` of a full
buffer when there is one. -/
def ringbuffer.enqueue_sum {α C : Type} [Container C α] (rb : ringbuffer α C) : Int :=
  if rb._count = rb.capacity then (rb._dequeue_index + 1) % rb.capacity + (rb._count - 1)
  else rb._dequeue_index + rb._count

/-! ## The list model of the queue -/

/-- The sliding-window queue of the specification on a list, oldest value first: `enqueue` on
a queue that holds `capacity` values drops the oldest one, then the value is appended. -/
def window_enqueue {α : Type} (capacity : Int) (L : List α) (v : α) : List α :=
  if (L.length : Int) = capacity then L.tail ++ [v] else L ++ [v]

/-- The values returned by the `dequeue` operations of a sequence on the list model, each one
the oldest value that was enqueued and neither dequeued nor evicted. -/
def window_run {α : Type} (capacity : Int) : List α → List (QueueOp α) → List α
  | _, [] => []
  | L, .enqueue d :: ops => window_run capacity (window_enqueue capacity L d) ops
  | L, .dequeue :: ops =>
    match L with
    | [] => window_run capacity [] ops
    | x :: L => x :: window_run capacity L ops

/-! ## States of a `ringbuffer` reachable without underflow -/

/-- The predicate `0 ≤ count ≤ C`, `0 ≤ head < C`, `capacity() == C` on a `ringbuffer`. -/
def ringbuffer.invariant {α C : Type} [Container C α] (capacity : Int) (rb : ringbuffer α C) :
    Prop :=
  0 ≤ rb._count ∧ rb._count ≤ capacity ∧ 0 ≤ rb._dequeue_index ∧
    rb._dequeue_index < capacity ∧ rb.capacity = capacity

/-- The states reached from `rb0` by calls of `enqueue`, of `dequeue` when `size() != 0`, and
by assignments through `operator[]` at an index that is not negative. -/
inductive ringbuffer.Reachable {α C : Type} [Container C α] (rb0 : ringbuffer α C) :
    ringbuffer α C → Prop
  | start : ringbuffer.Reachable rb0 rb0
  | enqueue (rb rb' : ringbuffer α C) (d : α) :
    ringbuffer.Reachable rb0 rb → rb.enqueue d = .ok rb' → ringbuffer.Reachable rb0 rb'
  | dequeue (rb rb' : ringbuffer α C) (t : α) :
    ringbuffer.Reachable rb0 rb → rb.size ≠ 0 → rb.dequeue = .ok (t, rb') →
    ringbuffer.Reachable rb0 rb'
  | write (rb rb' : ringbuffer α C) (index : Int) (v : α) :
    ringbuffer.Reachable rb0 rb → 0 ≤ index → rb.set index v = .ok rb' →
    ringbuffer.Reachable rb0 rb'

/-! ## `dynarray` on a heap that may be exhausted -/

/-- The ways a call can stop when allocation may fail: `std::bad_alloc` is thrown, or one of
the faults of the base model. -/
inductive Stop
  | bad_alloc
  | fault (f : Fault)
  deriving DecidableEq, Repr

/-- Expression `new DATA_TYPE[n]` on a heap that may be exhausted: `heap n` tells whether a
block of `n` slots can be allocated; when it cannot, `std::bad_alloc` is thrown. -/
def new_array_on {α : Type} [Inhabited α] (heap : Int → Bool) (n : Int) :
    Except Stop (List α) :=
  match new_array n with
  | .error f => .error (.fault f)
  | .ok block => if heap n then .ok block else .error .bad_alloc

/-- Method `dynarray::reserve` on a heap that may be exhausted: how the call ends, and the
object as the call leaves it, also when it ends by an exception. -/
def dynarray.reserve_on {α : Type} [Inhabited α] (heap : Int → Bool) (d : dynarray α)
    (capacity : Int) : Except Stop Unit × dynarray α :=
  if d._capacity ≥ capacity then (.ok (), d)
  else
    match new_array_on heap capacity with
    | .error e => (.error e, d)
    | .ok temp =>
      match dynarray.reserve_copy d._buffer d._capacity d._capacity.toNat temp with
      | .error f => (.error (.fault f), d)
      | .ok temp => (.ok (), { d with _buffer := temp, _capacity := capacity })

/-- The shift loop of `insert` acting on the object: each iteration assigns to a slot of
`_buffer`, so a stop inside the loop leaves the slots shifted so far. -/
def dynarray.shift_loop_on {α : Type} (index : Int) :
    Nat → dynarray α → Except Stop Unit × dynarray α
  | 0, d => (.ok (), d)
  | k + 1, d =>
    match readAt d._buffer (index + ((k + 1 : Nat) : Int) - 1) with
    | .error f => (.error (.fault f), d)
    | .ok v =>
      match writeAt d._buffer (index + ((k + 1 : Nat) : Int)) v with
      | .error f => (.error (.fault f), d)
      | .ok buffer => dynarray.shift_loop_on index k { d with _buffer := buffer }

/-- Method `dynarray::insert` on a heap that may be exhausted, on 32-bit `int` as
`dynarray.insert`: how the call ends, and the object as the call leaves it. -/
def dynarray.insert_on {α : Type} [Inhabited α] (heap : Int → Bool) (d : dynarray α)
    (index : Int) (t : α) : Except Stop Unit × dynarray α :=
  let topIndex : Int := if index > d._size then index else d._size
  let grown : Except Stop Unit × dynarray α :=
    if topIndex > wrap32 (d._capacity - 1) then
      match dynarray.grow_loop32 topIndex 64
          (if d._capacity > 0 then d._capacity else 1) with
      | .error f => (.error (.fault f), d)
      | .ok cap => d.reserve_on heap cap
    else (.ok (), d)
  match grown with
  | (.error e, d) => (.error e, d)
  | (.ok _, d) =>
    match dynarray.shift_loop_on index (d._size - index).toNat d with
    | (.error e, d) => (.error e, d)
    | (.ok _, d) =>
      match writeAt d._buffer index t with
      | .error f => (.error (.fault f), d)
      | .ok buffer => (.ok (), { d with _buffer := buffer, _size := wrap32 (topIndex + 1) })

/-! ## `float3` of `Oats-Math.h`, over exact rational arithmetic -/

/-- Struct `float3`, with `float` replaced by the rationals. -/
structure float3 where
  x : ℚ
  y : ℚ
  z : ℚ
  deriving DecidableEq

/-- Function `operator/(const float3&, const float)`. -/
def float3.div (v : float3) (s : ℚ) : float3 :=
  { x := v.x / s, y := v.y / s, z := v.z / 2 }

/-- Function `dot(const float3&, const float3&)`. -/
def float3.dot (v1 v2 : float3) : ℚ :=
  (v1.x * v2.x) + (v1.y * v2.y) + (v1.z * v2.z)

/-- Function `lengthsq(const float3&)`. -/
def float3.lengthsq (v : float3) : ℚ :=
  float3.dot v v

/-- Function `zero3`. -/
def zero3 : float3 :=
  { x := 0, y := 0, z := 0 }

/-- Function `normalizesafe(const float3&)`; the library function `std::sqrtf` is the
parameter `sqrtf`. -/
def float3.normalizesafe (sqrtf : ℚ → ℚ) (v : float3) : float3 :=
  let sqrMag := float3.lengthsq v
  if sqrMag > 0 then float3.div v (sqrtf sqrMag) else zero3

/-! ## Raw buffer accesses -/

theorem readAt_ok {α : Type} {buf : List α} {i : Int} {v : α} (h0 : 0 ≤ i)
    (h : buf[i.toNat]? = some v) : readAt buf i = .ok v := by
  unfold readAt
  rw [if_pos h0, h]

theorem readAt_ok_iff {α : Type} {buf : List α} {i : Int} {v : α} :
    readAt buf i = .ok v ↔ 0 ≤ i ∧ buf[i.toNat]? = some v := by
  constructor
  · intro h
    unfold readAt at h
    by_cases h0 : 0 ≤ i
    · rw [if_pos h0] at h
      cases hb : buf[i.toNat]? with
      | none => rw [hb] at h; cases h
      | some w => rw [hb] at h; cases h; exact ⟨h0, rfl⟩
    · rw [if_neg h0] at h
      cases h
  · rintro ⟨h0, h⟩
    exact readAt_ok h0 h

theorem readAt_natCast {α : Type} {buf : List α} {n : Nat} {v : α} (h : buf[n]? = some v) :
    readAt buf (n : Int) = .ok v :=
  readAt_ok (Int.ofNat_nonneg n) (by simpa using h)

theorem writeAt_ok {α : Type} {buf : List α} {i : Int} (v : α) (h0 : 0 ≤ i)
    (h : i.toNat < buf.length) : writeAt buf i v = .ok (buf.set i.toNat v) := by
  unfold writeAt
  rw [if_pos ⟨h0, h⟩]

theorem writeAt_ok_iff {α : Type} {buf out : List α} {i : Int} {v : α} :
    writeAt buf i v = .ok out ↔ (0 ≤ i ∧ i.toNat < buf.length) ∧ out = buf.set i.toNat v := by
  unfold writeAt
  by_cases h : 0 ≤ i ∧ i.toNat < buf.length
  · rw [if_pos h]
    constructor
    · intro e; cases e; exact ⟨h, rfl⟩
    · rintro ⟨_, rfl⟩; rfl
  · rw [if_neg h]
    constructor
    · intro e; cases e
    · rintro ⟨h2, _⟩; exact absurd h2 h

theorem getElem?_eq_some_get {α : Type} (buf : List α) (n : Nat) (h : n < buf.length) :
    ∃ v, buf[n]? = some v :=
  ⟨buf[n], List.getElem?_eq_getElem h⟩

/-! ## The loops of `dynarray` -/

theorem reserve_copy_spec {α : Type} (src : List α) (cap : Int) (k : Nat) :
    ∀ temp : List α, (k : Int) ≤ cap → cap ≤ (src.length : Int) → cap ≤ (temp.length : Int) →
      ∃ out, dynarray.reserve_copy src cap k temp = .ok out ∧ out.length = temp.length ∧
        ∀ j : Nat, out[j]? =
          if cap - (k : Int) ≤ (j : Int) ∧ (j : Int) < cap then src[j]? else temp[j]? := by
  induction k with
  | zero =>
    intro temp _ _ _
    refine ⟨temp, rfl, rfl, fun j => ?_⟩
    rw [if_neg]
    omega
  | succ k ih =>
    intro temp hk hsrc htemp
    have hi0 : 0 ≤ cap - ((k + 1 : Nat) : Int) := by omega
    obtain ⟨v, hv⟩ := getElem?_eq_some_get src (cap - ((k + 1 : Nat) : Int)).toNat (by omega)
    have hw : (cap - ((k + 1 : Nat) : Int)).toNat < temp.length := by omega
    obtain ⟨out, hout, hlen, hget⟩ :=
      ih (temp.set (cap - ((k + 1 : Nat) : Int)).toNat v) (by omega) hsrc
        (by rw [List.length_set]; exact htemp)
    refine ⟨out, ?_, ?_, fun j => ?_⟩
    · unfold dynarray.reserve_copy
      simp only [readAt_ok hi0 hv, writeAt_ok v hi0 hw, bind, Except.bind]
      exact hout
    · rw [hlen, List.length_set]
    · rw [hget j, List.getElem?_set]
      by_cases hj : (cap - ((k + 1 : Nat) : Int)).toNat = j
      · subst hj
        rw [if_pos rfl, if_pos hw, hv]
        split <;> split <;> first | rfl | omega
      · rw [if_neg hj]
        split <;> split <;> first | rfl | omega

theorem shift_loop_spec {α : Type} (index : Int) (h0 : 0 ≤ index) (k : Nat) :
    ∀ buf : List α, index + (k : Int) < (buf.length : Int) →
      ∃ out, dynarray.shift_loop index k buf = .ok out ∧ out.length = buf.length ∧
        ∀ j : Nat, out[j]? =
          if index < (j : Int) ∧ (j : Int) ≤ index + (k : Int) then buf[j - 1]? else buf[j]? := by
  induction k with
  | zero =>
    intro buf _
    refine ⟨buf, rfl, rfl, fun j => ?_⟩
    rw [if_neg]
    omega
  | succ k ih =>
    intro buf hlen
    have hi0 : 0 ≤ index + ((k + 1 : Nat) : Int) - 1 := by omega
    have hi1 : 0 ≤ index + ((k + 1 : Nat) : Int) := by omega
    obtain ⟨v, hv⟩ :=
      getElem?_eq_some_get buf (index + ((k + 1 : Nat) : Int) - 1).toNat (by omega)
    have hw : (index + ((k + 1 : Nat) : Int)).toNat < buf.length := by omega
    obtain ⟨out, hout, hlen2, hget⟩ :=
      ih (buf.set (index + ((k + 1 : Nat) : Int)).toNat v)
        (by rw [List.length_set]; omega)
    refine ⟨out, ?_, ?_, fun j => ?_⟩
    · unfold dynarray.shift_loop
      simp only [readAt_ok hi0 hv, writeAt_ok v hi1 hw, bind, Except.bind]
      exact hout
    · rw [hlen2, List.length_set]
    · rw [hget j, List.getElem?_set, List.getElem?_set]
      by_cases hj : (index + ((k + 1 : Nat) : Int)).toNat = j
      · have hj1 : (index + ((k + 1 : Nat) : Int) - 1).toNat = j - 1 := by omega
        rw [if_pos hj, if_pos hw, if_neg (by omega), if_pos (by omega), ← hj1, hv]
      · rw [if_neg hj]
        by_cases hc : index < (j : Int) ∧ (j : Int) ≤ index + (k : Int)
        · rw [if_pos hc, if_neg (by omega), if_pos (by omega)]
        · rw [if_neg hc, if_neg (by omega)]

theorem new_array_ok {α : Type} [Inhabited α] {n : Int} (h : 0 ≤ n) :
    (new_array n : Except Fault (List α)) = .ok (List.replicate n.toNat default) := by
  unfold new_array
  rw [if_neg (by omega)]

theorem reserve_of_le {α : Type} [Inhabited α] (d : dynarray α) (n : Int)
    (h : n ≤ d._capacity) : d.reserve n = .ok d := by
  unfold dynarray.reserve
  rw [if_pos h]
  rfl

theorem reserve_of_lt {α : Type} [Inhabited α] (d : dynarray α) (n : Int)
    (hlen : (d._buffer.length : Int) = d._capacity) (h : d._capacity < n) :
    d.reserve n = .ok { d with
      _buffer := d._buffer ++ List.replicate (n - d._capacity).toNat default,
      _capacity := n } := by
  obtain ⟨out, hout, _, hget⟩ :=
    reserve_copy_spec d._buffer d._capacity d._capacity.toNat
      (List.replicate n.toNat (default : α)) (by omega) (by omega)
      (by rw [List.length_replicate]; omega)
  have hbuf : out = d._buffer ++ List.replicate (n - d._capacity).toNat default := by
    apply List.ext_getElem?
    intro j
    rw [hget j, List.getElem?_append, List.getElem?_replicate, List.getElem?_replicate]
    by_cases hj : (j : Int) < d._capacity
    · rw [if_pos ⟨by omega, hj⟩, if_pos (show j < d._buffer.length by omega)]
    · rw [if_neg (fun hc => hj hc.2), if_neg (show ¬ j < d._buffer.length by omega)]
      by_cases hj2 : j < n.toNat
      · rw [if_pos hj2, if_pos (show j - d._buffer.length < (n - d._capacity).toNat by omega)]
      · rw [if_neg hj2,
          if_neg (show ¬ j - d._buffer.length < (n - d._capacity).toNat by omega)]
  unfold dynarray.reserve
  rw [if_neg (by omega), new_array_ok (by omega)]
  simp only [bind, Except.bind, hout, hbuf]
  rfl


/-! ## The doubling loop -/

theorem wrap32_id (x : Int) (h0 : -2147483648 ≤ x) (h1 : x ≤ 2147483647) : wrap32 x = x := by
  unfold wrap32
  omega

theorem grow_loop_spec (topIndex : Int) (fuel : Nat) :
    ∀ cap : Int, 0 < cap → topIndex + 1 - cap ≤ (fuel : Int) →
      ∃ k : Nat, dynarray.grow_loop_exact topIndex fuel cap = .ok (cap * 2 ^ k) ∧
        topIndex + 1 ≤ cap * 2 ^ k ∧ ∀ j : Nat, j < k → cap * 2 ^ j < topIndex + 1 := by
  induction fuel with
  | zero =>
    intro cap _ hfuel
    refine ⟨0, ?_, by omega, fun j hj => absurd hj (Nat.not_lt_zero j)⟩
    unfold dynarray.grow_loop_exact
    rw [if_neg (by omega)]
    simp [pure, Except.pure]
  | succ fuel ih =>
    intro cap hcap hfuel
    by_cases hc : cap < topIndex + 1
    · obtain ⟨k, hk, hge, hmin⟩ := ih (cap * 2) (by omega) (by omega)
      refine ⟨k + 1, ?_, ?_, ?_⟩
      · unfold dynarray.grow_loop_exact
        rw [if_pos hc]
        show dynarray.grow_loop_exact topIndex fuel (cap * 2) = _
        rw [hk, pow_succ]
        congr 1
        ring
      · rw [pow_succ]
        have : cap * (2 ^ k * 2) = cap * 2 * 2 ^ k := by ring
        omega
      · intro j hj
        cases j with
        | zero => simpa using hc
        | succ j =>
          have := hmin j (by omega)
          rw [pow_succ]
          have e : cap * (2 ^ j * 2) = cap * 2 * 2 ^ j := by ring
          omega
    · refine ⟨0, ?_, by omega, fun j hj => absurd hj (Nat.not_lt_zero j)⟩
      unfold dynarray.grow_loop_exact
      rw [if_neg hc]
      simp [pure, Except.pure]

theorem grow_loop_exact_steps (topIndex : Int) (k : Nat) :
    ∀ cap : Int, (∀ j : Nat, j < k → cap * 2 ^ j < topIndex + 1) → topIndex + 1 ≤ cap * 2 ^ k →
      ∀ fuel : Nat, k ≤ fuel → dynarray.grow_loop_exact topIndex fuel cap = .ok (cap * 2 ^ k) := by
  induction k with
  | zero =>
    intro cap _ hge fuel _
    rw [pow_zero, Int.mul_one] at hge ⊢
    cases fuel with
    | zero =>
      unfold dynarray.grow_loop_exact
      rw [if_neg (by omega)]
      rfl
    | succ fuel =>
      unfold dynarray.grow_loop_exact
      rw [if_neg (by omega)]
      rfl
  | succ k ih =>
    intro cap hmin hge fuel hf
    have hlt : cap < topIndex + 1 := by
      have := hmin 0 (Nat.succ_pos k)
      simpa using this
    cases fuel with
    | zero => omega
    | succ fuel =>
      unfold dynarray.grow_loop_exact
      rw [if_pos hlt]
      have e : ∀ j : Nat, cap * dynarray.EXPANSION_FACTOR * 2 ^ j = cap * 2 ^ (j + 1) := by
        intro j
        unfold dynarray.EXPANSION_FACTOR
        rw [pow_succ]
        ring
      rw [← e k]
      refine ih _ (fun j hj => ?_) ?_ fuel (by omega)
      · rw [e j]
        exact hmin (j + 1) (by omega)
      · rw [e k]
        exact hge

theorem grow_loop32_eq (topIndex : Int) (h0 : 0 ≤ topIndex + 1)
    (hb : topIndex + 1 ≤ 1073741824) (fuel : Nat) :
    ∀ cap : Int, 0 < cap → cap ≤ 2147483647 →
      dynarray.grow_loop32 topIndex fuel cap = dynarray.grow_loop_exact topIndex fuel cap := by
  have hw : wrap32 (topIndex + 1) = topIndex + 1 := wrap32_id _ (by omega) (by omega)
  induction fuel with
  | zero =>
    intro cap _ _
    unfold dynarray.grow_loop32 dynarray.grow_loop_exact
    rw [hw]
  | succ fuel ih =>
    intro cap hc0 hc1
    unfold dynarray.grow_loop32 dynarray.grow_loop_exact
    rw [hw]
    by_cases hc : cap < topIndex + 1
    · rw [if_pos hc, if_pos hc]
      have e : wrap32 (cap * dynarray.EXPANSION_FACTOR) = cap * dynarray.EXPANSION_FACTOR := by
        unfold dynarray.EXPANSION_FACTOR
        exact wrap32_id _ (by omega) (by omega)
      rw [e]
      exact ih _ (by unfold dynarray.EXPANSION_FACTOR; omega)
        (by unfold dynarray.EXPANSION_FACTOR; omega)
    · rw [if_neg hc, if_neg hc]

theorem grow_loop32_zero (topIndex : Int) (h : 0 < wrap32 (topIndex + 1)) (fuel : Nat) :
    dynarray.grow_loop32 topIndex fuel 0 = .error .iteration_budget := by
  induction fuel with
  | zero =>
    unfold dynarray.grow_loop32
    rw [if_pos h]
  | succ fuel ih =>
    unfold dynarray.grow_loop32
    rw [if_pos h]
    have e : wrap32 (0 * dynarray.EXPANSION_FACTOR) = 0 := by decide
    rw [e]
    exact ih

theorem grow_loop32_min (fuel : Nat) :
    dynarray.grow_loop32 1073741824 fuel (-2147483648) = .error .iteration_budget := by
  have hw : wrap32 (1073741824 + 1) = 1073741825 := by decide
  cases fuel with
  | zero =>
    unfold dynarray.grow_loop32
    rw [hw, if_pos (by decide)]
  | succ fuel =>
    unfold dynarray.grow_loop32
    rw [hw, if_pos (by decide)]
    have e : wrap32 (-2147483648 * dynarray.EXPANSION_FACTOR) = 0 := by decide
    rw [e]
    exact grow_loop32_zero _ (by rw [hw]; decide) fuel

theorem grow_loop32_pow (n : Nat) :
    n ≤ 30 → ∀ fuel : Nat,
      dynarray.grow_loop32 1073741824 fuel (2 ^ (30 - n)) = .error .iteration_budget := by
  have hw : wrap32 (1073741824 + 1) = 1073741825 := by decide
  induction n with
  | zero =>
    intro _ fuel
    have hp : (2 : Int) ^ (30 - 0) = 1073741824 := by norm_num
    rw [hp]
    cases fuel with
    | zero =>
      unfold dynarray.grow_loop32
      rw [hw, if_pos (by decide)]
    | succ fuel =>
      unfold dynarray.grow_loop32
      rw [hw, if_pos (by decide)]
      have e : wrap32 (1073741824 * dynarray.EXPANSION_FACTOR) = -2147483648 := by decide
      rw [e]
      exact grow_loop32_min fuel
  | succ n ih =>
    intro hn fuel
    have hle : (2 : Int) ^ (30 - (n + 1)) * 2 ≤ 2 ^ 30 := by
      rw [← pow_succ]
      exact pow_le_pow_right₀ (by norm_num) (by omega)
    have hpos : (0 : Int) < 2 ^ (30 - (n + 1)) := pow_pos (by norm_num) _
    have h30 : (2 : Int) ^ 30 = 1073741824 := by norm_num
    rw [h30] at hle
    have hlt : (2 : Int) ^ (30 - (n + 1)) < 1073741825 := by omega
    cases fuel with
    | zero =>
      unfold dynarray.grow_loop32
      rw [hw, if_pos hlt]
    | succ fuel =>
      unfold dynarray.grow_loop32
      rw [hw, if_pos hlt]
      have e : wrap32 (2 ^ (30 - (n + 1)) * dynarray.EXPANSION_FACTOR) = 2 ^ (30 - n) := by
        have e2 : (2 : Int) ^ (30 - n) = 2 ^ (30 - (n + 1)) * 2 := by
          rw [← pow_succ]
          congr 1
          omega
        rw [e2]
        unfold dynarray.EXPANSION_FACTOR
        exact wrap32_id _ (by omega) (by omega)
      rw [e]
      exact ih (by omega) fuel

theorem grow_loop_more_fuel (topIndex : Int) (fuel : Nat) :
    ∀ (cap r : Int) (m : Nat), dynarray.grow_loop_exact topIndex fuel cap = .ok r →
      dynarray.grow_loop_exact topIndex (fuel + m) cap = .ok r := by
  induction fuel with
  | zero =>
    intro cap r m h
    unfold dynarray.grow_loop_exact at h
    by_cases hc : cap < topIndex + 1
    · rw [if_pos hc] at h
      cases h
    · rw [if_neg hc] at h
      cases m with
      | zero => unfold dynarray.grow_loop_exact; rw [if_neg hc]; exact h
      | succ m =>
        show dynarray.grow_loop_exact topIndex (0 + m + 1) cap = _
        unfold dynarray.grow_loop_exact
        rw [if_neg hc]
        exact h
  | succ fuel ih =>
    intro cap r m h
    have e : fuel + 1 + m = (fuel + m) + 1 := by omega
    rw [e]
    unfold dynarray.grow_loop_exact at h ⊢
    by_cases hc : cap < topIndex + 1
    · rw [if_pos hc] at h ⊢
      exact ih _ r m h
    · rw [if_neg hc] at h ⊢
      exact h

theorem grow_loop32_more_fuel (topIndex : Int) (fuel : Nat) :
    ∀ (cap r : Int) (m : Nat), dynarray.grow_loop32 topIndex fuel cap = .ok r →
      dynarray.grow_loop32 topIndex (fuel + m) cap = .ok r := by
  induction fuel with
  | zero =>
    intro cap r m h
    unfold dynarray.grow_loop32 at h
    by_cases hc : cap < wrap32 (topIndex + 1)
    · rw [if_pos hc] at h
      cases h
    · rw [if_neg hc] at h
      cases m with
      | zero => unfold dynarray.grow_loop32; rw [if_neg hc]; exact h
      | succ m =>
        show dynarray.grow_loop32 topIndex (0 + m + 1) cap = _
        unfold dynarray.grow_loop32
        rw [if_neg hc]
        exact h
  | succ fuel ih =>
    intro cap r m h
    have e : fuel + 1 + m = (fuel + m) + 1 := by omega
    rw [e]
    unfold dynarray.grow_loop32 at h ⊢
    by_cases hc : cap < wrap32 (topIndex + 1)
    · rw [if_pos hc] at h ⊢
      exact ih _ r m h
    · rw [if_neg hc] at h ⊢
      exact h

theorem grow_loop32_error (topIndex : Int) (fuel : Nat) :
    ∀ (cap : Int) (e : Fault), dynarray.grow_loop32 topIndex fuel cap = .error e →
      e = .iteration_budget := by
  induction fuel with
  | zero =>
    intro cap e h
    unfold dynarray.grow_loop32 at h
    by_cases hc : cap < wrap32 (topIndex + 1)
    · rw [if_pos hc] at h
      cases h
      rfl
    · rw [if_neg hc] at h
      cases h
  | succ fuel ih =>
    intro cap e h
    unfold dynarray.grow_loop32 at h
    by_cases hc : cap < wrap32 (topIndex + 1)
    · rw [if_pos hc] at h
      exact ih _ e h
    · rw [if_neg hc] at h
      cases h

theorem grow_loop32_less_fuel (topIndex : Int) (fuel m : Nat) (cap : Int) (e : Fault)
    (h : dynarray.grow_loop32 topIndex (fuel + m) cap = .error e) :
    dynarray.grow_loop32 topIndex fuel cap = .error .iteration_budget := by
  cases hf : dynarray.grow_loop32 topIndex fuel cap with
  | error e2 => rw [grow_loop32_error topIndex fuel cap e2 hf]
  | ok r =>
    rw [grow_loop32_more_fuel topIndex fuel cap r m hf] at h
    cases h

theorem wrap32_double (x : Int) : wrap32 (wrap32 x * 2) = wrap32 (x * 2) := by
  unfold wrap32
  omega

theorem double_iterate (n : Nat) (cap : Int) :
    (fun c : Int => wrap32 (c * dynarray.EXPANSION_FACTOR))^[n + 1] cap =
      wrap32 (cap * 2 ^ (n + 1)) := by
  induction n with
  | zero =>
    show wrap32 (cap * 2) = wrap32 (cap * 2 ^ (0 + 1))
    rw [Nat.zero_add, pow_one]
  | succ n ih =>
    rw [Function.iterate_succ_apply', ih]
    show wrap32 (wrap32 (cap * 2 ^ (n + 1)) * 2) = _
    rw [wrap32_double, pow_succ (2 : Int) (n + 1), Int.mul_assoc]

theorem grow_loop32_iterate (topIndex : Int) (n : Nat) :
    ∀ (cap : Int) (e : Fault), dynarray.grow_loop32 topIndex n cap = .error e →
      ∀ k : Nat, dynarray.grow_loop32 topIndex (n + k) cap =
        dynarray.grow_loop32 topIndex k
          ((fun c : Int => wrap32 (c * dynarray.EXPANSION_FACTOR))^[n] cap) := by
  induction n with
  | zero =>
    intro cap e _ k
    rw [Nat.zero_add]
    rfl
  | succ n ih =>
    intro cap e h k
    unfold dynarray.grow_loop32 at h
    by_cases hc : cap < wrap32 (topIndex + 1)
    · rw [if_pos hc] at h
      have e2 : n + 1 + k = (n + k) + 1 := by omega
      rw [e2, Function.iterate_succ_apply]
      have step : dynarray.grow_loop32 topIndex (n + k + 1) cap =
          dynarray.grow_loop32 topIndex (n + k) (wrap32 (cap * dynarray.EXPANSION_FACTOR)) := by
        rw [dynarray.grow_loop32, if_pos hc]
      rw [step]
      exact ih _ e h k
    · rw [if_neg hc] at h
      cases h

/-- The iteration budget of 64 is used up only by a loop that never ends: if 64 iterations do
not end the loop, no number of iterations does. -/
theorem grow_loop32_stuck (topIndex cap : Int) (e : Fault)
    (h : dynarray.grow_loop32 topIndex 64 cap = .error e) (fuel : Nat) :
    dynarray.grow_loop32 topIndex fuel cap = .error .iteration_budget := by
  have h32 := grow_loop32_less_fuel topIndex 32 32 cap e h
  have h33 := grow_loop32_less_fuel topIndex 33 31 cap e h
  have hit := grow_loop32_iterate topIndex 32 cap _ h32
  have hz : (fun c : Int => wrap32 (c * dynarray.EXPANSION_FACTOR))^[32] cap = 0 := by
    rw [double_iterate 31 cap]
    have : (2 : Int) ^ (31 + 1) = 4294967296 := by norm_num
    rw [this]
    unfold wrap32
    omega
  rw [hz] at hit
  have h1 : dynarray.grow_loop32 topIndex 1 0 = .error .iteration_budget := by
    rw [← hit 1]
    exact h33
  have hpos : 0 < wrap32 (topIndex + 1) := by
    unfold dynarray.grow_loop32 at h1
    by_contra hc
    rw [if_neg hc] at h1
    cases h1
  by_cases hf : fuel ≤ 32
  · have e2 : 32 = fuel + (32 - fuel) := by omega
    rw [e2] at h32
    exact grow_loop32_less_fuel topIndex fuel (32 - fuel) cap _ h32
  · have e2 : fuel = 32 + (fuel - 32) := by omega
    rw [e2, hit]
    exact grow_loop32_zero topIndex hpos _

/-- The doubling loop on a need of at most `2 ^ 30`: it ends after `k ≤ 30` doublings, in
exact arithmetic and on 32-bit `int` alike, at the least `c0 * 2 ^ k` that reaches the need. -/
theorem grow_spec (topIndex c0 : Int) (hc0 : 0 < c0) (hc1 : c0 ≤ 2147483647)
    (h0 : 0 ≤ topIndex + 1) (hb : topIndex + 1 ≤ 1073741824) :
    ∃ k : Nat, k ≤ 30 ∧ topIndex + 1 ≤ c0 * 2 ^ k ∧
      (∀ j : Nat, j < k → c0 * 2 ^ j < topIndex + 1) ∧
      (∀ fuel : Nat, k ≤ fuel →
        dynarray.grow_loop_exact topIndex fuel c0 = .ok (c0 * 2 ^ k)) ∧
      (∀ fuel : Nat, k ≤ fuel → dynarray.grow_loop32 topIndex fuel c0 = .ok (c0 * 2 ^ k)) ∧
      (∀ fuel : Nat, (topIndex + 1).toNat ≤ fuel →
        dynarray.grow_loop32 topIndex fuel c0 = .ok (c0 * 2 ^ k)) := by
  obtain ⟨k, _, hge, hmin⟩ := grow_loop_spec topIndex (topIndex + 1).toNat c0 hc0 (by omega)
  have hk : k ≤ 30 := by
    by_contra hlt
    have h30 := hmin 30 (by omega)
    have e : (2 : Int) ^ 30 = 1073741824 := by norm_num
    rw [e] at h30
    omega
  have hex := grow_loop_exact_steps topIndex k c0 hmin hge
  refine ⟨k, hk, hge, hmin, hex, fun fuel hf => ?_, fun fuel hf => ?_⟩
  · rw [grow_loop32_eq topIndex h0 hb fuel c0 hc0 hc1]
    exact hex fuel hf
  · rw [grow_loop32_eq topIndex h0 hb fuel c0 hc0 hc1]
    obtain ⟨k2, hk2, hge2, hmin2⟩ := grow_loop_spec topIndex fuel c0 hc0 (by omega)
    have hkk : k2 = k := by
      rcases Nat.lt_trichotomy k2 k with hlt | heq | hgt
      · have := hmin k2 hlt; omega
      · exact heq
      · have := hmin2 k hgt; omega
    rw [hk2, hkk]

theorem insert_tail_spec {α : Type} (b : List α) (size index : Int) (h0 : 0 ≤ index)
    (hi : index < (b.length : Int)) (hs : size < (b.length : Int)) (t : α) :
    ∃ b1 buf, dynarray.shift_loop index (size - index).toNat b = .ok b1 ∧
      writeAt b1 index t = .ok buf ∧ buf.length = b.length ∧
      ∀ j : Nat, buf[j]? =
        if (j : Int) = index then some t
        else if index < (j : Int) ∧ (j : Int) ≤ size then b[j - 1]? else b[j]? := by
  obtain ⟨b1, hb1, hlen1, hget1⟩ :=
    shift_loop_spec index h0 (size - index).toNat b (by omega)
  have hw : index.toNat < b1.length := by omega
  refine ⟨b1, b1.set index.toNat t, hb1, writeAt_ok t h0 hw, ?_, fun j => ?_⟩
  · rw [List.length_set, hlen1]
  · rw [List.getElem?_set, hget1 j]
    by_cases hj : (j : Int) = index
    · rw [if_pos (show index.toNat = j by omega), if_pos hw, if_pos hj]
    · rw [if_neg (show ¬ index.toNat = j by omega), if_neg hj]
      by_cases hc : index < (j : Int) ∧ (j : Int) ≤ size
      · rw [if_pos hc,
          if_pos (show index < (j : Int) ∧ (j : Int) ≤ index + ((size - index).toNat : Int) by
            omega)]
      · rw [if_neg hc,
          if_neg (show ¬ (index < (j : Int) ∧ (j : Int) ≤ index + ((size - index).toNat : Int)) by
            omega)]

/-- Everything `insert` does on a well-formed state whose growth fits, for an index that is
not negative: the call returns, and the new capacity, size and buffer are determined slot by
slot. -/
theorem insert_spec {α : Type} [Inhabited α] (d : dynarray α) (hwf : d.WF)
    (hcm : d._capacity ≤ 2147483647) (index : Int) (h0 : 0 ≤ index) (hfit : d.fits index)
    (t : α) :
    ∃ (cap : Int) (buf : List α),
      d.insert index t =
        .ok { _buffer := buf, _size := max index d._size + 1, _capacity := cap } ∧
      (max index d._size + 1 ≤ d._capacity → cap = d._capacity) ∧
      (d._capacity < max index d._size + 1 →
        ∃ k : Nat, k ≤ 30 ∧ cap = (if d._capacity > 0 then d._capacity else 1) * 2 ^ k ∧
          (∀ j : Nat, j < k →
            (if d._capacity > 0 then d._capacity else 1) * 2 ^ j < max index d._size + 1) ∧
          ∀ fuel : Nat, k ≤ fuel →
            dynarray.grow_loop32 (max index d._size) fuel
              (if d._capacity > 0 then d._capacity else 1) = .ok cap) ∧
      max index d._size + 1 ≤ cap ∧ d._capacity ≤ cap ∧ cap ≤ 2147483647 ∧
      (buf.length : Int) = cap ∧
      ∀ j : Nat, buf[j]? =
        if (j : Int) = index then some t
        else if index < (j : Int) ∧ (j : Int) ≤ d._size then d._buffer[j - 1]?
        else if (j : Int) < d._capacity then d._buffer[j]?
        else if (j : Int) < cap then some default else none := by
  obtain ⟨hs0, hsc, hlen⟩ := hwf
  have htop : (if index > d._size then index else d._size) = max index d._size := by
    split <;> omega
  have hw1 : wrap32 (d._capacity - 1) = d._capacity - 1 := wrap32_id _ (by omega) (by omega)
  have hw2 : wrap32 (max index d._size + 1) = max index d._size + 1 := by
    unfold dynarray.fits at hfit
    exact wrap32_id _ (by omega) (by omega)
  by_cases hgrow : max index d._size > d._capacity - 1
  · -- the capacity is grown
    have hc0 : 0 < (if d._capacity > 0 then d._capacity else 1) := by split <;> omega
    have hc1 : (if d._capacity > 0 then d._capacity else 1) ≤ 2147483647 := by split <;> omega
    have hb : max index d._size + 1 ≤ 1073741824 := by
      unfold dynarray.fits at hfit
      omega
    obtain ⟨k, hk30, hge, hmin, _, hfuel, _⟩ :=
      grow_spec (max index d._size) _ hc0 hc1 (by omega) hb
    have hcapmax : (if d._capacity > 0 then d._capacity else 1) * 2 ^ k ≤ 2147483647 := by
      cases k with
      | zero =>
        rw [pow_zero, Int.mul_one]
        exact hc1
      | succ k =>
        have := hmin k (Nat.lt_succ_self k)
        have e : (if d._capacity > 0 then d._capacity else 1) * 2 ^ (k + 1) =
            2 * ((if d._capacity > 0 then d._capacity else 1) * 2 ^ k) := by ring
        rw [e]
        omega
    generalize hcap : (if d._capacity > 0 then d._capacity else 1) * 2 ^ k = cap
      at hge hfuel hcapmax
    have hres := reserve_of_lt d cap hlen (by omega)
    obtain ⟨b1, buf, hb1, hbuf, hlenb, hget⟩ :=
      insert_tail_spec (d._buffer ++ List.replicate (cap - d._capacity).toNat default)
        d._size index h0 (by rw [List.length_append, List.length_replicate]; omega)
        (by rw [List.length_append, List.length_replicate]; omega) t
    refine ⟨cap, buf, ?_, fun h => by omega, fun _ => ⟨k, hk30, hcap.symm, ?_, hfuel⟩, hge,
      by omega, hcapmax, ?_, fun j => ?_⟩
    · unfold dynarray.insert
      simp only [htop, hw1, hw2, if_pos hgrow, hfuel 64 (by omega), hres, hb1, hbuf, bind,
        Except.bind, pure, Except.pure]
    · intro j hj
      exact hmin j hj
    · rw [hlenb, List.length_append, List.length_replicate]; omega
    · rw [hget j, List.getElem?_append, List.getElem?_append, List.getElem?_replicate,
        List.getElem?_replicate]
      by_cases hj : (j : Int) = index
      · rw [if_pos hj, if_pos hj]
      · rw [if_neg hj, if_neg hj]
        by_cases hc : index < (j : Int) ∧ (j : Int) ≤ d._size
        · rw [if_pos hc, if_pos hc, if_pos (show j - 1 < d._buffer.length by omega)]
        · rw [if_neg hc, if_neg hc]
          by_cases hj2 : (j : Int) < d._capacity
          · rw [if_pos hj2, if_pos (show j < d._buffer.length by omega)]
          · rw [if_neg hj2, if_neg (show ¬ j < d._buffer.length by omega)]
            by_cases hj3 : (j : Int) < cap
            · rw [if_pos hj3,
                if_pos (show j - d._buffer.length < (cap - d._capacity).toNat by omega)]
            · rw [if_neg hj3,
                if_neg (show ¬ j - d._buffer.length < (cap - d._capacity).toNat by omega)]
  · -- the capacity is enough
    obtain ⟨b1, buf, hb1, hbuf, hlenb, hget⟩ :=
      insert_tail_spec d._buffer d._size index h0 (by omega) (by omega) t
    refine ⟨d._capacity, buf, ?_, fun _ => rfl, fun h => by omega, by omega, le_refl _, hcm,
      by omega, fun j => ?_⟩
    · unfold dynarray.insert
      simp only [htop, hw1, hw2, if_neg hgrow, hb1, hbuf, bind, Except.bind, pure, Except.pure]
    · rw [hget j]
      by_cases hj : (j : Int) = index
      · rw [if_pos hj, if_pos hj]
      · rw [if_neg hj, if_neg hj]
        by_cases hc : index < (j : Int) ∧ (j : Int) ≤ d._size
        · rw [if_pos hc, if_pos hc]
        · rw [if_neg hc, if_neg hc]
          by_cases hj2 : (j : Int) < d._capacity
          · rw [if_pos hj2]
          · rw [if_neg hj2, if_neg hj2]
            exact List.getElem?_eq_none (by omega)

/-- An `insert` whose doubling loop does not end does not return. -/
theorem insert_grow_error {α : Type} [Inhabited α] (d : dynarray α) (index : Int) (t : α)
    (e : Fault) (topIndex c0 : Int)
    (hT : (if index > d._size then index else d._size) = topIndex)
    (hc : (if d._capacity > 0 then d._capacity else 1) = c0)
    (hgrow : topIndex > wrap32 (d._capacity - 1))
    (hloop : dynarray.grow_loop32 topIndex 64 c0 = .error e) :
    d.insert index t = .error e := by
  unfold dynarray.insert
  simp only [hT, hc, if_pos hgrow, hloop, bind, Except.bind]

theorem grow_loop32_full (fuel : Nat) :
    dynarray.grow_loop32 1073741824 fuel 1073741824 = .error .iteration_budget := by
  have h := grow_loop32_pow 0 (by omega) fuel
  have e : (2 : Int) ^ (30 - 0) = 1073741824 := by norm_num
  rw [e] at h
  exact h

theorem grow_loop32_one (fuel : Nat) :
    dynarray.grow_loop32 1073741824 fuel 1 = .error .iteration_budget := by
  have h := grow_loop32_pow 30 (le_refl 30) fuel
  have e : (2 : Int) ^ (30 - 30) = 1 := by norm_num
  rw [e] at h
  exact h

theorem fits_of_le {α : Type} (d : dynarray α) (index : Int) (h : index ≤ d._size)
    (hfit : d.fits d._size) : d.fits index := by
  unfold dynarray.fits at hfit ⊢
  rw [max_self] at hfit
  rw [max_eq_right h]
  exact hfit

theorem fits_size {α : Type} (d : dynarray α) (index : Int) (hfit : d.fits index) :
    d.fits d._size := by
  unfold dynarray.fits at hfit ⊢
  rw [max_self]
  omega

theorem bind_ok_iff {α β : Type} {x : Except Fault α} {f : α → Except Fault β} {b : β} :
    (x >>= f) = .ok b ↔ ∃ a, x = .ok a ∧ f a = .ok b := by
  cases x <;> simp [bind, Except.bind]

theorem contents_length {α : Type} (d : dynarray α) (hwf : d.WF) :
    (d.contents.length : Int) = d._size := by
  obtain ⟨hs0, hsc, hlen⟩ := hwf
  unfold dynarray.contents
  rw [List.length_take]
  omega
theorem insert_in_range {α : Type} [Inhabited α] (d : dynarray α) (hwf : d.WF)
    (hcm : d._capacity ≤ 2147483647) (index : Int) (h0 : 0 ≤ index) (h1 : index ≤ d._size)
    (hfit : d.fits index) (t : α) :
    ∃ d', d.insert index t = .ok d' ∧ d'._size = d._size + 1 ∧ d'.WF ∧
      d'._capacity ≤ 2147483647 ∧
      d'.contents = d.contents.take index.toNat ++ [t] ++ d.contents.drop index.toNat := by
  obtain ⟨cap, buf, hins, _, _, hge, _, hcapm, hlenb, hget⟩ :=
    insert_spec d hwf hcm index h0 hfit t
  obtain ⟨hs0, hsc, hlen⟩ := hwf
  have hmax : max index d._size = d._size := max_eq_right h1
  rw [hmax] at hins hge
  refine ⟨_, hins, rfl, ⟨by show 0 ≤ d._size + 1; omega, hge, hlenb⟩, hcapm, ?_⟩
  apply List.ext_getElem?
  intro j
  unfold dynarray.contents
  simp only [List.getElem?_take, List.getElem?_append, List.getElem?_drop, List.length_take,
    List.length_append, List.length_singleton, hget j]
  have hmin : min index.toNat (min d._size.toNat d._buffer.length) = index.toNat := by omega
  rw [hmin]
  by_cases hj : (j : Int) < index
  · rw [if_pos (show j < (d._size + 1).toNat by omega), if_neg (show ¬ (j : Int) = index by omega),
      if_neg (show ¬ (index < (j : Int) ∧ (j : Int) ≤ d._size) by omega),
      if_pos (show (j : Int) < d._capacity by omega),
      if_pos (show j < index.toNat + 1 by omega), if_pos (show j < index.toNat by omega),
      if_pos (show j < index.toNat by omega), if_pos (show j < d._size.toNat by omega)]
  · by_cases hj2 : (j : Int) = index
    · rw [if_pos (show j < (d._size + 1).toNat by omega), if_pos hj2,
        if_pos (show j < index.toNat + 1 by omega), if_neg (show ¬ j < index.toNat by omega),
        show j - index.toNat = 0 by omega]
      rfl
    · by_cases hj3 : (j : Int) ≤ d._size
      · rw [if_pos (show j < (d._size + 1).toNat by omega), if_neg hj2,
          if_pos (show index < (j : Int) ∧ (j : Int) ≤ d._size by omega),
          if_neg (show ¬ j < index.toNat + 1 by omega),
          if_pos (show index.toNat + (j - (index.toNat + 1)) < d._size.toNat by omega),
          show index.toNat + (j - (index.toNat + 1)) = j - 1 by omega]
      · rw [if_neg (show ¬ j < (d._size + 1).toNat by omega),
          if_neg (show ¬ j < index.toNat + 1 by omega),
          if_neg (show ¬ index.toNat + (j - (index.toNat + 1)) < d._size.toNat by omega)]


/-! ## Reads of a `dynarray` -/

theorem get_of_contents {α : Type} (d : dynarray α) (i : Nat) (x : α)
    (h : d.contents[i]? = some x) : d.get (i : Int) = .ok x := by
  unfold dynarray.contents at h
  rw [List.getElem?_take] at h
  by_cases hi : i < d._size.toNat
  · rw [if_pos hi] at h
    exact readAt_natCast h
  · rw [if_neg hi] at h
    cases h

theorem get_in_size {α : Type} (d : dynarray α) (hwf : d.WF) (p : Int) (hp0 : 0 ≤ p)
    (hp : p < d._size) : ∃ x, d.get p = .ok x ∧ d._buffer[p.toNat]? = some x := by
  obtain ⟨hs0, hsc, hlen⟩ := hwf
  obtain ⟨x, hx⟩ := getElem?_eq_some_get d._buffer p.toNat (by omega)
  exact ⟨x, readAt_ok hp0 hx, hx⟩

theorem insert_reads {α : Type} [Inhabited α] (d : dynarray α) (hwf : d.WF)
    (hcm : d._capacity ≤ 2147483647) (index : Int) (h0 : 0 ≤ index) (hfit : d.fits index)
    (t : α) :
    ∃ d', d.insert index t = .ok d' ∧ d'.get index = .ok t ∧
      (∀ p : Int, 0 ≤ p → p < index → p < d._size →
        ∃ x, d.get p = .ok x ∧ d'.get p = .ok x) ∧
      (∀ p : Int, index ≤ p → p < d._size →
        ∃ x, d.get p = .ok x ∧ d'.get (p + 1) = .ok x) := by
  obtain ⟨cap, buf, hins, _, _, hge, _, _, hlenb, hget⟩ :=
    insert_spec d hwf hcm index h0 hfit t
  have hwf2 := hwf
  obtain ⟨hs0, hsc, hlen⟩ := hwf2
  refine ⟨_, hins, ?_, ?_, ?_⟩
  · refine readAt_ok h0 ?_
    show buf[index.toNat]? = some t
    rw [hget, if_pos (by omega)]
  · intro p hp0 hpi hps
    obtain ⟨x, hx, hbx⟩ := get_in_size d hwf p hp0 hps
    refine ⟨x, hx, readAt_ok hp0 ?_⟩
    show buf[p.toNat]? = some x
    rw [hget, if_neg (show ¬ ((p.toNat : Nat) : Int) = index by omega),
      if_neg (show ¬ (index < ((p.toNat : Nat) : Int) ∧ ((p.toNat : Nat) : Int) ≤ d._size) by
        omega),
      if_pos (show ((p.toNat : Nat) : Int) < d._capacity by omega), hbx]
  · intro p hpi hps
    obtain ⟨x, hx, hbx⟩ := get_in_size d hwf p (by omega) hps
    refine ⟨x, hx, readAt_ok (by omega) ?_⟩
    show buf[(p + 1).toNat]? = some x
    rw [hget, if_neg (show ¬ (((p + 1).toNat : Nat) : Int) = index by omega),
      if_pos (show index < (((p + 1).toNat : Nat) : Int) ∧
        (((p + 1).toNat : Nat) : Int) ≤ d._size by omega),
      show (p + 1).toNat - 1 = p.toNat by omega, hbx]

theorem insert_size {α : Type} [Inhabited α] (d : dynarray α) (hwf : d.WF)
    (hcm : d._capacity ≤ 2147483647) (index : Int) (h0 : 0 ≤ index) (hfit : d.fits index)
    (t : α) :
    ∃ d', d.insert index t = .ok d' ∧ d'._size = max index d._size + 1 ∧ d'.WF ∧
      d._capacity ≤ d'._capacity ∧ d'._capacity ≤ 2147483647 := by
  obtain ⟨cap, buf, hins, _, _, hge, hcc, hcapm, hlenb, _⟩ :=
    insert_spec d hwf hcm index h0 hfit t
  obtain ⟨hs0, hsc, hlen⟩ := hwf
  exact ⟨_, hins, rfl, ⟨by show 0 ≤ max index d._size + 1; omega, hge, hlenb⟩, hcc, hcapm⟩


theorem ctor_spec {α : Type} [Inhabited α] (c : Int) (hc : 0 ≤ c) :
    (dynarray.ctor c : Except Fault (dynarray α)) =
      .ok { _buffer := List.replicate c.toNat default, _size := 0, _capacity := c } := by
  unfold dynarray.ctor
  rw [new_array_ok hc]
  rfl

theorem reserve_spec {α : Type} [Inhabited α] (d : dynarray α) (hwf : d.WF) (n : Int) :
    ∃ d', d.reserve n = .ok d' ∧ d'._size = d._size ∧ d'._capacity = max d._capacity n ∧
      d'.WF ∧ d'.contents = d.contents := by
  have hwf2 := hwf
  obtain ⟨hs0, hsc, hlen⟩ := hwf2
  by_cases h : n ≤ d._capacity
  · exact ⟨d, reserve_of_le d n h, rfl, (max_eq_left h).symm, hwf, rfl⟩
  · refine ⟨_, reserve_of_lt d n hlen (by omega), rfl, ?_, ⟨hs0, ?_, ?_⟩, ?_⟩
    · show n = max d._capacity n
      omega
    · show d._size ≤ n
      omega
    · show (((d._buffer ++ List.replicate (n - d._capacity).toNat default).length : Nat) : Int)
        = n
      rw [List.length_append, List.length_replicate]
      omega
    · show List.take d._size.toNat
          (d._buffer ++ List.replicate (n - d._capacity).toNat default) =
        List.take d._size.toNat d._buffer
      exact List.take_append_of_le_length (by omega)

/-! ## The capacity never shrinks, on any state -/

theorem pure_ok_iff {α : Type} {a b : α} :
    (pure a : Except Fault α) = .ok b ↔ a = b := by
  constructor
  · intro h; cases h; rfl
  · rintro rfl; rfl

theorem reserve_ok_capacity {α : Type} [Inhabited α] (d d' : dynarray α) (n : Int)
    (h : d.reserve n = .ok d') : d._capacity ≤ d'._capacity := by
  unfold dynarray.reserve at h
  by_cases hc : d._capacity ≥ n
  · rw [if_pos hc, pure_ok_iff] at h
    rw [h]
  · rw [if_neg hc, bind_ok_iff] at h
    obtain ⟨temp, _, h⟩ := h
    rw [bind_ok_iff] at h
    obtain ⟨temp2, _, h⟩ := h
    rw [pure_ok_iff] at h
    rw [← h]
    show d._capacity ≤ n
    omega

theorem insert_ok_capacity {α : Type} [Inhabited α] (d d' : dynarray α) (index : Int) (t : α)
    (h : d.insert index t = .ok d') : d._capacity ≤ d'._capacity := by
  unfold dynarray.insert at h
  simp only [] at h
  by_cases hc : (if index > d._size then index else d._size) > wrap32 (d._capacity - 1)
  · rw [if_pos hc, bind_ok_iff] at h
    obtain ⟨cap, _, h⟩ := h
    rw [bind_ok_iff] at h
    obtain ⟨y, hy, h⟩ := h
    rw [bind_ok_iff] at h
    obtain ⟨b1, _, h⟩ := h
    rw [bind_ok_iff] at h
    obtain ⟨b2, _, h⟩ := h
    rw [pure_ok_iff] at h
    rw [← h]
    exact reserve_ok_capacity d y cap hy
  · rw [if_neg hc, bind_ok_iff] at h
    obtain ⟨y, hy, h⟩ := h
    rw [pure_ok_iff] at hy
    subst hy
    rw [bind_ok_iff] at h
    obtain ⟨b1, _, h⟩ := h
    rw [bind_ok_iff] at h
    obtain ⟨b2, _, h⟩ := h
    rw [pure_ok_iff] at h
    rw [← h]

theorem call_ok_capacity {α : Type} [Inhabited α] (d d' : dynarray α) (c : dynarray.Call α)
    (h : d.call c = .ok d') : d._capacity ≤ d'._capacity := by
  cases c with
  | insert index t => exact insert_ok_capacity d d' index t h
  | push_back t => exact insert_ok_capacity d d' d._size t h
  | push_front t => exact insert_ok_capacity d d' 0 t h
  | reserve n => exact reserve_ok_capacity d d' n h
  | read index =>
    unfold dynarray.call at h
    rw [bind_ok_iff] at h
    obtain ⟨x, _, h⟩ := h
    rw [pure_ok_iff] at h
    rw [h]
  | write index t =>
    unfold dynarray.call dynarray.set at h
    rw [bind_ok_iff] at h
    obtain ⟨b, _, h⟩ := h
    rw [pure_ok_iff] at h
    rw [← h]

theorem calls_ok_capacity {α : Type} [Inhabited α] (cs : List (dynarray.Call α)) :
    ∀ d d' : dynarray α, d.calls cs = .ok d' → d._capacity ≤ d'._capacity := by
  induction cs with
  | nil =>
    intro d d' h
    unfold dynarray.calls at h
    rw [pure_ok_iff] at h
    rw [h]
  | cons c cs ih =>
    intro d d' h
    unfold dynarray.calls at h
    rw [bind_ok_iff] at h
    obtain ⟨d1, h1, h⟩ := h
    exact le_trans (call_ok_capacity d d1 c h1) (ih d1 d' h)

theorem set_spec {α : Type} (d : dynarray α) (hwf : d.WF) (index : Int) (t : α)
    (h0 : 0 ≤ index) (h1 : index < d._size) :
    d.set index t = .ok { d with _buffer := d._buffer.set index.toNat t } := by
  obtain ⟨hs0, hsc, hlen⟩ := hwf
  unfold dynarray.set
  rw [writeAt_ok t h0 (by omega)]
  rfl

theorem call_total {α : Type} [Inhabited α] (d : dynarray α) (hwf : d.WF)
    (hcm : d._capacity ≤ 2147483647) (c : dynarray.Call α) (hc : c.admissible d) :
    ∃ d', d.call c = .ok d' ∧ d'.WF ∧ d'._capacity ≤ 2147483647 := by
  have hwf2 := hwf
  obtain ⟨hs0, hsc, hlen⟩ := hwf2
  cases c with
  | insert index t =>
    obtain ⟨d', h, _, hw, _, hm⟩ := insert_size d hwf hcm index hc.1 hc.2 t
    exact ⟨d', h, hw, hm⟩
  | push_back t =>
    obtain ⟨d', h, _, hw, _, hm⟩ := insert_size d hwf hcm d._size hs0 hc t
    exact ⟨d', h, hw, hm⟩
  | push_front t =>
    obtain ⟨d', h, _, hw, _, hm⟩ := insert_size d hwf hcm 0 (le_refl 0) hc t
    exact ⟨d', h, hw, hm⟩
  | reserve n =>
    obtain ⟨d', h, _, hcap, hw, _⟩ := reserve_spec d hwf n
    have hn : n ≤ 2147483647 := hc
    exact ⟨d', h, hw, by rw [hcap]; omega⟩
  | read index =>
    obtain ⟨x, hx, _⟩ := get_in_size d hwf index hc.1 hc.2
    refine ⟨d, ?_, hwf, hcm⟩
    show (d.get index >>= fun _ => pure d) = Except.ok d
    rw [hx]
    rfl
  | write index t =>
    refine ⟨_, set_spec d hwf index t hc.1 hc.2, ⟨hs0, hsc, ?_⟩, hcm⟩
    show (((d._buffer.set index.toNat t).length : Nat) : Int) = d._capacity
    rw [List.length_set]
    exact hlen

/-! ## Sequences of `push_back` -/

theorem push_back_spec {α : Type} [Inhabited α] (d : dynarray α) (hwf : d.WF)
    (hcm : d._capacity ≤ 2147483647) (hfit : d.fits d._size) (t : α) :
    ∃ d', d.push_back t = .ok d' ∧ d'.WF ∧ d'._capacity ≤ 2147483647 ∧
      d'._size = d._size + 1 ∧ d'.contents = d.contents ++ [t] := by
  obtain ⟨d', h, hs, hw, hm, hc⟩ :=
    insert_in_range d hwf hcm d._size hwf.1 (le_refl _) hfit t
  refine ⟨d', h, hw, hm, hs, ?_⟩
  have hl : d.contents.length = d._size.toNat := by
    have := contents_length d hwf
    omega
  rw [hc, ← hl, List.take_length, List.drop_length, List.append_nil]

/-- One `push_back` on a state whose capacity is 0 or a power of two up to `2 ^ 30` and whose
size is below `2 ^ 30`: the capacity stays of that form. -/
theorem push_back_pow2 {α : Type} [Inhabited α] (d : dynarray α) (hwf : d.WF)
    (hp : d._capacity = 0 ∨ ∃ j : Nat, j ≤ 30 ∧ d._capacity = 2 ^ j)
    (hs : d._size < 1073741824) (t : α) :
    ∃ d', d.push_back t = .ok d' ∧ d'.WF ∧
      (d'._capacity = 0 ∨ ∃ j : Nat, j ≤ 30 ∧ d'._capacity = 2 ^ j) ∧
      d'._size = d._size + 1 ∧ d'.contents = d.contents ++ [t] := by
  have h30 : (2 : Int) ^ 30 = 1073741824 := by norm_num
  have hpow : ∀ j : Nat, j ≤ 30 → (2 : Int) ^ j ≤ 1073741824 := by
    intro j hj
    rw [← h30]
    exact pow_le_pow_right₀ (by norm_num) hj
  have hcm : d._capacity ≤ 2147483647 := by
    rcases hp with h | ⟨j, hj, h⟩
    · omega
    · have := hpow j hj
      omega
  have hfit : d.fits d._size := by
    unfold dynarray.fits
    right
    rw [max_self]
    omega
  obtain ⟨hs0, hsc, hlen⟩ := id hwf
  obtain ⟨d', h, hw, _, hsz, hc⟩ := push_back_spec d hwf hcm hfit t
  refine ⟨d', h, hw, ?_, hsz, hc⟩
  obtain ⟨cap, buf, hins, hsame, hgrow, _, _, _, _, _⟩ :=
    insert_spec d hwf hcm d._size hs0 hfit t
  have e : d' = { _buffer := buf, _size := max d._size d._size + 1, _capacity := cap } :=
    Except.ok.inj (h.symm.trans hins)
  have ecap : d'._capacity = cap := by rw [e]
  rw [ecap]
  rw [max_self] at hsame hgrow
  by_cases hlt : d._size + 1 ≤ d._capacity
  · rw [hsame hlt]
    exact hp
  · obtain ⟨k, _, hk, hmin, _⟩ := hgrow (by omega)
    have hsz2 : d._size = d._capacity := by omega
    rcases hp with h0 | ⟨j, hj, hj2⟩
    · -- capacity 0: the loop starts from 1 and does not double
      right
      refine ⟨0, by omega, ?_⟩
      rw [hk, h0, if_neg (by omega)]
      cases k with
      | zero => rfl
      | succ k =>
        have := hmin 0 (Nat.succ_pos k)
        rw [h0, if_neg (by omega)] at this
        simp only [pow_zero] at this
        omega
    · -- capacity `2 ^ j`: the loop doubles once
      have hpos : (0 : Int) < 2 ^ j := pow_pos (by norm_num) j
      have hj30 : j < 30 := by
        rcases Nat.lt_or_ge j 30 with hlt2 | hge2
        · exact hlt2
        · have e30 : j = 30 := by omega
          rw [e30, h30] at hj2
          omega
      right
      refine ⟨j + 1, by omega, ?_⟩
      rw [hk, hj2, if_pos hpos]
      cases k with
      | zero =>
        exfalso
        obtain ⟨d2, h2, hw2, _, hsz3, _⟩ := push_back_spec d hwf hcm hfit t
        have e2 : d2 = d' := Except.ok.inj (h2.symm.trans h)
        rw [e2] at hw2 hsz3
        have hc2 := hw2.2.1
        rw [ecap, hk, hj2, if_pos hpos, pow_zero, Int.mul_one, hsz3, hsz2, hj2] at hc2
        omega
      | succ k =>
        cases k with
        | zero =>
          rw [Nat.zero_add, pow_one, pow_succ]
        | succ k =>
          have := hmin 1 (by omega)
          rw [hj2, if_pos hpos, pow_one, hsz2, hj2] at this
          omega

theorem push_back_all_spec {α : Type} [Inhabited α] (vs : List α) :
    ∀ d : dynarray α, d.WF →
      (d._capacity = 0 ∨ ∃ j : Nat, j ≤ 30 ∧ d._capacity = 2 ^ j) →
      d._size + (vs.length : Int) ≤ 1073741824 →
      ∃ d', d.push_back_all vs = .ok d' ∧ d'.WF ∧
        (d'._capacity = 0 ∨ ∃ j : Nat, j ≤ 30 ∧ d'._capacity = 2 ^ j) ∧
        d'._size = d._size + (vs.length : Int) ∧ d'.contents = d.contents ++ vs := by
  induction vs with
  | nil =>
    intro d hwf hp _
    exact ⟨d, rfl, hwf, hp, by simp, (List.append_nil _).symm⟩
  | cons v vs ih =>
    intro d hwf hp hb
    rw [List.length_cons] at hb
    push_cast at hb
    obtain ⟨d1, h1, hw1, hp1, hs1, hc1⟩ := push_back_pow2 d hwf hp (by omega) v
    obtain ⟨d2, h2, hw2, hp2, hs2, hc2⟩ := ih d1 hw1 hp1 (by omega)
    refine ⟨d2, ?_, hw2, hp2, ?_, ?_⟩
    · unfold dynarray.push_back_all
      rw [h1]
      exact h2
    · rw [hs2, hs1, List.length_cons]
      push_cast
      omega
    · rw [hc2, hc1, List.append_assoc]
      rfl

theorem push_back_all_append {α : Type} [Inhabited α] (vs ws : List α) :
    ∀ d : dynarray α,
      d.push_back_all (vs ++ ws) = (d.push_back_all vs >>= fun d1 => d1.push_back_all ws) := by
  induction vs with
  | nil =>
    intro d
    rfl
  | cons v vs ih =>
    intro d
    show (d.push_back v >>= fun d1 => d1.push_back_all (vs ++ ws)) =
      ((d.push_back v >>= fun d1 => d1.push_back_all vs) >>= fun d1 => d1.push_back_all ws)
    cases hc : d.push_back v with
    | error e => rfl
    | ok d1 => exact ih d1

theorem calls_append {α : Type} [Inhabited α] (cs1 cs2 : List (dynarray.Call α)) :
    ∀ d : dynarray α,
      d.calls (cs1 ++ cs2) = (d.calls cs1 >>= fun d1 => d1.calls cs2) := by
  induction cs1 with
  | nil =>
    intro d
    rfl
  | cons c cs1 ih =>
    intro d
    show (d.call c >>= fun d1 => d1.calls (cs1 ++ cs2)) =
      ((d.call c >>= fun d1 => d1.calls cs1) >>= fun d1 => d1.calls cs2)
    cases hc : d.call c with
    | error e => rfl
    | ok d1 => exact ih d1

theorem reserve_idempotent {α : Type} [Inhabited α] (d : dynarray α) (n : Int) :
    (d.reserve n >>= fun d1 => d1.reserve n) = d.reserve n := by
  cases h : d.reserve n with
  | error e => rfl
  | ok d1 =>
    show d1.reserve n = .ok d1
    apply reserve_of_le
    unfold dynarray.reserve at h
    by_cases hc : d._capacity ≥ n
    · rw [if_pos hc, pure_ok_iff] at h
      rw [← h]
      exact hc
    · rw [if_neg hc, bind_ok_iff] at h
      obtain ⟨temp, _, h⟩ := h
      rw [bind_ok_iff] at h
      obtain ⟨temp2, _, h⟩ := h
      rw [pure_ok_iff] at h
      rw [← h]

/-! ## Circular index arithmetic -/

theorem emod_range (x c : Int) (hc : 0 < c) : 0 ≤ x % c ∧ x % c < c :=
  ⟨Int.emod_nonneg x (by omega), Int.emod_lt_of_pos x hc⟩

theorem emod_window_inj (h c i j : Int) (hi0 : 0 ≤ i) (hi : i < c) (hj0 : 0 ≤ j) (hj : j < c)
    (e : (h + i) % c = (h + j) % c) : i = j := by
  have h1 : (h + i - (h + j)) % c = 0 := Int.emod_eq_emod_iff_emod_sub_eq_zero.mp e
  have h2 : c ∣ i - j := by
    have : h + i - (h + j) = i - j := by ring
    rw [this] at h1
    exact Int.dvd_of_emod_eq_zero h1
  obtain ⟨q, hq⟩ := h2
  have hq0 : q = 0 := by
    by_contra hne
    rcases Int.lt_or_gt_of_ne hne with hlt | hgt
    · have : c * q ≤ c * (-1) := Int.mul_le_mul_of_nonneg_left (by omega) (by omega)
      omega
    · have : c * 1 ≤ c * q := Int.mul_le_mul_of_nonneg_left (by omega) (by omega)
      omega
  rw [hq0] at hq
  omega

theorem emod_succ_pred (h c : Int) (h0 : 0 ≤ h) (hc : h < c) :
    ((h + 1) % c + (c - 1)) % c = h := by
  rw [Int.emod_add_emod]
  have : h + 1 + (c - 1) = h + c := by ring
  rw [this, Int.add_emod_self]
  exact Int.emod_eq_of_lt h0 hc

/-! ## Reads of a `ringbuffer` -/

theorem abs_index_spec {α C : Type} [Container C α] [LawfulContainer C α]
    (rb : ringbuffer α C) (hwf : rb.WF) (i : Int) (hi : 0 ≤ i)
    (hb : rb._dequeue_index + i ≤ 2147483647) :
    rb.abs_index i = .ok ((rb._dequeue_index + i) % rb.capacity) := by
  obtain ⟨_, hc, hh0, _, _, _, _⟩ := hwf
  unfold ringbuffer.abs_index
  rw [if_neg (show ¬ Container._capacity rb._buffer = 0 from fun e => by
    unfold ringbuffer.capacity at hc; omega)]
  rw [wrap32_id _ (by omega) hb,
    Int.tmod_eq_emod (by omega) (by unfold ringbuffer.capacity at hc; omega)]
  rfl

theorem rb_get_spec {α C : Type} [Container C α] [LawfulContainer C α]
    (rb : ringbuffer α C) (hwf : rb.WF) (i : Int) (hi : 0 ≤ i)
    (hb : rb._dequeue_index + i ≤ 2147483647) :
    ∃ x, rb.get i = .ok x ∧
      (LawfulContainer.slots rb._buffer)[((rb._dequeue_index + i) % rb.capacity).toNat]? =
        some x := by
  have hr := emod_range (rb._dequeue_index + i) rb.capacity hwf.2.1
  have hlen : ((LawfulContainer.slots rb._buffer).length : Int) = rb.capacity :=
    LawfulContainer.length_slots rb._buffer hwf.1
  obtain ⟨x, hx⟩ := getElem?_eq_some_get (LawfulContainer.slots rb._buffer)
    ((rb._dequeue_index + i) % rb.capacity).toNat (by omega)
  refine ⟨x, ?_, hx⟩
  unfold ringbuffer.get
  rw [abs_index_spec rb hwf i hi hb]
  show Container.get rb._buffer _ = _
  rw [LawfulContainer.get_eq]
  exact readAt_ok hr.1 hx

theorem read_from_spec {α C : Type} [Container C α] [LawfulContainer C α]
    (rb : ringbuffer α C) (hwf : rb.WF) (n : Nat) :
    ∀ i : Int, 0 ≤ i → rb._dequeue_index + i + (n : Int) ≤ 2147483648 →
      ∃ L, rb.read_from i n = .ok L ∧ L.length = n ∧
        ∀ k : Nat, k < n → L[k]? = (LawfulContainer.slots rb._buffer)[
          ((rb._dequeue_index + (i + (k : Int))) % rb.capacity).toNat]? := by
  induction n with
  | zero =>
    intro i _ _
    exact ⟨[], rfl, rfl, fun k hk => absurd hk (Nat.not_lt_zero k)⟩
  | succ n ih =>
    intro i hi hb
    obtain ⟨x, hx, hsx⟩ := rb_get_spec rb hwf i hi (by omega)
    obtain ⟨xs, hxs, hlen, hget⟩ := ih (i + 1) (by omega) (by omega)
    refine ⟨x :: xs, ?_, by rw [List.length_cons, hlen], fun k hk => ?_⟩
    · unfold ringbuffer.read_from
      rw [hx]
      show (rb.read_from (i + 1) n >>= fun xs => pure (x :: xs)) = _
      rw [hxs]
      rfl
    · cases k with
      | zero =>
        rw [List.getElem?_cons_zero, ← hsx]
        simp
      | succ k =>
        rw [List.getElem?_cons_succ, hget k (by omega)]
        have : i + 1 + (k : Int) = i + ((k + 1 : Nat) : Int) := by push_cast; ring
        rw [this]

theorem list_ext_of_length {α : Type} (L1 L2 : List α) (n : Nat) (h1 : L1.length = n)
    (h2 : L2.length = n) (h : ∀ k : Nat, k < n → L1[k]? = L2[k]?) : L1 = L2 := by
  apply List.ext_getElem?
  intro k
  by_cases hk : k < n
  · exact h k hk
  · rw [List.getElem?_eq_none (by omega), List.getElem?_eq_none (by omega)]

theorem to_list_iff {α C : Type} [Container C α] [LawfulContainer C α]
    (rb : ringbuffer α C) (hwf : rb.WF) (hsm : rb.capacity ≤ 1073741824) (L : List α) :
    rb.to_list = .ok L ↔ rb.slots_are L := by
  obtain ⟨_, hc, hh0, hh1, hc0, hc1, _⟩ := id hwf
  obtain ⟨L0, h0, hlen0, hget0⟩ :=
    read_from_spec rb hwf rb._count.toNat 0 (le_refl 0) (by omega)
  simp only [Int.zero_add] at hget0
  unfold ringbuffer.slots_are
  constructor
  · intro h
    have e : L0 = L := by
      unfold ringbuffer.to_list ringbuffer.size at h
      rw [h0] at h
      exact Except.ok.inj h
    rw [← e]
    exact ⟨hlen0, hget0⟩
  · rintro ⟨hlen, hget⟩
    have e : L0 = L :=
      list_ext_of_length L0 L _ hlen0 hlen (fun k hk => by rw [hget0 k hk, hget k hk])
    rw [← e]
    exact h0

/-! ## `dequeue` and `enqueue`, one step -/

theorem dequeue_eq {α C : Type} [Container C α] [LawfulContainer C α]
    (rb : ringbuffer α C) (hwf : rb.WF) :
    ∃ x, Container.get rb._buffer rb._dequeue_index = .ok x ∧
      (LawfulContainer.slots rb._buffer)[rb._dequeue_index.toNat]? = some x ∧
      rb.dequeue = .ok (x, { rb with
        _count := rb._count - 1,
        _dequeue_index := (rb._dequeue_index + 1) % rb.capacity }) := by
  have hlen : ((LawfulContainer.slots rb._buffer).length : Int) = rb.capacity :=
    LawfulContainer.length_slots rb._buffer hwf.1
  obtain ⟨_, hc, hh0, hh1, hc0, hc1, hcm⟩ := id hwf
  obtain ⟨x, hx⟩ := getElem?_eq_some_get (LawfulContainer.slots rb._buffer)
    rb._dequeue_index.toNat (by omega)
  have hg : Container.get rb._buffer rb._dequeue_index = .ok x := by
    rw [LawfulContainer.get_eq]
    exact readAt_ok hh0 hx
  refine ⟨x, hg, hx, ?_⟩
  unfold ringbuffer.dequeue
  rw [hg, abs_index_spec rb hwf 1 (by omega) (by omega)]
  rw [wrap32_id (rb._count - 1) (by omega) (by omega)]
  rfl

theorem dequeue_wf {α C : Type} [Container C α] [LawfulContainer C α]
    (rb : ringbuffer α C) (hwf : rb.WF) (hpos : 0 < rb._count) :
    ringbuffer.WF { rb with
      _count := rb._count - 1,
      _dequeue_index := (rb._dequeue_index + 1) % rb.capacity } := by
  obtain ⟨hinv, hc, hh0, hh1, hc0, hc1, hcm⟩ := hwf
  have hr := emod_range (rb._dequeue_index + 1) rb.capacity hc
  exact ⟨hinv, hc, hr.1, hr.2, by show 0 ≤ rb._count - 1; omega,
    by show rb._count - 1 ≤ rb.capacity; omega, hcm⟩

theorem enqueue_not_full_eq {α C : Type} [Container C α] (rb : ringbuffer α C) (d : α)
    (hnf : rb._count ≠ rb.capacity) :
    rb.enqueue d = (rb.abs_index rb._count >>= fun i =>
      Container.set rb._buffer i d >>= fun buffer =>
        pure { rb with _buffer := buffer, _count := wrap32 (rb._count + 1) }) := by
  unfold ringbuffer.enqueue
  rw [if_neg hnf]
  rfl

theorem enqueue_full_eq {α C : Type} [Container C α] (rb : ringbuffer α C) (d : α)
    (hf : rb._count = rb.capacity) :
    rb.enqueue d = (rb.dequeue >>= fun p =>
      ringbuffer.abs_index p.2 p.2._count >>= fun i =>
        Container.set p.2._buffer i d >>= fun buffer =>
          pure { p.2 with _buffer := buffer, _count := wrap32 (p.2._count + 1) }) := by
  unfold ringbuffer.enqueue
  rw [if_pos hf]
  cases rb.dequeue with
  | error e => rfl
  | ok p =>
    obtain ⟨x, rb1⟩ := p
    rfl

theorem enqueue_eq_not_full {α C : Type} [Container C α] [LawfulContainer C α]
    (rb : ringbuffer α C) (hwf : rb.WF) (hnf : rb._count ≠ rb.capacity)
    (hb : rb._dequeue_index + rb._count ≤ 2147483647) (v : α) :
    ∃ c', LawfulContainer.slots c' = (LawfulContainer.slots rb._buffer).set
        ((rb._dequeue_index + rb._count) % rb.capacity).toNat v ∧
      Container._capacity c' = rb.capacity ∧ LawfulContainer.inv c' ∧
      rb.enqueue v = .ok { rb with _buffer := c', _count := rb._count + 1 } := by
  have hlen : ((LawfulContainer.slots rb._buffer).length : Int) = rb.capacity :=
    LawfulContainer.length_slots rb._buffer hwf.1
  obtain ⟨hinv, hc, hh0, hh1, hc0, hc1, hcm⟩ := id hwf
  have hr := emod_range (rb._dequeue_index + rb._count) rb.capacity hc
  obtain ⟨c', hset, hslots, hcap, hinv2⟩ := LawfulContainer.set_ok rb._buffer
    ((rb._dequeue_index + rb._count) % rb.capacity) v hr.1 (by omega)
  refine ⟨c', hslots, hcap, hinv2 hinv, ?_⟩
  rw [enqueue_not_full_eq rb v hnf, abs_index_spec rb hwf rb._count hc0 hb]
  show (Container.set rb._buffer _ v >>= fun buffer => _) = _
  rw [hset]
  rw [wrap32_id (rb._count + 1) (by omega) (by omega)]
  rfl

theorem enqueue_eq_full {α C : Type} [Container C α] [LawfulContainer C α]
    (rb : ringbuffer α C) (hwf : rb.WF) (hf : rb._count = rb.capacity)
    (hb : (rb._dequeue_index + 1) % rb.capacity + (rb._count - 1) ≤ 2147483647) (v : α) :
    ∃ c', LawfulContainer.slots c' = (LawfulContainer.slots rb._buffer).set
        rb._dequeue_index.toNat v ∧
      Container._capacity c' = rb.capacity ∧ LawfulContainer.inv c' ∧
      rb.enqueue v = .ok { rb with
        _buffer := c',
        _dequeue_index := (rb._dequeue_index + 1) % rb.capacity } := by
  have hlen : ((LawfulContainer.slots rb._buffer).length : Int) = rb.capacity :=
    LawfulContainer.length_slots rb._buffer hwf.1
  obtain ⟨hinv, hc, hh0, hh1, hc0, hc1, hcm⟩ := id hwf
  obtain ⟨x, _, _, hdq⟩ := dequeue_eq rb hwf
  have hwf1 := dequeue_wf rb hwf (by omega)
  have hidx : ((rb._dequeue_index + 1) % rb.capacity + (rb._count - 1)) % rb.capacity =
      rb._dequeue_index := by
    rw [hf]
    exact emod_succ_pred _ _ hh0 hh1
  have habs : ringbuffer.abs_index { rb with
      _count := rb._count - 1,
      _dequeue_index := (rb._dequeue_index + 1) % rb.capacity } (rb._count - 1) =
      .ok rb._dequeue_index := by
    rw [abs_index_spec _ hwf1 (rb._count - 1) (by omega) hb]
    exact congrArg Except.ok hidx
  obtain ⟨c', hset, hslots, hcap, hinv2⟩ := LawfulContainer.set_ok rb._buffer
    rb._dequeue_index v hh0 (by omega)
  refine ⟨c', hslots, hcap, hinv2 hinv, ?_⟩
  rw [enqueue_full_eq rb v hf, hdq]
  show (ringbuffer.abs_index { rb with
      _count := rb._count - 1,
      _dequeue_index := (rb._dequeue_index + 1) % rb.capacity } (rb._count - 1) >>= fun i =>
    Container.set rb._buffer i v >>= fun buffer => _) = _
  rw [habs]
  show (Container.set rb._buffer rb._dequeue_index v >>= fun buffer => _) = _
  rw [hset]
  have hcnt : wrap32 (rb._count - 1 + 1) = rb._count := by
    rw [Int.sub_add_cancel]
    exact wrap32_id rb._count (by omega) (by omega)
  show Except.ok (ringbuffer.mk c' (wrap32 (rb._count - 1 + 1))
    ((rb._dequeue_index + 1) % rb.capacity)) = _
  rw [hcnt]

theorem enqueue_sum_small {α C : Type} [Container C α] [LawfulContainer C α]
    (rb : ringbuffer α C) (hwf : rb.WF) (hsm : rb.capacity ≤ 1073741824) :
    rb.enqueue_sum ≤ 2147483647 := by
  obtain ⟨hinv, hc, hh0, hh1, hc0, hc1, hcm⟩ := hwf
  have hr := emod_range (rb._dequeue_index + 1) rb.capacity hc
  unfold ringbuffer.enqueue_sum
  split <;> omega

theorem enqueue_spec {α C : Type} [Container C α] [LawfulContainer C α]
    (rb : ringbuffer α C) (hwf : rb.WF) (hb : rb.enqueue_sum ≤ 2147483647) (L : List α)
    (hL : rb.slots_are L) (v : α) :
    ∃ rb', rb.enqueue v = .ok rb' ∧ rb'.WF ∧ rb'.capacity = rb.capacity ∧
      rb'.slots_are (window_enqueue rb.capacity L v) ∧
      rb'._count = (if rb._count = rb.capacity then rb._count else rb._count + 1) := by
  have hlen : ((LawfulContainer.slots rb._buffer).length : Int) = rb.capacity :=
    LawfulContainer.length_slots rb._buffer hwf.1
  obtain ⟨hinv, hc, hh0, hh1, hc0, hc1, hcm⟩ := id hwf
  obtain ⟨hLlen, hLget⟩ := hL
  unfold ringbuffer.enqueue_sum at hb
  by_cases hf : rb._count = rb.capacity
  · rw [if_pos hf] at hb
    obtain ⟨c', hslots, hcap, hinv2, henq⟩ := enqueue_eq_full rb hwf hf hb v
    have hr := emod_range (rb._dequeue_index + 1) rb.capacity hc
    have hwf2 : ringbuffer.WF { rb with
        _buffer := c',
        _dequeue_index := (rb._dequeue_index + 1) % rb.capacity } :=
      ⟨hinv2, by show 0 < Container._capacity c'; rw [hcap]; exact hc, hr.1,
        by show _ < Container._capacity c'; rw [hcap]; exact hr.2, hc0,
        by show _ ≤ Container._capacity c'; rw [hcap]; exact hc1,
        by show Container._capacity c' ≤ _; rw [hcap]; exact hcm⟩
    refine ⟨_, henq, hwf2, hcap, ?_, by rw [if_pos hf]⟩
    unfold ringbuffer.slots_are window_enqueue
    rw [if_pos (by omega)]
    refine ⟨?_, fun k hk => ?_⟩
    · show (L.tail ++ [v]).length = rb._count.toNat
      rw [List.length_append, List.length_tail, List.length_singleton]
      omega
    · show (L.tail ++ [v])[k]? = (LawfulContainer.slots c')[
        (((rb._dequeue_index + 1) % rb.capacity + (k : Int)) % Container._capacity c').toNat]?
      have hk : k < rb._count.toNat := hk
      rw [hcap, hslots, Int.emod_add_emod, List.getElem?_set, List.getElem?_append,
        List.length_tail]
      show _ = if _ then _ else
        (LawfulContainer.slots rb._buffer)[
          ((rb._dequeue_index + 1 + (k : Int)) % rb.capacity).toNat]?
      by_cases hk2 : k < L.length - 1
      · have hne : (rb._dequeue_index + 1 + (k : Int)) % rb.capacity ≠ rb._dequeue_index := by
          intro e
          have e2 : (rb._dequeue_index + (1 + (k : Int))) % rb.capacity =
              (rb._dequeue_index + 0) % rb.capacity := by
            rw [← Int.add_assoc, e, Int.add_zero, Int.emod_eq_of_lt hh0 hh1]
          have := emod_window_inj _ _ _ _ (by omega) (by omega) (le_refl 0) hc e2
          omega
        have hr2 := emod_range (rb._dequeue_index + 1 + (k : Int)) rb.capacity hc
        rw [if_pos hk2, if_neg (by omega), List.getElem?_tail, hLget (k + 1) (by omega)]
        have : rb._dequeue_index + ((k + 1 : Nat) : Int) = rb._dequeue_index + 1 + (k : Int) := by
          push_cast; ring
        rw [this]
      · have hke : (k : Int) = rb.capacity - 1 := by omega
        have hi : (rb._dequeue_index + 1 + (k : Int)) % rb.capacity = rb._dequeue_index := by
          have e : rb._dequeue_index + 1 + (rb.capacity - 1) =
              rb._dequeue_index + rb.capacity := by ring
          rw [hke, e, Int.add_emod_self]
          exact Int.emod_eq_of_lt hh0 hh1
        rw [if_neg hk2, hi, if_pos rfl, if_pos (by omega),
          show k - (L.length - 1) = 0 by omega]
        rfl
  · rw [if_neg hf] at hb
    obtain ⟨c', hslots, hcap, hinv2, henq⟩ := enqueue_eq_not_full rb hwf hf hb v
    have hwf2 : ringbuffer.WF { rb with _buffer := c', _count := rb._count + 1 } :=
      ⟨hinv2, by show 0 < Container._capacity c'; rw [hcap]; exact hc, hh0,
        by show _ < Container._capacity c'; rw [hcap]; exact hh1,
        by show 0 ≤ rb._count + 1; omega,
        by show rb._count + 1 ≤ Container._capacity c'; rw [hcap]; omega,
        by show Container._capacity c' ≤ _; rw [hcap]; exact hcm⟩
    refine ⟨_, henq, hwf2, hcap, ?_, by rw [if_neg hf]⟩
    unfold ringbuffer.slots_are window_enqueue
    rw [if_neg (by omega)]
    refine ⟨?_, fun k hk => ?_⟩
    · show (L ++ [v]).length = (rb._count + 1).toNat
      rw [List.length_append, List.length_singleton]
      omega
    · show (L ++ [v])[k]? = (LawfulContainer.slots c')[
        ((rb._dequeue_index + (k : Int)) % Container._capacity c').toNat]?
      have hk : k < (rb._count + 1).toNat := hk
      rw [hcap, hslots, List.getElem?_set, List.getElem?_append]
      have hr1 := emod_range (rb._dequeue_index + rb._count) rb.capacity hc
      have hr2 := emod_range (rb._dequeue_index + (k : Int)) rb.capacity hc
      by_cases hk2 : k < L.length
      · have hne : (rb._dequeue_index + rb._count) % rb.capacity ≠
            (rb._dequeue_index + (k : Int)) % rb.capacity := by
          intro e
          have := emod_window_inj _ _ _ _ hc0 (by omega) (by omega) (by omega) e
          omega
        rw [if_pos hk2, if_neg (by omega), hLget k (by omega)]
      · have hke : (k : Int) = rb._count := by omega
        rw [if_neg hk2, hke, if_pos rfl, if_pos (by omega),
          show k - L.length = 0 by omega]
        rfl

theorem dequeue_spec {α C : Type} [Container C α] [LawfulContainer C α]
    (rb : ringbuffer α C) (hwf : rb.WF) (L : List α) (hL : rb.slots_are L)
    (hpos : 0 < rb._count) :
    ∃ x rb', rb.dequeue = .ok (x, rb') ∧ L.head? = some x ∧
      Container.get rb._buffer rb._dequeue_index = .ok x ∧
      rb' = { rb with
        _count := rb._count - 1,
        _dequeue_index := (rb._dequeue_index + 1) % rb.capacity } ∧
      rb'.WF ∧ rb'.slots_are L.tail := by
  obtain ⟨hinv, hc, hh0, hh1, hc0, hc1, hcm⟩ := id hwf
  obtain ⟨hLlen, hLget⟩ := hL
  obtain ⟨x, hg, hsx, hdq⟩ := dequeue_eq rb hwf
  have hwf1 := dequeue_wf rb hwf hpos
  refine ⟨x, _, hdq, ?_, hg, rfl, hwf1, ?_⟩
  · rw [List.head?_eq_getElem?, hLget 0 (by omega), ← hsx]
    simp only [Nat.cast_zero, Int.add_zero, Int.emod_eq_of_lt hh0 hh1]
  · unfold ringbuffer.slots_are
    refine ⟨?_, fun k hk => ?_⟩
    · show L.tail.length = (rb._count - 1).toNat
      rw [List.length_tail]
      omega
    · show L.tail[k]? = (LawfulContainer.slots rb._buffer)[
        (((rb._dequeue_index + 1) % rb.capacity + (k : Int)) % rb.capacity).toNat]?
      have hk : k < (rb._count - 1).toNat := hk
      rw [List.getElem?_tail, hLget (k + 1) (by omega), Int.emod_add_emod]
      have : rb._dequeue_index + ((k + 1 : Nat) : Int) = rb._dequeue_index + 1 + (k : Int) := by
        push_cast; ring
      rw [this]

/-! ## The two descriptions of the logical contents agree -/

theorem contents_are_iff {α C : Type} [Container C α] [LawfulContainer C α]
    (rb : ringbuffer α C) (hwf : rb.WF) (L : List α) :
    rb.contents_are L ↔ rb.slots_are L := by
  obtain ⟨hinv, hc, hh0, hh1, hc0, hc1, hcm⟩ := id hwf
  unfold ringbuffer.contents_are ringbuffer.slots_are
  constructor
  · rintro ⟨hlen, hget⟩
    refine ⟨by omega, fun k hk => ?_⟩
    have hkL : k < L.length := by omega
    have h := hget ⟨k, hkL⟩
    rw [LawfulContainer.get_eq, readAt_ok_iff] at h
    rw [h.2, List.getElem?_eq_getElem hkL]
    rfl
  · rintro ⟨hlen, hget⟩
    refine ⟨by omega, fun i => ?_⟩
    have h := hget i.1 (by have := i.2; omega)
    rw [List.getElem?_eq_getElem i.2] at h
    rw [LawfulContainer.get_eq]
    exact readAt_ok (emod_range _ _ hc).1 h.symm

theorem slots_are_get {α C : Type} [Container C α] [LawfulContainer C α]
    (rb : ringbuffer α C) (hwf : rb.WF) (hsm : rb.capacity ≤ 1073741824) (L : List α)
    (hL : rb.slots_are L) (i : Nat) (hi : i < L.length) :
    ∃ x, rb.get (i : Int) = .ok x ∧ L[i]? = some x := by
  obtain ⟨hinv, hc, hh0, hh1, hc0, hc1, hcm⟩ := id hwf
  obtain ⟨hLlen, hLget⟩ := hL
  obtain ⟨x, hx, hsx⟩ := rb_get_spec rb hwf (i : Int) (Int.ofNat_nonneg i) (by omega)
  exact ⟨x, hx, by rw [hLget i (by omega), hsx]⟩

theorem ctor_fresh {α C : Type} [Container C α] [LawfulContainer C α] (capacity : Int)
    (rb : ringbuffer α C) (hnew : ringbuffer.ctor capacity = .ok rb) :
    rb._count = 0 ∧ rb._dequeue_index = 0 ∧ LawfulContainer.inv rb._buffer := by
  unfold ringbuffer.ctor at hnew
  rw [bind_ok_iff] at hnew
  obtain ⟨b, hb, h⟩ := hnew
  rw [pure_ok_iff] at h
  rw [← h]
  exact ⟨rfl, rfl, LawfulContainer.construct_inv capacity b hb⟩

theorem ctor_wf {α C : Type} [Container C α] [LawfulContainer C α] (capacity : Int)
    (rb : ringbuffer α C) (hnew : ringbuffer.ctor capacity = .ok rb) (hC : 0 < rb.capacity)
    (hC1 : rb.capacity ≤ 2147483647) :
    rb.WF ∧ rb.slots_are [] ∧ rb._count = 0 ∧ rb._dequeue_index = 0 := by
  obtain ⟨h1, h2, h3⟩ := ctor_fresh capacity rb hnew
  have hwf : rb.WF := ⟨h3, hC, by omega, by omega, by omega, by omega, hC1⟩
  refine ⟨hwf, ?_, h1, h2⟩
  unfold ringbuffer.slots_are
  rw [h1]
  exact ⟨rfl, fun k hk => absurd hk (Nat.not_lt_zero k)⟩

/-! ## Sequences of queue operations -/

theorem enqueue_all_spec {α C : Type} [Container C α] [LawfulContainer C α] (vs : List α) :
    ∀ (rb : ringbuffer α C) (L : List α), rb.WF → rb.capacity ≤ 1073741824 →
      rb.slots_are L →
      ∃ rb', rb.enqueue_all vs = .ok rb' ∧ rb'.WF ∧ rb'.capacity = rb.capacity ∧
        rb'.slots_are (vs.foldl (window_enqueue rb.capacity) L) := by
  induction vs with
  | nil =>
    intro rb L hwf _ hL
    exact ⟨rb, rfl, hwf, rfl, hL⟩
  | cons v vs ih =>
    intro rb L hwf hsm hL
    obtain ⟨rb1, h1, hwf1, hcap1, hL1, _⟩ :=
      enqueue_spec rb hwf (enqueue_sum_small rb hwf hsm) L hL v
    obtain ⟨rb2, h2, hwf2, hcap2, hL2⟩ := ih rb1 _ hwf1 (by rw [hcap1]; exact hsm) hL1
    refine ⟨rb2, ?_, hwf2, by rw [hcap2, hcap1], ?_⟩
    · unfold ringbuffer.enqueue_all
      rw [h1]
      exact h2
    · rw [hcap1] at hL2
      exact hL2

theorem window_enqueue_length {α : Type} (c : Int) (L : List α) (v : α)
    (hL : (L.length : Int) ≤ c) (hc : 0 < c) :
    ((window_enqueue c L v).length : Int) ≤ c ∧
      ((window_enqueue c L v).length : Int) = min ((L.length : Int) + 1) c := by
  unfold window_enqueue
  by_cases h : (L.length : Int) = c
  · rw [if_pos h, List.length_append, List.length_tail, List.length_singleton]
    omega
  · rw [if_neg h, List.length_append, List.length_singleton]
    omega

theorem window_fold {α : Type} (c : Int) (hc : 0 < c) (vs : List α) :
    ∀ L : List α, (L.length : Int) ≤ c →
      vs.foldl (window_enqueue c) L = (L ++ vs).drop ((L ++ vs).length - c.toNat) := by
  induction vs with
  | nil =>
    intro L hL
    rw [List.append_nil, List.foldl_nil, show L.length - c.toNat = 0 by omega, List.drop_zero]
  | cons v vs ih =>
    intro L hL
    rw [List.foldl_cons, ih _ (window_enqueue_length c L v hL hc).1]
    unfold window_enqueue
    by_cases h : (L.length : Int) = c
    · rw [if_pos h]
      have hne : L ≠ [] := by
        intro e
        rw [e] at h
        simp at h
        omega
      obtain ⟨x, xs, rfl⟩ := List.exists_cons_of_ne_nil hne
      simp only [List.tail_cons, List.append_assoc, List.singleton_append, List.cons_append,
        List.length_cons, List.length_append] at h ⊢
      rw [show xs.length + (vs.length + 1) + 1 - c.toNat =
        (xs.length + (vs.length + 1) - c.toNat) + 1 by omega, List.drop_succ_cons]
      simp only [List.nil_append, List.length_nil, Nat.zero_add]
    · rw [if_neg h]
      simp only [List.append_assoc, List.singleton_append]

theorem window_enqueue_sublist {α : Type} (c : Int) (L : List α) (v : α) :
    List.Sublist (window_enqueue c L v) (L ++ [v]) := by
  unfold window_enqueue
  split
  · exact List.Sublist.append (List.tail_sublist L) (List.Sublist.refl _)
  · exact List.Sublist.refl _

theorem run_spec {α C : Type} [Container C α] [LawfulContainer C α] (ops : List (QueueOp α)) :
    ∀ (rb : ringbuffer α C) (L : List α), rb.WF → rb.capacity ≤ 1073741824 →
      rb.slots_are L → rb.no_underflow ops = true →
      ∃ out rb', rb.run ops = .ok (out, rb') ∧ rb'.WF ∧
        out = window_run rb.capacity L ops ∧
        List.Sublist out (L ++ QueueOp.enqueued ops) ∧
        (rb.no_eviction ops = true → out <+: L ++ QueueOp.enqueued ops) := by
  induction ops with
  | nil =>
    intro rb L hwf _ hL _
    exact ⟨[], rb, rfl, hwf, rfl, List.nil_sublist _, fun _ => List.nil_prefix⟩
  | cons op ops ih =>
    intro rb L hwf hsm hL hnu
    cases op with
    | enqueue d =>
      obtain ⟨rb1, h1, hwf1, hcap1, hL1, _⟩ :=
        enqueue_spec rb hwf (enqueue_sum_small rb hwf hsm) L hL d
      unfold ringbuffer.no_underflow at hnu
      rw [h1] at hnu
      obtain ⟨out, rb2, h2, hwf2, hout, hsub, hpre⟩ :=
        ih rb1 _ hwf1 (by rw [hcap1]; exact hsm) hL1 hnu
      refine ⟨out, rb2, ?_, hwf2, ?_, ?_, ?_⟩
      · unfold ringbuffer.run
        rw [h1]
        exact h2
      · rw [hout, hcap1]
        rfl
      · have := List.Sublist.trans hsub
          (List.Sublist.append (window_enqueue_sublist rb.capacity L d) (List.Sublist.refl _))
        simpa [QueueOp.enqueued] using this
      · intro hne
        unfold ringbuffer.no_eviction at hne
        rw [h1] at hne
        simp only [Bool.and_eq_true, bne_iff_ne, ne_eq] at hne
        have hp := hpre hne.2
        have hlen := hL.1
        have hc0 := hwf.2.2.2.2.1
        have e : window_enqueue rb.capacity L d = L ++ [d] := by
          unfold window_enqueue
          rw [if_neg]
          intro e
          apply hne.1
          show rb._count = rb.capacity
          omega
        rw [e] at hp
        simpa [QueueOp.enqueued] using hp
    | dequeue =>
      unfold ringbuffer.no_underflow at hnu
      simp only [Bool.and_eq_true, bne_iff_ne, ne_eq] at hnu
      have hc0 := hwf.2.2.2.2.1
      have hpos : 0 < rb._count := by
        have : ¬ rb._count = 0 := hnu.1
        omega
      obtain ⟨x, rb1, h1, hhead, _, hrb1, hwf1, hL1⟩ := dequeue_spec rb hwf L hL hpos
      have hnu2 := hnu.2
      rw [h1] at hnu2
      have hcap1 : rb1.capacity = rb.capacity := by
        rw [hrb1]
        rfl
      obtain ⟨out, rb2, h2, hwf2, hout, hsub, hpre⟩ :=
        ih rb1 _ hwf1 (by rw [hcap1]; exact hsm) hL1 hnu2
      have hLx : L = x :: L.tail := by
        cases L with
        | nil => cases hhead
        | cons y ys =>
          simp only [List.head?_cons, Option.some.injEq] at hhead
          rw [hhead]
          rfl
      refine ⟨x :: out, rb2, ?_, hwf2, ?_, ?_, ?_⟩
      · unfold ringbuffer.run
        rw [h1]
        show (rb1.run ops >>= fun p => pure (x :: p.1, p.2)) = _
        rw [h2]
        rfl
      · rw [hLx, hout, hcap1]
        rfl
      · rw [hLx]
        exact List.Sublist.cons₂ x hsub
      · intro hne
        unfold ringbuffer.no_eviction at hne
        rw [h1] at hne
        rw [hLx]
        exact (List.prefix_cons_inj x).mpr (hpre hne)


theorem heap_ctor {α : Type} [Inhabited α] (C : Int) (hC : 0 ≤ C) :
    ∃ rb : ringbuffer_heap α, ringbuffer.ctor C = .ok rb ∧ rb.capacity = C := by
  refine ⟨⟨⟨List.replicate C.toNat default, 0, C⟩, 0, 0⟩, ?_, rfl⟩
  unfold ringbuffer.ctor
  show (dynarray.ctor C >>= fun buffer => pure _) = _
  rw [ctor_spec C hC]
  rfl

theorem inline_ctor {α : Type} [Inhabited α] (N : Nat) (c : Int) :
    ∃ rb : ringbuffer_c α N, ringbuffer.ctor c = .ok rb ∧ rb.capacity = (N : Int) :=
  ⟨⟨array_c.ctor c, 0, 0⟩, rfl, rfl⟩


theorem fresh_enqueue_all {α C : Type} [Container C α] [LawfulContainer C α]
    (capacity : Int) (rb : ringbuffer α C) (hnew : ringbuffer.ctor capacity = .ok rb)
    (hC : 0 < rb.capacity) (hsm : rb.capacity ≤ 1073741824) (vs : List α) :
    ∃ rb', rb.enqueue_all vs = .ok rb' ∧
      rb'.size = min (vs.length : Int) rb.capacity ∧
      (∀ i : Nat, (i : Int) < rb'.size →
        ∃ x, rb'.get (i : Int) = .ok x ∧
          (vs.drop (vs.length - rb'.size.toNat))[i]? = some x) ∧
      (∀ (v0 : α) (ws : List α), vs = v0 :: ws → (ws.length : Int) = rb.capacity →
        rb'.size = rb.capacity ∧ rb'.to_list = .ok ws) := by
  obtain ⟨hwf, hnil, _, _⟩ := ctor_wf capacity rb hnew hC (by omega)
  obtain ⟨rb', henq, hwf', hcap, hL⟩ := enqueue_all_spec vs rb [] hwf hsm hnil
  rw [window_fold rb.capacity hC vs [] (by simp; omega), List.nil_append] at hL
  have hlen := hL.1
  rw [List.length_drop] at hlen
  have hc0 : 0 ≤ rb'._count := hwf'.2.2.2.2.1
  have hsize : rb'.size = min (vs.length : Int) rb.capacity := by
    show rb'._count = _
    omega
  have hdrop : vs.length - rb'.size.toNat = vs.length - rb.capacity.toNat := by
    rw [hsize]
    omega
  refine ⟨rb', henq, hsize, fun i hi => ?_, fun v0 ws hvs hws => ?_⟩
  · rw [hdrop]
    exact slots_are_get rb' hwf' (by rw [hcap]; exact hsm) _ hL i (by
      rw [List.length_drop]
      rw [hsize] at hi
      omega)
  · refine ⟨by rw [hsize, hvs, List.length_cons]; push_cast; omega, ?_⟩
    rw [to_list_iff rb' hwf' (by rw [hcap]; exact hsm)]
    rw [hvs, List.length_cons, show ws.length + 1 - rb.capacity.toNat = 1 by omega] at hL
    exact hL

theorem fresh_run {α C : Type} [Container C α] [LawfulContainer C α]
    (capacity : Int) (rb : ringbuffer α C) (hnew : ringbuffer.ctor capacity = .ok rb)
    (hC : 0 < rb.capacity) (hsm : rb.capacity ≤ 1073741824) (ops : List (QueueOp α))
    (hops : rb.no_underflow ops = true) :
    ∃ out rb', rb.run ops = .ok (out, rb') ∧
      out = window_run rb.capacity [] ops ∧
      List.Sublist out (QueueOp.enqueued ops) ∧
      (rb.no_eviction ops = true → out <+: QueueOp.enqueued ops) := by
  obtain ⟨hwf, hnil, _, _⟩ := ctor_wf capacity rb hnew hC (by omega)
  obtain ⟨out, rb', hrun, _, hout, hsub, hpre⟩ := run_spec ops rb [] hwf hsm hnil hops
  exact ⟨out, rb', hrun, hout, by simpa using hsub, fun h => by simpa using hpre h⟩

/-! ## The state invariant of a `ringbuffer` along reachable states -/

theorem abs_index_of_pos {α C : Type} [Container C α] (rb : ringbuffer α C)
    (hC : 0 < rb.capacity) (i : Int) (hi : 0 ≤ rb._dequeue_index + i)
    (hb : rb._dequeue_index + i ≤ 2147483647) :
    rb.abs_index i = .ok ((rb._dequeue_index + i) % rb.capacity) := by
  unfold ringbuffer.abs_index
  have hC2 : 0 < Container._capacity rb._buffer := hC
  rw [if_neg (by omega), wrap32_id _ (by omega) hb, Int.tmod_eq_emod hi (le_of_lt hC2)]
  rfl

theorem rb_set_spec {α C : Type} [Container C α] [LawfulContainer C α]
    (rb : ringbuffer α C) (hwf : rb.WF) (i : Int) (hi : 0 ≤ i)
    (hb : rb._dequeue_index + i ≤ 2147483647) (v : α) :
    ∃ c', rb.set i v = .ok { rb with _buffer := c' } ∧
      LawfulContainer.slots c' = (LawfulContainer.slots rb._buffer).set
        ((rb._dequeue_index + i) % rb.capacity).toNat v ∧
      Container._capacity c' = rb.capacity ∧
      ringbuffer.WF { rb with _buffer := c' } := by
  have hlen : ((LawfulContainer.slots rb._buffer).length : Int) = rb.capacity :=
    LawfulContainer.length_slots rb._buffer hwf.1
  obtain ⟨hinv, hc, hh0, hh1, hc0, hc1, hcm⟩ := id hwf
  have hr := emod_range (rb._dequeue_index + i) rb.capacity hc
  obtain ⟨c', hset, hslots, hcap, hinv2⟩ := LawfulContainer.set_ok rb._buffer
    ((rb._dequeue_index + i) % rb.capacity) v hr.1 (by omega)
  refine ⟨c', ?_, hslots, hcap, hinv2 hinv, ?_, hh0, ?_, hc0, ?_, ?_⟩
  · unfold ringbuffer.set
    simp only [abs_index_spec rb hwf i hi hb, hset, bind, Except.bind, pure, Except.pure]
  · show 0 < Container._capacity c'
    rw [hcap]; exact hc
  · show _ < Container._capacity c'
    rw [hcap]; exact hh1
  · show _ ≤ Container._capacity c'
    rw [hcap]; exact hc1
  · show Container._capacity c' ≤ _
    rw [hcap]; exact hcm

/-- An `enqueue` that returns leaves a well-formed state of the same capacity, at every
capacity. -/
theorem enqueue_ok_wf {α C : Type} [Container C α] [LawfulContainer C α]
    (rb rb' : ringbuffer α C) (hwf : rb.WF) (d : α) (h : rb.enqueue d = .ok rb') :
    rb'.WF ∧ rb'.capacity = rb.capacity := by
  obtain ⟨hinv, hc, hh0, hh1, hc0, hc1, hcm⟩ := id hwf
  by_cases hf : rb._count = rb.capacity
  · obtain ⟨x, _, _, hdq⟩ := dequeue_eq rb hwf
    have hr := emod_range (rb._dequeue_index + 1) rb.capacity hc
    rw [enqueue_full_eq rb d hf, hdq] at h
    have h : (ringbuffer.abs_index { rb with
          _count := rb._count - 1,
          _dequeue_index := (rb._dequeue_index + 1) % rb.capacity } (rb._count - 1) >>=
        fun i => Container.set rb._buffer i d >>= fun buffer =>
          (pure (ringbuffer.mk buffer (wrap32 (rb._count - 1 + 1))
            ((rb._dequeue_index + 1) % rb.capacity)) : Except Fault (ringbuffer α C))) =
        .ok rb' := h
    rw [bind_ok_iff] at h
    obtain ⟨i, _, h⟩ := h
    rw [bind_ok_iff] at h
    obtain ⟨b, hb, h⟩ := h
    rw [pure_ok_iff] at h
    obtain ⟨hcap, hinv2⟩ := LawfulContainer.set_capacity _ b i d hb
    have hcnt : wrap32 (rb._count - 1 + 1) = rb._count := by
      rw [Int.sub_add_cancel]
      exact wrap32_id rb._count (by omega) (by omega)
    rw [hcnt] at h
    rw [← h]
    exact ⟨⟨hinv2 hinv, by show 0 < Container._capacity b; rw [hcap]; exact hc, hr.1,
      by show _ < Container._capacity b; rw [hcap]; exact hr.2, hc0,
      by show _ ≤ Container._capacity b; rw [hcap]; exact hc1,
      by show Container._capacity b ≤ _; rw [hcap]; exact hcm⟩, hcap⟩
  · rw [enqueue_not_full_eq rb d hf, bind_ok_iff] at h
    obtain ⟨i, _, h⟩ := h
    rw [bind_ok_iff] at h
    obtain ⟨b, hb, h⟩ := h
    rw [pure_ok_iff] at h
    obtain ⟨hcap, hinv2⟩ := LawfulContainer.set_capacity _ b i d hb
    rw [wrap32_id (rb._count + 1) (by omega) (by omega)] at h
    rw [← h]
    exact ⟨⟨hinv2 hinv, by show 0 < Container._capacity b; rw [hcap]; exact hc, hh0,
      by show _ < Container._capacity b; rw [hcap]; exact hh1,
      by show 0 ≤ rb._count + 1; omega,
      by show rb._count + 1 ≤ Container._capacity b; rw [hcap]; show _ ≤ rb.capacity; omega,
      by show Container._capacity b ≤ _; rw [hcap]; exact hcm⟩, hcap⟩

/-- An assignment through `operator[]` that returns leaves a well-formed state of the same
capacity, `head` and `count`. -/
theorem set_ok_wf {α C : Type} [Container C α] [LawfulContainer C α]
    (rb rb' : ringbuffer α C) (hwf : rb.WF) (i : Int) (v : α) (h : rb.set i v = .ok rb') :
    rb'.WF ∧ rb'.capacity = rb.capacity := by
  obtain ⟨hinv, hc, hh0, hh1, hc0, hc1, hcm⟩ := id hwf
  unfold ringbuffer.set at h
  rw [bind_ok_iff] at h
  obtain ⟨a, _, h⟩ := h
  rw [bind_ok_iff] at h
  obtain ⟨b, hb, h⟩ := h
  rw [pure_ok_iff] at h
  obtain ⟨hcap, hinv2⟩ := LawfulContainer.set_capacity _ b a v hb
  rw [← h]
  exact ⟨⟨hinv2 hinv, by show 0 < Container._capacity b; rw [hcap]; exact hc, hh0,
    by show _ < Container._capacity b; rw [hcap]; exact hh1, hc0,
    by show _ ≤ Container._capacity b; rw [hcap]; exact hc1,
    by show Container._capacity b ≤ _; rw [hcap]; exact hcm⟩, hcap⟩

theorem enqueue_total {α C : Type} [Container C α] [LawfulContainer C α]
    (rb : ringbuffer α C) (hwf : rb.WF) (hb : rb.enqueue_sum ≤ 2147483647) (d : α) :
    ∃ rb', rb.enqueue d = .ok rb' ∧ rb'.WF ∧ rb'.capacity = rb.capacity ∧
      rb'._count = (if rb._count = rb.capacity then rb._count else rb._count + 1) ∧
      rb'._dequeue_index = (if rb._count = rb.capacity then
        (rb._dequeue_index + 1) % rb.capacity else rb._dequeue_index) := by
  unfold ringbuffer.enqueue_sum at hb
  by_cases hf : rb._count = rb.capacity
  · rw [if_pos hf] at hb
    obtain ⟨c', _, _, _, henq⟩ := enqueue_eq_full rb hwf hf hb d
    obtain ⟨hw, hcap⟩ := enqueue_ok_wf rb _ hwf d henq
    exact ⟨_, henq, hw, hcap, by rw [if_pos hf], by rw [if_pos hf]⟩
  · rw [if_neg hf] at hb
    obtain ⟨c', _, _, _, henq⟩ := enqueue_eq_not_full rb hwf hf hb d
    obtain ⟨hw, hcap⟩ := enqueue_ok_wf rb _ hwf d henq
    exact ⟨_, henq, hw, hcap, by rw [if_neg hf], by rw [if_neg hf]⟩

theorem dequeue_total {α C : Type} [Container C α] [LawfulContainer C α]
    (rb : ringbuffer α C) (hwf : rb.WF) (hpos : 0 < rb._count) :
    ∃ t rb', rb.dequeue = .ok (t, rb') ∧ rb'.WF ∧ rb'.capacity = rb.capacity ∧
      rb'._count = rb._count - 1 ∧
      rb'._dequeue_index = (rb._dequeue_index + 1) % rb.capacity := by
  obtain ⟨x, _, _, hdq⟩ := dequeue_eq rb hwf
  exact ⟨x, _, hdq, dequeue_wf rb hwf hpos, rfl, rfl, rfl⟩

theorem reachable_wf {α C : Type} [Container C α] [LawfulContainer C α]
    (rb0 rb : ringbuffer α C) (hwf : rb0.WF) (hr : ringbuffer.Reachable rb0 rb) :
    rb.WF ∧ rb.capacity = rb0.capacity := by
  induction hr with
  | start => exact ⟨hwf, rfl⟩
  | enqueue rb rb' d _ hstep ih =>
    obtain ⟨hw2, hcap2⟩ := enqueue_ok_wf rb rb' ih.1 d hstep
    exact ⟨hw2, hcap2.trans ih.2⟩
  | dequeue rb rb' t _ hne hstep ih =>
    have hc0 : 0 ≤ rb._count := ih.1.2.2.2.2.1
    have hne : ¬ rb._count = 0 := hne
    obtain ⟨t2, rb2, h2, hw2, hcap2, _, _⟩ := dequeue_total rb ih.1 (by omega)
    have e : (t2, rb2) = (t, rb') := Except.ok.inj (h2.symm.trans hstep)
    have e2 : rb2 = rb' := congrArg Prod.snd e
    rw [← e2]
    exact ⟨hw2, hcap2.trans ih.2⟩
  | write rb rb' index v _ h0 hstep ih =>
    obtain ⟨hw2, hcap2⟩ := set_ok_wf rb rb' ih.1 index v hstep
    exact ⟨hw2, hcap2.trans ih.2⟩

theorem invariant_of_wf {α C : Type} [Container C α] [LawfulContainer C α]
    (rb : ringbuffer α C) (hwf : rb.WF) (c : Int) (hc : rb.capacity = c) :
    rb.invariant c := by
  obtain ⟨_, _, hh0, hh1, hc0, hc1, _⟩ := hwf
  rw [hc] at hh1 hc1
  exact ⟨hc0, hc1, hh0, hh1, hc⟩

theorem wf_of_invariant {α C : Type} [Container C α] [LawfulContainer C α]
    (rb : ringbuffer α C) (c : Int) (hc : 0 < c) (hc1 : c ≤ 2147483647)
    (hext : LawfulContainer.inv rb._buffer) (h : rb.invariant c) : rb.WF := by
  obtain ⟨hc0, hcc, hh0, hh1, hcap⟩ := h
  rw [← hcap] at hc hh1 hcc hc1
  exact ⟨hext, hc, hh0, hh1, hc0, hcc, hc1⟩

theorem rb_set_get {α C : Type} [Container C α] [LawfulContainer C α]
    (rb : ringbuffer α C) (hwf : rb.WF) (hsm : rb.capacity ≤ 1073741824) (i : Int)
    (hi0 : 0 ≤ i) (hi : i < rb.capacity) (v : α) :
    ∃ rb', rb.set i v = .ok rb' ∧ rb'.get i = .ok v ∧
      (∀ j : Int, 0 ≤ j → j < rb.capacity → j ≠ i → rb'.get j = rb.get j) ∧
      rb'._count = rb._count ∧ rb'._dequeue_index = rb._dequeue_index := by
  have hlen : ((LawfulContainer.slots rb._buffer).length : Int) = rb.capacity :=
    LawfulContainer.length_slots rb._buffer hwf.1
  have hc : 0 < rb.capacity := hwf.2.1
  have hh1 : rb._dequeue_index < rb.capacity := hwf.2.2.2.1
  obtain ⟨c', hset, hslots, hcap, hwf'⟩ := rb_set_spec rb hwf i hi0 (by omega) v
  have hri := emod_range (rb._dequeue_index + i) rb.capacity hc
  have key : ∀ j : Int, 0 ≤ j → j < rb.capacity →
      ∃ y, ringbuffer.get { rb with _buffer := c' } j = .ok y ∧
        ((LawfulContainer.slots rb._buffer).set
          ((rb._dequeue_index + i) % rb.capacity).toNat v)[
            ((rb._dequeue_index + j) % rb.capacity).toNat]? = some y := by
    intro j hj hj1
    obtain ⟨y, hy, hsy⟩ := rb_get_spec _ hwf' j hj (by
      show rb._dequeue_index + j ≤ 2147483647
      omega)
    refine ⟨y, hy, ?_⟩
    rw [← hslots, ← hcap]
    exact hsy
  refine ⟨_, hset, ?_, fun j hj0 hj hne => ?_, rfl, rfl⟩
  · obtain ⟨y, hy, hsy⟩ := key i hi0 hi
    rw [List.getElem?_set, if_pos rfl, if_pos (by omega)] at hsy
    rw [hy, ← Option.some.inj hsy]
  · obtain ⟨y, hy, hsy⟩ := key j hj0 hj
    obtain ⟨x, hx, hsx⟩ := rb_get_spec rb hwf j hj0 (by omega)
    have hrj := emod_range (rb._dequeue_index + j) rb.capacity hc
    have hidx : (rb._dequeue_index + i) % rb.capacity ≠
        (rb._dequeue_index + j) % rb.capacity := fun e =>
      hne (emod_window_inj _ _ _ _ hi0 hi hj0 hj e).symm
    rw [List.getElem?_set, if_neg (by omega), hsx] at hsy
    rw [hy, hx, Option.some.inj hsy]

/-! ## A heap ring buffer of capacity `2 ^ 31 - 1` -/

theorem enqueue_all_append {α C : Type} [Container C α] (vs ws : List α) :
    ∀ rb : ringbuffer α C,
      rb.enqueue_all (vs ++ ws) = (rb.enqueue_all vs >>= fun r => r.enqueue_all ws) := by
  induction vs with
  | nil =>
    intro rb
    rfl
  | cons v vs ih =>
    intro rb
    show (rb.enqueue v >>= fun r => r.enqueue_all (vs ++ ws)) =
      ((rb.enqueue v >>= fun r => r.enqueue_all vs) >>= fun r => r.enqueue_all ws)
    cases hc : rb.enqueue v with
    | error e => rfl
    | ok r => exact ih r

/-- Filling a buffer whose head is 0, without eviction: at every capacity the calls return. -/
theorem enqueue_all_fill {α C : Type} [Container C α] [LawfulContainer C α] (vs : List α) :
    ∀ rb : ringbuffer α C, rb.WF → rb._dequeue_index = 0 →
      rb._count + (vs.length : Int) ≤ rb.capacity →
      ∃ rb', rb.enqueue_all vs = .ok rb' ∧ rb'.WF ∧ rb'.capacity = rb.capacity ∧
        rb'._dequeue_index = 0 ∧ rb'._count = rb._count + (vs.length : Int) := by
  induction vs with
  | nil =>
    intro rb hwf hh _
    exact ⟨rb, rfl, hwf, rfl, hh, by simp⟩
  | cons v vs ih =>
    intro rb hwf hh hb
    rw [List.length_cons] at hb
    push_cast at hb
    obtain ⟨hinv, hc, hh0, hh1, hc0, hc1, hcm⟩ := id hwf
    obtain ⟨c', _, hcap, _, henq⟩ :=
      enqueue_eq_not_full rb hwf (by omega) (by omega) v
    obtain ⟨hw1, hcap1⟩ := enqueue_ok_wf rb _ hwf v henq
    obtain ⟨rb2, h2, hw2, hcap2, hh2, hcnt2⟩ := ih _ hw1 hh (by
      rw [hcap1]
      show rb._count + 1 + (vs.length : Int) ≤ rb.capacity
      omega)
    refine ⟨rb2, ?_, hw2, hcap2.trans hcap1, hh2, ?_⟩
    · unfold ringbuffer.enqueue_all
      rw [henq]
      exact h2
    · rw [hcnt2, List.length_cons]
      push_cast
      show rb._count + 1 + (vs.length : Int) = _
      omega

theorem reachable_enqueue_all {α C : Type} [Container C α] (rb0 : ringbuffer α C)
    (vs : List α) :
    ∀ rb rb' : ringbuffer α C, ringbuffer.Reachable rb0 rb → rb.enqueue_all vs = .ok rb' →
      ringbuffer.Reachable rb0 rb' := by
  induction vs with
  | nil =>
    intro rb rb' hr h
    unfold ringbuffer.enqueue_all at h
    cases h
    exact hr
  | cons v vs ih =>
    intro rb rb' hr h
    unfold ringbuffer.enqueue_all at h
    cases h1 : rb.enqueue v with
    | error e =>
      rw [h1] at h
      cases h
    | ok r =>
      rw [h1] at h
      exact ih r rb' (.enqueue rb r v hr h1) h

theorem run_enqueues {α C : Type} [Container C α] (vs : List α) :
    ∀ rb : ringbuffer α C,
      rb.run (vs.map QueueOp.enqueue) =
        (rb.enqueue_all vs >>= fun r => pure ([], r)) := by
  induction vs with
  | nil =>
    intro rb
    rfl
  | cons v vs ih =>
    intro rb
    show (rb.enqueue v >>= fun r => r.run (vs.map QueueOp.enqueue)) =
      ((rb.enqueue v >>= fun r => r.enqueue_all vs) >>= fun r => pure ([], r))
    cases hc : rb.enqueue v with
    | error e => rfl
    | ok r => exact ih r

theorem no_underflow_enqueues {α C : Type} [Container C α] (vs : List α) :
    ∀ rb : ringbuffer α C, rb.no_underflow (vs.map QueueOp.enqueue) = true := by
  induction vs with
  | nil =>
    intro rb
    rfl
  | cons v vs ih =>
    intro rb
    show (match rb.enqueue v with
      | .ok r => ringbuffer.no_underflow r (vs.map QueueOp.enqueue)
      | .error _ => true) = true
    cases rb.enqueue v with
    | error e => rfl
    | ok r => exact ih r

theorem heap_set_negative {α : Type} [Inhabited α] (c : dynarray α) (i : Int) (hi : i < 0)
    (v : α) : (Container.set c i v : Except Fault (dynarray α)) = .error .out_of_bounds := by
  show dynarray.set c i v = _
  unfold dynarray.set writeAt
  rw [if_neg (by omega)]
  rfl

/-- On a heap ring buffer of capacity `2 ^ 31 - 1` with head 2 that holds `2 ^ 31 - 2` values,
the sum `head + count` is `2 ^ 31`: `abs_index` returns `-1`, and `enqueue` writes there. -/
theorem heap_wrap {α : Type} [Inhabited α] (rb : ringbuffer_heap α)
    (hC : rb.capacity = 2147483647) (hh : rb._dequeue_index = 2)
    (hcnt : rb._count = 2147483646) (v : α) :
    rb.abs_index rb._count = .ok (-1) ∧ rb.enqueue v = .error .out_of_bounds := by
  have habs : rb.abs_index rb._count = .ok (-1) := by
    unfold ringbuffer.abs_index
    have hC2 : Container._capacity rb._buffer = 2147483647 := hC
    rw [hC2, hh, hcnt, if_neg (by decide)]
    decide
  refine ⟨habs, ?_⟩
  rw [enqueue_not_full_eq rb v (by rw [hC, hcnt]; decide), habs]
  simp only [bind, Except.bind, heap_set_negative rb._buffer (-1) (by decide) v]

/-- On a full heap ring buffer of capacity `2 ^ 31 - 1` with head 1, `enqueue` dequeues, then
computes `head + count = 2 + (2 ^ 31 - 2)` and faults. -/
theorem heap_wrap_full {α : Type} [Inhabited α] (rb : ringbuffer_heap α) (hwf : rb.WF)
    (hC : rb.capacity = 2147483647) (hh : rb._dequeue_index = 1)
    (hcnt : rb._count = 2147483647) (v : α) :
    rb.enqueue v = .error .out_of_bounds := by
  obtain ⟨x, rb1, hdq, _, hcap1, hcnt1, hh1⟩ := dequeue_total rb hwf (by rw [hcnt]; decide)
  have h4 := (heap_wrap rb1 (by rw [hcap1, hC]) (by rw [hh1, hh, hC]; decide)
    (by rw [hcnt1, hcnt]; decide) v).2
  rw [enqueue_not_full_eq rb1 v (by rw [hcap1, hC, hcnt1, hcnt]; decide)] at h4
  rw [enqueue_full_eq rb v (by rw [hcnt, hC]), hdq]
  exact h4

/-- A heap ring buffer of capacity `2 ^ 31 - 1`, filled, after one eviction: the next
`enqueue` faults. -/
theorem heap_evict_twice {α : Type} [Inhabited α] (vs : List α)
    (hlen : (vs.length : Int) = 2147483647) (a b : α) :
    ∃ rb0 : ringbuffer_heap α, ringbuffer.ctor 2147483647 = .ok rb0 ∧
      rb0.capacity = 2147483647 ∧
      rb0.enqueue_all (vs ++ [a, b]) = .error .out_of_bounds := by
  obtain ⟨rb0, hnew, hcap⟩ := @heap_ctor α _ 2147483647 (by decide)
  obtain ⟨hwf0, _, hcnt0, hh0⟩ :=
    ctor_wf 2147483647 rb0 hnew (by rw [hcap]; decide) (by rw [hcap])
  obtain ⟨rb1, h1, hw1, hcap1, hh1, hcnt1⟩ :=
    enqueue_all_fill vs rb0 hwf0 hh0 (by rw [hcnt0, hlen, hcap]; decide)
  rw [hcnt0, hlen, Int.zero_add] at hcnt1
  rw [hcap] at hcap1
  obtain ⟨rb2, h2, hw2, hcap2, hcnt2, hh2⟩ := enqueue_total rb1 hw1 (by
    unfold ringbuffer.enqueue_sum
    rw [hcnt1, hcap1, hh1]
    decide) a
  rw [hcnt1, hcap1] at hcnt2
  rw [hcnt1, hcap1, hh1] at hh2
  rw [hcap1] at hcap2
  have h3 := heap_wrap_full rb2 hw2 hcap2 (by rw [hh2]; decide) (by rw [hcnt2]; decide) b
  refine ⟨rb0, hnew, hcap, ?_⟩
  rw [enqueue_all_append, h1]
  show (ringbuffer.enqueue rb1 a >>= fun r => r.enqueue_all [b]) = _
  rw [h2]
  show (ringbuffer.enqueue rb2 b >>= fun r => r.enqueue_all []) = _
  rw [h3]
  rfl

/-! ## Allocation failure -/

theorem new_array_on_fail {α : Type} [Inhabited α] (heap : Int → Bool) (n : Int)
    (hn : 0 ≤ n) (hfail : heap n = false) :
    (new_array_on heap n : Except Stop (List α)) = .error .bad_alloc := by
  unfold new_array_on
  rw [new_array_ok hn]
  simp only [hfail]
  rfl

theorem reserve_on_fail {α : Type} [Inhabited α] (heap : Int → Bool) (d : dynarray α)
    (n : Int) (e : Stop) (hlt : d._capacity < n)
    (hfail : (new_array_on heap n : Except Stop (List α)) = .error e) :
    d.reserve_on heap n = (.error e, d) := by
  unfold dynarray.reserve_on
  rw [if_neg (by omega), hfail]

theorem reserve_on_ok {α : Type} [Inhabited α] (d d' : dynarray α) (n : Int)
    (h : d.reserve n = .ok d') : d.reserve_on (fun _ => true) n = (.ok (), d') := by
  unfold dynarray.reserve at h
  unfold dynarray.reserve_on
  by_cases hc : d._capacity ≥ n
  · rw [if_pos hc, pure_ok_iff] at h
    rw [if_pos hc, h]
  · rw [if_neg hc, bind_ok_iff] at h
    obtain ⟨temp, htemp, h⟩ := h
    rw [bind_ok_iff] at h
    obtain ⟨temp2, htemp2, h⟩ := h
    rw [pure_ok_iff] at h
    rw [if_neg hc]
    unfold new_array_on
    simp only [htemp, htemp2, if_true, h]

theorem shift_loop_on_ok {α : Type} (index : Int) (k : Nat) :
    ∀ (d : dynarray α) (b : List α), dynarray.shift_loop index k d._buffer = .ok b →
      dynarray.shift_loop_on index k d = (.ok (), { d with _buffer := b }) := by
  induction k with
  | zero =>
    intro d b h
    unfold dynarray.shift_loop at h
    rw [pure_ok_iff] at h
    unfold dynarray.shift_loop_on
    rw [← h]
  | succ k ih =>
    intro d b h
    unfold dynarray.shift_loop at h
    simp only [] at h
    rw [bind_ok_iff] at h
    obtain ⟨v, hv, h⟩ := h
    rw [bind_ok_iff] at h
    obtain ⟨b1, hb1, h⟩ := h
    unfold dynarray.shift_loop_on
    simp only [hv, hb1]
    exact ih { d with _buffer := b1 } b h

theorem insert_on_fail {α : Type} [Inhabited α] (heap : Int → Bool) (d : dynarray α)
    (index : Int) (t : α) (cap : Int) (e : Stop)
    (hgrow : max index d._size > wrap32 (d._capacity - 1))
    (hloop : dynarray.grow_loop32 (max index d._size) 64
      (if d._capacity > 0 then d._capacity else 1) = .ok cap)
    (hlt : d._capacity < cap)
    (hfail : (new_array_on heap cap : Except Stop (List α)) = .error e) :
    d.insert_on heap index t = (.error e, d) := by
  have htop : (if index > d._size then index else d._size) = max index d._size := by
    split <;> omega
  unfold dynarray.insert_on
  simp only [htop, if_pos hgrow, hloop, reserve_on_fail heap d cap e hlt hfail]

theorem insert_on_ok {α : Type} [Inhabited α] (d d' : dynarray α) (index : Int) (t : α)
    (h : d.insert index t = .ok d') :
    d.insert_on (fun _ => true) index t = (.ok (), d') := by
  unfold dynarray.insert at h
  simp only [] at h
  unfold dynarray.insert_on
  by_cases hc : (if index > d._size then index else d._size) > wrap32 (d._capacity - 1)
  · rw [if_pos hc, bind_ok_iff] at h
    obtain ⟨cap, hcap, h⟩ := h
    rw [bind_ok_iff] at h
    obtain ⟨y, hy, h⟩ := h
    rw [bind_ok_iff] at h
    obtain ⟨b1, hb1, h⟩ := h
    rw [bind_ok_iff] at h
    obtain ⟨b2, hb2, h⟩ := h
    rw [pure_ok_iff] at h
    simp only [if_pos hc, hcap, reserve_on_ok d y cap hy,
      shift_loop_on_ok index _ y b1 hb1, hb2, h]
  · rw [if_neg hc, bind_ok_iff] at h
    obtain ⟨y, hy, h⟩ := h
    rw [pure_ok_iff] at hy
    subst hy
    rw [bind_ok_iff] at h
    obtain ⟨b1, hb1, h⟩ := h
    rw [bind_ok_iff] at h
    obtain ⟨b2, hb2, h⟩ := h
    rw [pure_ok_iff] at h
    simp only [if_neg hc]
    simp only [shift_loop_on_ok index _ d b1 hb1, hb2, h]

/-! ## Reads of a buffer of equal values -/

theorem readAt_replicate {α : Type} (n : Nat) (v : α) (i : Int) (h0 : 0 ≤ i)
    (h1 : i < (n : Int)) : readAt (List.replicate n v) i = .ok v := by
  apply readAt_ok h0
  rw [List.getElem?_replicate, if_pos (by omega)]

theorem abs_index_eval {α C : Type} [Container C α] (rb : ringbuffer α C) (cap head i : Int)
    (hcap : rb.capacity = cap) (hh : rb._dequeue_index = head) (hne : cap ≠ 0) :
    rb.abs_index i = .ok ((wrap32 (head + i)).tmod cap) := by
  unfold ringbuffer.abs_index
  have hcap2 : Container._capacity rb._buffer = cap := hcap
  rw [hcap2, hh, if_neg hne]
  rfl

/-- A heap ring buffer over a buffer of `n` equal values is well formed, and its logical
contents are `m` of them, where `m` is its count. -/
theorem heap_replicate_state {α : Type} [Inhabited α] (n m : Nat) (cap cnt head size : Int)
    (v : α) (hcap : cap = (n : Int)) (hcnt : cnt = (m : Int)) (hpos : 0 < cap)
    (hmax : cap ≤ 2147483647) (hh0 : 0 ≤ head) (hh1 : head < cap) (hle : cnt ≤ cap) :
    ringbuffer.WF (⟨⟨List.replicate n v, size, cap⟩, cnt, head⟩ : ringbuffer_heap α) ∧
    ringbuffer.contents_are (⟨⟨List.replicate n v, size, cap⟩, cnt, head⟩ : ringbuffer_heap α)
      (List.replicate m v) := by
  refine ⟨⟨?_, hpos, hh0, hh1, by rw [hcnt]; exact Int.ofNat_nonneg m, hle, hmax⟩, ?_, ?_⟩
  · show (((List.replicate n v).length : Nat) : Int) = cap
    rw [List.length_replicate, hcap]
  · show (((List.replicate m v).length : Nat) : Int) = cnt
    rw [List.length_replicate, hcnt]
  · intro i
    have hr := emod_range (head + ((i : Nat) : Int)) cap hpos
    show readAt (List.replicate n v) ((head + ((i : Nat) : Int)) % cap) = _
    rw [readAt_replicate n v _ hr.1 (by rw [← hcap]; exact hr.2), List.get_eq_getElem,
      List.getElem_replicate]

/-! ## The claims -/

/-- C1, as stated, fails on 32-bit `int`, at capacity `C = 2 ^ 31 - 1` over the heap backing
store: enqueueing `C + 2` values into the constructed ring buffer does not return.  The first
`C` calls fill the buffer and the next one evicts, so that head is 1; the last one dequeues
(head 2, count `C - 1`) and computes `head + count = 2 ^ 31`, which wraps to `-2 ^ 31`, so
`abs_index` is `-1` and the write `_buffer[-1]` is out of range. -/
theorem C1_overflow_counterexample :
    ∃ rb : ringbuffer_heap Int, ringbuffer.ctor 2147483647 = .ok rb ∧
      rb.capacity = 2147483647 ∧
      rb.enqueue_all (List.replicate 2147483647 0 ++ [0, 0]) = .error .out_of_bounds ∧
      ¬ ∃ rb', rb.enqueue_all (List.replicate 2147483647 0 ++ [0, 0]) = .ok rb' := by
  obtain ⟨rb, h1, h2, h3⟩ := @heap_evict_twice Int _ (List.replicate 2147483647 0)
    (by rw [List.length_replicate]; rfl) 0 0
  refine ⟨rb, h1, h2, h3, ?_⟩
  rintro ⟨rb', h⟩
  rw [h3] at h
  cases h

/-- C1, amended (ring eviction, sliding window, capacities up to `2 ^ 30`): for every capacity
`0 < C ≤ 2 ^ 30` and every list `vs`, constructing a ring buffer of capacity `C` and
enqueueing the values of `vs`, in order, returns and leaves `size() = min |vs| C`, with `[i]`
reading the `i`-th of the last `size()` values of `vs` for every `0 ≤ i < size()`; in
particular `C + 1` values `v0 :: ws` leave exactly `ws`, in order, with `size() = C`.  Stated
for both backing stores: the heap one, constructed with `C`, and the inline one of `N = C`
slots, constructed with any argument. -/
theorem C1_ring_eviction_law {α : Type} [Inhabited α] (vs : List α) :
    (∀ C : Int, 0 < C → C ≤ 1073741824 →
      ∃ rb rb' : ringbuffer_heap α, ringbuffer.ctor C = .ok rb ∧ rb.capacity = C ∧
        rb.enqueue_all vs = .ok rb' ∧
        rb'.size = min (vs.length : Int) C ∧
        (∀ i : Nat, (i : Int) < rb'.size →
          ∃ x, rb'.get (i : Int) = .ok x ∧
            (vs.drop (vs.length - rb'.size.toNat))[i]? = some x) ∧
        (∀ (v0 : α) (ws : List α), vs = v0 :: ws → (ws.length : Int) = C →
          rb'.size = C ∧ rb'.to_list = .ok ws)) ∧
    (∀ (N : Nat) (c : Int), 0 < N → N ≤ 1073741824 →
      ∃ rb rb' : ringbuffer_c α N, ringbuffer.ctor c = .ok rb ∧ rb.capacity = (N : Int) ∧
        rb.enqueue_all vs = .ok rb' ∧
        rb'.size = min (vs.length : Int) (N : Int) ∧
        (∀ i : Nat, (i : Int) < rb'.size →
          ∃ x, rb'.get (i : Int) = .ok x ∧
            (vs.drop (vs.length - rb'.size.toNat))[i]? = some x) ∧
        (∀ (v0 : α) (ws : List α), vs = v0 :: ws → (ws.length : Int) = (N : Int) →
          rb'.size = (N : Int) ∧ rb'.to_list = .ok ws)) := by
  constructor
  · intro C hC hC1
    obtain ⟨rb, hnew, hcap⟩ := @heap_ctor α _ C (le_of_lt hC)
    obtain ⟨rb', h⟩ :=
      fresh_enqueue_all C rb hnew (by rw [hcap]; exact hC) (by rw [hcap]; exact hC1) vs
    rw [hcap] at h
    exact ⟨rb, rb', hnew, hcap, h⟩
  · intro N c hN hN1
    obtain ⟨rb, hnew, hcap⟩ := @inline_ctor α _ N c
    obtain ⟨rb', h⟩ := fresh_enqueue_all c rb hnew (by rw [hcap]; exact_mod_cast hN)
      (by rw [hcap]; exact_mod_cast hN1) vs
    rw [hcap] at h
    exact ⟨rb, rb', hnew, hcap, h⟩

/-- Scenario A: capacity 3 over a heap backing store, `enqueue` 1, 2, 3, 4. -/
theorem C1_ring_eviction_law_witness :
    (0 : Int) < 3 ∧ (3 : Int) ≤ 1073741824 ∧
    (∃ rb rb' : ringbuffer_heap Int, ringbuffer.ctor 3 = .ok rb ∧
      rb.enqueue_all [1, 2, 3, 4] = .ok rb' ∧
      rb'.size = 3 ∧ rb'.get 0 = .ok 2 ∧ rb'.get 1 = .ok 3 ∧ rb'.get 2 = .ok 4) := by
  refine ⟨by decide, by decide, ?_⟩
  obtain ⟨rb, rb', h0, _, h1, h2, h3, _⟩ :=
    (C1_ring_eviction_law ([1, 2, 3, 4] : List Int)).1 3 (by decide) (by decide)
  have hs : rb'.size = 3 := by rw [h2]; decide
  refine ⟨rb, rb', h0, h1, hs, ?_, ?_, ?_⟩
  · obtain ⟨x, hx, hv⟩ := h3 0 (by rw [hs]; decide)
    rw [hs] at hv
    cases hv
    exact hx
  · obtain ⟨x, hx, hv⟩ := h3 1 (by rw [hs]; decide)
    rw [hs] at hv
    cases hv
    exact hx
  · obtain ⟨x, hx, hv⟩ := h3 2 (by rw [hs]; decide)
    rw [hs] at hv
    cases hv
    exact hx

/-- C2, as stated, fails on 32-bit `int`: a heap ring buffer with capacity `2 ^ 30 + 1`,
head `2 ^ 30` and count `2 ^ 30` satisfies `capacity > 0`, `0 ≤ head < capacity`,
`0 ≤ count ≤ capacity`, its backing store has `capacity` slots, and its logical contents are
`2 ^ 30` zeros; it is not full, and `enqueue` computes `head + count = 2 ^ 31`, which wraps to
`-2 ^ 31`, so `abs_index` is `-2 ^ 31 % (2 ^ 30 + 1) = -1073741823` and the write at that
slot is out of range: `enqueue v` does not return. -/
theorem C2_overflow_counterexample :
    ringbuffer.WF
      (⟨⟨List.replicate 1073741825 0, 0, 1073741825⟩, 1073741824, 1073741824⟩ :
        ringbuffer_heap Int) ∧
    ringbuffer.contents_are
      (⟨⟨List.replicate 1073741825 0, 0, 1073741825⟩, 1073741824, 1073741824⟩ :
        ringbuffer_heap Int) (List.replicate 1073741824 0) ∧
    ringbuffer._count
      (⟨⟨List.replicate 1073741825 0, 0, 1073741825⟩, 1073741824, 1073741824⟩ :
        ringbuffer_heap Int) <
      ringbuffer.capacity
        (⟨⟨List.replicate 1073741825 0, 0, 1073741825⟩, 1073741824, 1073741824⟩ :
          ringbuffer_heap Int) ∧
    ringbuffer.abs_index
      (⟨⟨List.replicate 1073741825 0, 0, 1073741825⟩, 1073741824, 1073741824⟩ :
        ringbuffer_heap Int) 1073741824 = .ok (-1073741823) ∧
    (∀ v : Int, ringbuffer.enqueue
      (⟨⟨List.replicate 1073741825 0, 0, 1073741825⟩, 1073741824, 1073741824⟩ :
        ringbuffer_heap Int) v = .error .out_of_bounds) ∧
    ¬ ∃ rb', ringbuffer.enqueue
      (⟨⟨List.replicate 1073741825 0, 0, 1073741825⟩, 1073741824, 1073741824⟩ :
        ringbuffer_heap Int) 7 = .ok rb' := by
  have habs : ringbuffer.abs_index
      (⟨⟨List.replicate 1073741825 0, 0, 1073741825⟩, 1073741824, 1073741824⟩ :
        ringbuffer_heap Int) 1073741824 = .ok (-1073741823) := by
    rw [abs_index_eval
      (⟨⟨List.replicate 1073741825 0, 0, 1073741825⟩, 1073741824, 1073741824⟩ :
        ringbuffer_heap Int) 1073741825 1073741824 1073741824 (by rfl) (by rfl) (by decide)]
    decide
  have henq : ∀ v : Int, ringbuffer.enqueue
      (⟨⟨List.replicate 1073741825 0, 0, 1073741825⟩, 1073741824, 1073741824⟩ :
        ringbuffer_heap Int) v = .error .out_of_bounds := by
    intro v
    rw [enqueue_not_full_eq _ v (show (1073741824 : Int) ≠ 1073741825 by decide)]
    have habs2 : ringbuffer.abs_index
        (⟨⟨List.replicate 1073741825 0, 0, 1073741825⟩, 1073741824, 1073741824⟩ :
          ringbuffer_heap Int)
        (ringbuffer._count
          (⟨⟨List.replicate 1073741825 0, 0, 1073741825⟩, 1073741824, 1073741824⟩ :
            ringbuffer_heap Int)) = .ok (-1073741823) := habs
    rw [habs2]
    simp only [bind, Except.bind, heap_set_negative _ (-1073741823) (by decide) v]
  obtain ⟨hwf, hL⟩ := @heap_replicate_state Int _ 1073741825 1073741824 1073741825 1073741824
    1073741824 0 0 (by rfl) (by rfl) (by decide) (by decide) (by decide) (by decide)
    (by decide)
  refine ⟨hwf, hL, by decide, habs, henq, ?_⟩
  rintro ⟨rb', h⟩
  rw [henq 7] at h
  cases h

/-- C2, amended (enqueue against the list model, capacities up to `2 ^ 30`): on a ring buffer
state with `0 < capacity ≤ 2 ^ 30`, `0 ≤ head < capacity`, `0 ≤ count ≤ capacity` whose
logical contents are the list `L`, `enqueue v` returns in every case, also on a full buffer;
when `count < capacity` the new contents are `L ++ [v]` and the count is `count + 1`, when
`count = capacity` the new contents are `L` without its first value followed by `v`, and the
count is still `capacity`. -/
theorem C2_enqueue_list_model {α C : Type} [Container C α] [LawfulContainer C α]
    (rb : ringbuffer α C) (hwf : rb.WF) (hsm : rb.capacity ≤ 1073741824) (L : List α)
    (hL : rb.contents_are L) (v : α) :
    ∃ rb', rb.enqueue v = .ok rb' ∧
      (rb._count < rb.capacity →
        rb'.contents_are (L ++ [v]) ∧ rb'._count = rb._count + 1) ∧
      (rb._count = rb.capacity →
        rb'.contents_are (L.tail ++ [v]) ∧ rb'._count = rb.capacity) := by
  have hlen : (L.length : Int) = rb._count := hL.1
  obtain ⟨rb', henq, hwf', _, hL', hcount⟩ :=
    enqueue_spec rb hwf (enqueue_sum_small rb hwf hsm) L ((contents_are_iff rb hwf L).mp hL) v
  have hL2 := (contents_are_iff rb' hwf' _).mpr hL'
  unfold window_enqueue at hL2
  refine ⟨rb', henq, fun hlt => ?_, fun heq => ?_⟩
  · rw [if_neg (by omega)] at hL2
    rw [if_neg (by omega)] at hcount
    exact ⟨hL2, hcount⟩
  · rw [if_pos (by omega)] at hL2
    rw [if_pos heq] at hcount
    exact ⟨hL2, by rw [hcount, heq]⟩

/-- A full buffer of capacity 3 holding 2, 3, 4 receives 5. -/
theorem C2_enqueue_list_model_witness :
    ringbuffer.WF (⟨⟨[4, 2, 3], 0, 3⟩, 3, 1⟩ : ringbuffer_heap Int) ∧
    ringbuffer.capacity (⟨⟨[4, 2, 3], 0, 3⟩, 3, 1⟩ : ringbuffer_heap Int) ≤ 1073741824 ∧
    ringbuffer.contents_are (⟨⟨[4, 2, 3], 0, 3⟩, 3, 1⟩ : ringbuffer_heap Int) [2, 3, 4] ∧
    (∃ rb', ringbuffer.enqueue (⟨⟨[4, 2, 3], 0, 3⟩, 3, 1⟩ : ringbuffer_heap Int) 5 = .ok rb' ∧
      rb'.contents_are [3, 4, 5] ∧ rb'._count = 3) := by
  have hwf : ringbuffer.WF (⟨⟨[4, 2, 3], 0, 3⟩, 3, 1⟩ : ringbuffer_heap Int) :=
    ⟨rfl, by decide, by decide, by decide, by decide, by decide, by decide⟩
  have hL : ringbuffer.contents_are (⟨⟨[4, 2, 3], 0, 3⟩, 3, 1⟩ : ringbuffer_heap Int)
      [2, 3, 4] := by
    unfold ringbuffer.contents_are
    decide
  obtain ⟨rb', h1, _, h3⟩ := C2_enqueue_list_model _ hwf (by decide) [2, 3, 4] hL 5
  exact ⟨hwf, by decide, hL, rb', h1, h3 rfl⟩

/-- C3 (dequeue against the list model): on a ring buffer state with `capacity > 0`,
`0 ≤ head < capacity`, `0 < count ≤ capacity` whose logical contents are the list `L`,
`dequeue` returns `L[0]`, the value at absolute index `head`; afterwards `head` is
`(head + 1) mod capacity`, `count` is one less, the logical contents are `L` without its first
value, and the backing store is the same. -/
theorem C3_dequeue_list_model {α C : Type} [Container C α] [LawfulContainer C α]
    (rb : ringbuffer α C) (hwf : rb.WF) (L : List α) (hL : rb.contents_are L)
    (hpos : 0 < rb._count) :
    ∃ x rb', rb.dequeue = .ok (x, rb') ∧ L.head? = some x ∧
      Container.get rb._buffer rb._dequeue_index = .ok x ∧
      rb'._dequeue_index = (rb._dequeue_index + 1) % rb.capacity ∧
      rb'._count = rb._count - 1 ∧
      rb'.contents_are L.tail ∧
      rb'._buffer = rb._buffer := by
  obtain ⟨x, rb', hdq, hhead, hget, hrb', hwf', hL'⟩ :=
    dequeue_spec rb hwf L ((contents_are_iff rb hwf L).mp hL) hpos
  refine ⟨x, rb', hdq, hhead, hget, ?_, ?_, (contents_are_iff rb' hwf' _).mpr hL', ?_⟩
  · rw [hrb']
  · rw [hrb']
  · rw [hrb']

/-- A full buffer of capacity 3 holding 2, 3, 4 gives up 2. -/
theorem C3_dequeue_list_model_witness :
    ringbuffer.WF (⟨⟨[4, 2, 3], 0, 3⟩, 3, 1⟩ : ringbuffer_heap Int) ∧
    ringbuffer.contents_are (⟨⟨[4, 2, 3], 0, 3⟩, 3, 1⟩ : ringbuffer_heap Int) [2, 3, 4] ∧
    (0 : Int) < ringbuffer._count (⟨⟨[4, 2, 3], 0, 3⟩, 3, 1⟩ : ringbuffer_heap Int) ∧
    (∃ x rb', ringbuffer.dequeue (⟨⟨[4, 2, 3], 0, 3⟩, 3, 1⟩ : ringbuffer_heap Int) =
        .ok (x, rb') ∧ [2, 3, 4].head? = some x ∧
      Container.get (⟨[4, 2, 3], 0, 3⟩ : dynarray Int) 1 = .ok x ∧
      rb'._dequeue_index = (1 + 1) % 3 ∧ rb'._count = 3 - 1 ∧
      rb'.contents_are [3, 4] ∧ rb'._buffer = ⟨[4, 2, 3], 0, 3⟩) := by
  have hwf : ringbuffer.WF (⟨⟨[4, 2, 3], 0, 3⟩, 3, 1⟩ : ringbuffer_heap Int) :=
    ⟨rfl, by decide, by decide, by decide, by decide, by decide, by decide⟩
  have hL : ringbuffer.contents_are (⟨⟨[4, 2, 3], 0, 3⟩, 3, 1⟩ : ringbuffer_heap Int)
      [2, 3, 4] := by
    unfold ringbuffer.contents_are
    decide
  exact ⟨hwf, hL, by decide, C3_dequeue_list_model _ hwf [2, 3, 4] hL (by decide)⟩

/-- C4, as stated, fails on 32-bit `int`, at capacity `C = 2 ^ 31 - 1` over the heap backing
store: the sequence of `C + 2` `enqueue` operations has no `dequeue`, so none underflows, and
running it on the constructed ring buffer does not return: the last `enqueue` computes
`head + count = 2 ^ 31`, which wraps, and writes `_buffer[-1]`. -/
theorem C4_overflow_counterexample :
    ∃ rb : ringbuffer_heap Int, ringbuffer.ctor 2147483647 = .ok rb ∧
      rb.capacity = 2147483647 ∧
      rb.no_underflow
        ((List.replicate 2147483647 (0 : Int) ++ [0, 0]).map QueueOp.enqueue) = true ∧
      rb.run ((List.replicate 2147483647 (0 : Int) ++ [0, 0]).map QueueOp.enqueue) =
        .error .out_of_bounds ∧
      ¬ ∃ out rb', rb.run ((List.replicate 2147483647 (0 : Int) ++ [0, 0]).map QueueOp.enqueue) =
        .ok (out, rb') := by
  obtain ⟨rb, h1, h2, h3⟩ := @heap_evict_twice Int _ (List.replicate 2147483647 0)
    (by rw [List.length_replicate]; rfl) 0 0
  have hrun : rb.run ((List.replicate 2147483647 (0 : Int) ++ [0, 0]).map QueueOp.enqueue) =
      .error .out_of_bounds := by
    rw [run_enqueues, h3]
    rfl
  refine ⟨rb, h1, h2, no_underflow_enqueues _ rb, hrun, ?_⟩
  rintro ⟨out, rb', h⟩
  rw [hrun] at h
  cases h

/-- C4, amended (FIFO order, capacities up to `2 ^ 30`): for every capacity `0 < C ≤ 2 ^ 30`,
a ring buffer of capacity `C` is constructed, and every sequence of `enqueue` / `dequeue`
operations on it in which no `dequeue` is applied when `size() == 0` returns; each `dequeue`
returns the oldest value that was enqueued and neither dequeued nor evicted (the values
returned are those of the list model), so the returned values are an order-preserving
subsequence of the enqueued values, and they are a prefix of the enqueued values when no
`enqueue` was applied to a full buffer.  Stated for both backing stores. -/
theorem C4_fifo_order {α : Type} [Inhabited α] (ops : List (QueueOp α)) :
    (∀ C : Int, 0 < C → C ≤ 1073741824 →
      ∃ rb : ringbuffer_heap α, ringbuffer.ctor C = .ok rb ∧ rb.capacity = C ∧
        (rb.no_underflow ops = true →
          ∃ out rb', rb.run ops = .ok (out, rb') ∧
            out = window_run C [] ops ∧
            List.Sublist out (QueueOp.enqueued ops) ∧
            (rb.no_eviction ops = true → out <+: QueueOp.enqueued ops))) ∧
    (∀ (N : Nat) (c : Int), 0 < N → N ≤ 1073741824 →
      ∃ rb : ringbuffer_c α N, ringbuffer.ctor c = .ok rb ∧ rb.capacity = (N : Int) ∧
        (rb.no_underflow ops = true →
          ∃ out rb', rb.run ops = .ok (out, rb') ∧
            out = window_run (N : Int) [] ops ∧
            List.Sublist out (QueueOp.enqueued ops) ∧
            (rb.no_eviction ops = true → out <+: QueueOp.enqueued ops))) := by
  constructor
  · intro C hC hC1
    obtain ⟨rb, hnew, hcap⟩ := @heap_ctor α _ C (le_of_lt hC)
    refine ⟨rb, hnew, hcap, fun hops => ?_⟩
    obtain ⟨out, rb', h⟩ :=
      fresh_run C rb hnew (by rw [hcap]; exact hC) (by rw [hcap]; exact hC1) ops hops
    rw [hcap] at h
    exact ⟨out, rb', h⟩
  · intro N c hN hN1
    obtain ⟨rb, hnew, hcap⟩ := @inline_ctor α _ N c
    refine ⟨rb, hnew, hcap, fun hops => ?_⟩
    obtain ⟨out, rb', h⟩ :=
      fresh_run c rb hnew (by rw [hcap]; exact_mod_cast hN)
        (by rw [hcap]; exact_mod_cast hN1) ops hops
    rw [hcap] at h
    exact ⟨out, rb', h⟩

/-- Capacity 2 over an inline backing store: 1 is evicted, then 2, 3, 4 come out in order. -/
theorem C4_fifo_order_witness :
    0 < 2 ∧ 2 ≤ 1073741824 ∧
    (∃ rb : ringbuffer_c Int 2, ringbuffer.ctor 7 = .ok rb ∧
      rb.no_underflow
        [.enqueue 1, .enqueue 2, .enqueue 3, .dequeue, .enqueue 4, .dequeue, .dequeue] = true ∧
      ∃ out rb', rb.run
          [.enqueue 1, .enqueue 2, .enqueue 3, .dequeue, .enqueue 4, .dequeue, .dequeue] =
            .ok (out, rb') ∧
        out = [2, 3, 4] ∧ List.Sublist out [1, 2, 3, 4]) := by
  refine ⟨by decide, by decide, ?_⟩
  obtain ⟨rb, h0, _, h⟩ := (C4_fifo_order
    ([.enqueue 1, .enqueue 2, .enqueue 3, .dequeue, .enqueue 4, .dequeue, .dequeue] :
      List (QueueOp Int))).2 2 7 (by decide) (by decide)
  have e : rb = ⟨⟨[0, 0], rfl⟩, 0, 0⟩ := Except.ok.inj (h0.symm.trans (by rfl))
  have hnu : rb.no_underflow
      [.enqueue 1, .enqueue 2, .enqueue 3, .dequeue, .enqueue 4, .dequeue, .dequeue] = true := by
    rw [e]
    decide
  obtain ⟨out, rb', h1, h2, h3, _⟩ := h hnu
  exact ⟨rb, h0, hnu, out, rb', h1, by rw [h2]; decide, h3⟩

/-- C5, as stated, fails on 32-bit `int`: on a full array of `2 ^ 30` values (size and
capacity `2 ^ 30`, a buffer of `2 ^ 30` slots) the in-range `insert(0, 7)`, `push_front(7)`
and `insert(size, 7)` need a capacity of `2 ^ 30 + 1`; the loop doubles `cap` from `2 ^ 30` to
`2 ^ 31`, which wraps to `-2 ^ 31` and then to 0, and `0 < 2 ^ 30 + 1` for ever: the loop runs
out of every iteration budget and the calls do not return. -/
theorem C5_overflow_counterexample :
    dynarray.WF (⟨List.replicate 1073741824 0, 1073741824, 1073741824⟩ : dynarray Int) ∧
    (0 : Int) ≤ 0 ∧
    (0 : Int) ≤
      dynarray.size (⟨List.replicate 1073741824 0, 1073741824, 1073741824⟩ : dynarray Int) ∧
    dynarray.insert (⟨List.replicate 1073741824 0, 1073741824, 1073741824⟩ : dynarray Int)
      0 7 = .error .iteration_budget ∧
    dynarray.push_front (⟨List.replicate 1073741824 0, 1073741824, 1073741824⟩ : dynarray Int)
      7 = .error .iteration_budget ∧
    dynarray.insert (⟨List.replicate 1073741824 0, 1073741824, 1073741824⟩ : dynarray Int)
      1073741824 7 = .error .iteration_budget ∧
    (∀ fuel : Nat,
      dynarray.grow_loop32 1073741824 fuel 1073741824 = .error .iteration_budget) ∧
    ¬ ∃ d', dynarray.insert
      (⟨List.replicate 1073741824 0, 1073741824, 1073741824⟩ : dynarray Int) 0 7 = .ok d' := by
  have h1 : dynarray.insert
      (⟨List.replicate 1073741824 0, 1073741824, 1073741824⟩ : dynarray Int) 0 7 =
      .error .iteration_budget :=
    insert_grow_error _ 0 7 _ 1073741824 1073741824 (by decide) (by decide) (by decide)
      (grow_loop32_full 64)
  have h2 : dynarray.insert
      (⟨List.replicate 1073741824 0, 1073741824, 1073741824⟩ : dynarray Int) 1073741824 7 =
      .error .iteration_budget :=
    insert_grow_error _ 1073741824 7 _ 1073741824 1073741824 (by decide) (by decide)
      (by decide) (grow_loop32_full 64)
  refine ⟨⟨by decide, by decide, ?_⟩, by decide, by decide, h1, h1, h2, grow_loop32_full, ?_⟩
  · show (((List.replicate 1073741824 (0 : Int)).length : Nat) : Int) = 1073741824
    rw [List.length_replicate]
    rfl
  · rintro ⟨d', h⟩
    rw [h1] at h
    cases h

/-- C5, amended (in-range insert is list insertion, while the growth fits in `int`): on a
`dynarray` state with `0 ≤ size ≤ capacity ≤ 2 ^ 31 - 1` and logical contents `L` that is not
full or holds fewer than `2 ^ 30` values, `insert index value` with `0 ≤ index ≤ size`
returns, whether or not it grows the capacity, with `size = |L| + 1` and logical contents
`take index L ++ [value] ++ drop index L`: the value formerly at `p ≥ index` is at `p + 1` and
the value at `p < index` is unchanged.  Also `push_front value` yields `value :: L`, and
`insert` at `index = size` yields `L ++ [value]`. -/
theorem C5_insert_in_range {α : Type} [Inhabited α] (d : dynarray α) (hwf : d.WF)
    (hcm : d._capacity ≤ 2147483647) (hfit : d.fits d.size)
    (index : Int) (h0 : 0 ≤ index) (h1 : index ≤ d.size) (value : α) :
    (∃ d', d.insert index value = .ok d' ∧
      d'.size = (d.contents.length : Int) + 1 ∧
      d'.contents = d.contents.take index.toNat ++ [value] ++ d.contents.drop index.toNat ∧
      (∀ p : Int, index ≤ p → p < d.size → ∃ x, d.get p = .ok x ∧ d'.get (p + 1) = .ok x) ∧
      (∀ p : Int, 0 ≤ p → p < index → ∃ x, d.get p = .ok x ∧ d'.get p = .ok x)) ∧
    (∃ d', d.push_front value = .ok d' ∧ d'.contents = value :: d.contents) ∧
    (∃ d', d.insert d.size value = .ok d' ∧ d'.contents = d.contents ++ [value]) := by
  have hs0 : 0 ≤ d._size := hwf.1
  have hfit : d.fits d._size := hfit
  have hfi : d.fits index := fits_of_le d index h1 hfit
  refine ⟨?_, ?_, ?_⟩
  · obtain ⟨d', hins, hsize, _, _, hcont⟩ := insert_in_range d hwf hcm index h0 h1 hfi value
    obtain ⟨d2, hins2, _, hlow, hhigh⟩ := insert_reads d hwf hcm index h0 hfi value
    have e : d2 = d' := Except.ok.inj (hins2.symm.trans hins)
    rw [e] at hlow hhigh
    refine ⟨d', hins, ?_, hcont, fun p hp1 hp2 => hhigh p hp1 hp2,
      fun p hp0 hp1 => hlow p hp0 hp1 (lt_of_lt_of_le hp1 h1)⟩
    show d'._size = _
    rw [hsize, contents_length d hwf]
  · obtain ⟨d', hins, _, _, _, hcont⟩ :=
      insert_in_range d hwf hcm 0 (le_refl 0) hs0 (fits_of_le d 0 hs0 hfit) value
    refine ⟨d', hins, ?_⟩
    rw [hcont]
    rfl
  · obtain ⟨d', hpb, _, _, _, hcont⟩ := push_back_spec d hwf hcm hfit value
    exact ⟨d', hpb, hcont⟩

/-- Inserting 7 at index 1 of 1, 2, 3. -/
theorem C5_insert_in_range_witness :
    dynarray.WF (⟨[1, 2, 3, 0], 3, 4⟩ : dynarray Int) ∧
    dynarray._capacity (⟨[1, 2, 3, 0], 3, 4⟩ : dynarray Int) ≤ 2147483647 ∧
    dynarray.fits (⟨[1, 2, 3, 0], 3, 4⟩ : dynarray Int)
      (dynarray.size (⟨[1, 2, 3, 0], 3, 4⟩ : dynarray Int)) ∧
    (0 : Int) ≤ 1 ∧
    (1 : Int) ≤ dynarray.size (⟨[1, 2, 3, 0], 3, 4⟩ : dynarray Int) ∧
    dynarray.insert (⟨[1, 2, 3, 0], 3, 4⟩ : dynarray Int) 1 7 = .ok ⟨[1, 7, 2, 3], 4, 4⟩ ∧
    (∃ d', dynarray.insert (⟨[1, 2, 3, 0], 3, 4⟩ : dynarray Int) 1 7 = .ok d' ∧
      d'.size = 3 + 1 ∧ d'.contents = [1] ++ [7] ++ [2, 3]) := by
  refine ⟨by decide, by decide, by decide, by decide, by decide, by decide, ?_⟩
  obtain ⟨⟨d', h1, h2, h3, _⟩, _⟩ :=
    C5_insert_in_range (⟨[1, 2, 3, 0], 3, 4⟩ : dynarray Int) (by decide) (by decide)
      (by decide) 1 (by decide) (by decide) 7
  exact ⟨d', h1, h2, h3⟩

/-- C6, as stated, fails on 32-bit `int`.  On an array of capacity 1, `insert(2 ^ 30, 9)`
needs a capacity of `2 ^ 30 + 1`: the loop doubles `cap` from 1 to `2 ^ 30`, then to `2 ^ 31`,
which wraps to `-2 ^ 31` and then to 0, and the call never returns.  On an empty array of
capacity 0, `insert(2 ^ 31 - 1, 9)` computes `topIndex + 1 = -2 ^ 31`, so the loop is skipped
with `cap = 1`, and the write `_buffer[2 ^ 31 - 1]` into a buffer of one slot is out of
range. -/
theorem C6_overflow_counterexample :
    dynarray.WF (⟨[0], 0, 1⟩ : dynarray Int) ∧ (0 : Int) ≤ 1073741824 ∧
    dynarray.insert (⟨[0], 0, 1⟩ : dynarray Int) 1073741824 9 = .error .iteration_budget ∧
    (∀ fuel : Nat, dynarray.grow_loop32 1073741824 fuel 1 = .error .iteration_budget) ∧
    (¬ ∃ d', dynarray.insert (⟨[0], 0, 1⟩ : dynarray Int) 1073741824 9 = .ok d') ∧
    dynarray.WF (⟨[], 0, 0⟩ : dynarray Int) ∧ (0 : Int) ≤ 2147483647 ∧
    dynarray.insert (⟨[], 0, 0⟩ : dynarray Int) 2147483647 9 = .error .out_of_bounds ∧
    ¬ ∃ d', dynarray.insert (⟨[], 0, 0⟩ : dynarray Int) 2147483647 9 = .ok d' := by
  have h1 : dynarray.insert (⟨[0], 0, 1⟩ : dynarray Int) 1073741824 9 =
      .error .iteration_budget :=
    insert_grow_error _ 1073741824 9 _ 1073741824 1 (by decide) (by decide) (by decide)
      (grow_loop32_one 64)
  have h2 : dynarray.insert (⟨[], 0, 0⟩ : dynarray Int) 2147483647 9 =
      .error .out_of_bounds := by decide
  refine ⟨by decide, by decide, h1, grow_loop32_one, ?_, by decide, by decide, h2, ?_⟩
  · rintro ⟨d', h⟩
    rw [h1] at h
    cases h
  · rintro ⟨d', h⟩
    rw [h2] at h
    cases h

/-- C6, amended (growth sufficiency, while the growth fits in `int`): on a `dynarray` state
with `0 ≤ size ≤ capacity ≤ 2 ^ 31 - 1`, for every `index ≥ 0` whose need
`max index size + 1` is at most the capacity or at most `2 ^ 30`, `insert index t` returns
with the new size `max index size + 1` and with `size ≤ capacity`, and so do `push_back` and
`push_front`; the constructor with an initial capacity `c ≥ 0` gives size `0` and capacity
`c`; `reserve` keeps `size ≤ capacity`. -/
theorem C6_growth_sufficiency {α : Type} [Inhabited α] (d : dynarray α) (hwf : d.WF)
    (hcm : d._capacity ≤ 2147483647) (index : Int) (h0 : 0 ≤ index) (hfit : d.fits index)
    (t : α) (c : Int) (hc : 0 ≤ c) (n : Int) :
    (∃ d', d.insert index t = .ok d' ∧ d'.size = max index d.size + 1 ∧
      d'.size ≤ d'._capacity ∧ d'.WF) ∧
    (∃ d', d.push_back t = .ok d' ∧ d'.size = d.size + 1 ∧ d'.size ≤ d'._capacity ∧ d'.WF) ∧
    (∃ d', d.push_front t = .ok d' ∧ d'.size = d.size + 1 ∧ d'.size ≤ d'._capacity ∧ d'.WF) ∧
    (∃ d0 : dynarray α, dynarray.ctor c = .ok d0 ∧ d0.size = 0 ∧ d0._capacity = c ∧
      d0.size ≤ d0._capacity ∧ d0.WF) ∧
    (∃ d', d.reserve n = .ok d' ∧ d'.size = d.size ∧ d'.size ≤ d'._capacity ∧ d'.WF) := by
  have hs0 : 0 ≤ d._size := hwf.1
  have hfs : d.fits d._size := fits_size d index hfit
  refine ⟨?_, ?_, ?_, ?_, ?_⟩
  · obtain ⟨d', h, hs, hw, _⟩ := insert_size d hwf hcm index h0 hfit t
    exact ⟨d', h, hs, hw.2.1, hw⟩
  · obtain ⟨d', h, hs, hw, _⟩ := insert_size d hwf hcm d._size hs0 hfs t
    refine ⟨d', h, ?_, hw.2.1, hw⟩
    show d'._size = d._size + 1
    rw [hs, max_self]
  · obtain ⟨d', h, hs, hw, _⟩ :=
      insert_size d hwf hcm 0 (le_refl 0) (fits_of_le d 0 hs0 hfs) t
    refine ⟨d', h, ?_, hw.2.1, hw⟩
    show d'._size = d._size + 1
    rw [hs, max_eq_right hs0]
  · refine ⟨_, ctor_spec c hc, rfl, rfl, hc, le_refl _, hc, ?_⟩
    show (((List.replicate c.toNat (default : α)).length : Nat) : Int) = c
    rw [List.length_replicate]
    omega
  · obtain ⟨d', h, hs, _, hw, _⟩ := reserve_spec d hwf n
    exact ⟨d', h, hs, hw.2.1, hw⟩

/-- Inserting at index 5 of a full array of two values, and constructing with capacity 3. -/
theorem C6_growth_sufficiency_witness :
    dynarray.WF (⟨[1, 2], 2, 2⟩ : dynarray Int) ∧
    dynarray._capacity (⟨[1, 2], 2, 2⟩ : dynarray Int) ≤ 2147483647 ∧ (0 : Int) ≤ 5 ∧
    dynarray.fits (⟨[1, 2], 2, 2⟩ : dynarray Int) 5 ∧ (0 : Int) ≤ 3 ∧
    dynarray.insert (⟨[1, 2], 2, 2⟩ : dynarray Int) 5 9 = .ok ⟨[1, 2, 0, 0, 0, 9, 0, 0], 6, 8⟩ ∧
    (∃ d', dynarray.insert (⟨[1, 2], 2, 2⟩ : dynarray Int) 5 9 = .ok d' ∧
      d'.size = max 5 2 + 1 ∧ d'.size ≤ d'._capacity ∧ d'.WF) ∧
    (∃ d0 : dynarray Int, dynarray.ctor 3 = .ok d0 ∧ d0.size = 0 ∧ d0._capacity = 3 ∧
      d0.size ≤ d0._capacity ∧ d0.WF) := by
  have h := C6_growth_sufficiency (⟨[1, 2], 2, 2⟩ : dynarray Int) (by decide) (by decide) 5
    (by decide) (by decide) 9 3 (by decide) 4
  exact ⟨by decide, by decide, by decide, by decide, by decide, by decide, h.1, h.2.2.2.1⟩

/-- C7 (capacity monotonicity): for every `dynarray` state, whatever single call is made
on it (`insert`, `push_back`, `push_front`, `reserve` with any argument, an indexed read or
write), the capacity after the call is at least the capacity before it; hence along every
sequence of calls the capacity never decreases.  The calls do return on a state with
`0 ≤ size ≤ capacity ≤ 2 ^ 31 - 1` when they are within the caller contract and the need of
an insertion is at most the capacity or at most `2 ^ 30`. -/
theorem C7_capacity_monotone {α : Type} [Inhabited α] (d : dynarray α) :
    (∀ (c : dynarray.Call α) (d' : dynarray α), d.call c = .ok d' →
      d._capacity ≤ d'._capacity) ∧
    (∀ (cs1 cs2 : List (dynarray.Call α)) (d1 d2 : dynarray α), d.calls cs1 = .ok d1 →
      d.calls (cs1 ++ cs2) = .ok d2 →
      d._capacity ≤ d1._capacity ∧ d1._capacity ≤ d2._capacity) ∧
    (d.WF → d._capacity ≤ 2147483647 → ∀ c : dynarray.Call α, c.admissible d →
      ∃ d', d.call c = .ok d' ∧ d'.WF ∧ d'._capacity ≤ 2147483647 ∧
        d._capacity ≤ d'._capacity) := by
  refine ⟨fun c d' h => call_ok_capacity d d' c h, fun cs1 cs2 d1 d2 h1 h2 => ?_,
    fun hwf hcm c hc => ?_⟩
  · refine ⟨calls_ok_capacity cs1 d d1 h1, ?_⟩
    rw [calls_append, h1] at h2
    exact calls_ok_capacity cs2 d1 d2 h2
  · obtain ⟨d', h, hw, hm⟩ := call_total d hwf hcm c hc
    exact ⟨d', h, hw, hm, call_ok_capacity d d' c h⟩

/-- A sequence of calls on a full array of two values: the capacity goes 2, 4, 4, 9. -/
theorem C7_capacity_monotone_witness :
    dynarray.call (⟨[1, 2], 2, 2⟩ : dynarray Int) (.push_back 3) = .ok ⟨[1, 2, 3, 0], 3, 4⟩ ∧
    dynarray.calls (⟨[1, 2], 2, 2⟩ : dynarray Int) [.push_back 3, .reserve 1] =
      .ok ⟨[1, 2, 3, 0], 3, 4⟩ ∧
    dynarray.calls (⟨[1, 2], 2, 2⟩ : dynarray Int)
      ([.push_back 3, .reserve 1] ++ [.insert 0 9, .write 0 5, .read 1, .reserve 9]) =
      .ok ⟨[5, 1, 2, 3, 0, 0, 0, 0, 0], 4, 9⟩ ∧
    dynarray.WF (⟨[1, 2], 2, 2⟩ : dynarray Int) ∧
    dynarray._capacity (⟨[1, 2], 2, 2⟩ : dynarray Int) ≤ 2147483647 ∧
    dynarray.Call.admissible (⟨[1, 2], 2, 2⟩ : dynarray Int) (.push_back 3) ∧
    (2 : Int) ≤ 4 ∧ ((2 : Int) ≤ 4 ∧ (4 : Int) ≤ 9) ∧
    (∃ d', dynarray.call (⟨[1, 2], 2, 2⟩ : dynarray Int) (.push_back 3) = .ok d' ∧ d'.WF ∧
      d'._capacity ≤ 2147483647 ∧ (2 : Int) ≤ d'._capacity) := by
  have h := C7_capacity_monotone (⟨[1, 2], 2, 2⟩ : dynarray Int)
  have hadm : dynarray.Call.admissible (⟨[1, 2], 2, 2⟩ : dynarray Int) (.push_back 3) := by
    show dynarray.fits (⟨[1, 2], 2, 2⟩ : dynarray Int) 2
    decide
  exact ⟨by decide, by decide, by decide, by decide, by decide, hadm,
    h.1 (.push_back 3) ⟨[1, 2, 3, 0], 3, 4⟩ (by decide),
    h.2.1 [.push_back 3, .reserve 1] [.insert 0 9, .write 0 5, .read 1, .reserve 9]
      ⟨[1, 2, 3, 0], 3, 4⟩ ⟨[5, 1, 2, 3, 0, 0, 0, 0, 0], 4, 9⟩ (by decide) (by decide),
    h.2.2 (by decide) (by decide) (.push_back 3) hadm⟩

/-- C8 (`reserve` postcondition): on a `dynarray` state with `0 ≤ size ≤ capacity`, if
`n ≤ capacity` then `reserve n` returns the state unchanged in buffer, size and capacity;
`reserve n` applied twice is `reserve n` applied once; and if `capacity < n` then `reserve n`
returns with capacity exactly `n`, the size unchanged, and every index `i` in `[0, size)`
reading the same value as before. -/
theorem C8_reserve_postcondition {α : Type} [Inhabited α] (d : dynarray α) (hwf : d.WF)
    (n : Int) :
    (n ≤ d._capacity → d.reserve n = .ok d) ∧
    ((d.reserve n >>= fun d1 => d1.reserve n) = d.reserve n) ∧
    (d._capacity < n → ∃ d', d.reserve n = .ok d' ∧ d'._capacity = n ∧ d'.size = d.size ∧
      d'.contents = d.contents ∧
      ∀ i : Int, 0 ≤ i → i < d.size → ∃ x, d.get i = .ok x ∧ d'.get i = .ok x) := by
  refine ⟨fun h => reserve_of_le d n h, reserve_idempotent d n, fun h => ?_⟩
  obtain ⟨d', hres, hsize, hcap, _, hcont⟩ := reserve_spec d hwf n
  refine ⟨d', hres, by rw [hcap]; exact max_eq_right (le_of_lt h), hsize, hcont,
    fun i hi0 hi => ?_⟩
  obtain ⟨x, hx, hbx⟩ := get_in_size d hwf i hi0 hi
  refine ⟨x, hx, ?_⟩
  have e : d' = { d with
      _buffer := d._buffer ++ List.replicate (n - d._capacity).toNat default,
      _capacity := n } :=
    Except.ok.inj (hres.symm.trans (reserve_of_lt d n hwf.2.2 h))
  rw [e]
  refine readAt_ok hi0 ?_
  show (d._buffer ++ List.replicate (n - d._capacity).toNat default)[i.toNat]? = some x
  rw [List.getElem?_append_left, hbx]
  have := hwf.2.1
  have := hwf.2.2
  have : i < d._size := hi
  omega

/-- On an array of capacity 4: `reserve 2` changes nothing, `reserve 6` grows to 6. -/
theorem C8_reserve_postcondition_witness :
    dynarray.WF (⟨[1, 2, 3, 0], 3, 4⟩ : dynarray Int) ∧
    ((2 : Int) ≤ 4 ∧
      dynarray.reserve (⟨[1, 2, 3, 0], 3, 4⟩ : dynarray Int) 2 = .ok ⟨[1, 2, 3, 0], 3, 4⟩) ∧
    ((4 : Int) < 6 ∧ ∃ d', dynarray.reserve (⟨[1, 2, 3, 0], 3, 4⟩ : dynarray Int) 6 = .ok d' ∧
      d'._capacity = 6 ∧ d'.size = 3 ∧ d'.contents = [1, 2, 3] ∧
      ∀ i : Int, 0 ≤ i → i < 3 →
        ∃ x, dynarray.get (⟨[1, 2, 3, 0], 3, 4⟩ : dynarray Int) i = .ok x ∧ d'.get i = .ok x) ∧
    dynarray.reserve (⟨[1, 2, 3, 0], 3, 4⟩ : dynarray Int) 6 = .ok ⟨[1, 2, 3, 0, 0, 0], 3, 6⟩ :=
  ⟨by decide,
    ⟨by decide,
      (C8_reserve_postcondition (⟨[1, 2, 3, 0], 3, 4⟩ : dynarray Int) (by decide) 2).1
        (by decide)⟩,
    ⟨by decide,
      (C8_reserve_postcondition (⟨[1, 2, 3, 0], 3, 4⟩ : dynarray Int) (by decide) 6).2.2
        (by decide)⟩,
    by decide⟩

/-- C9, as stated, fails on 32-bit `int`: on a full array of one value (capacity 1),
`insert(2 ^ 30, 9)` has `need = 2 ^ 30 + 1 > capacity`, and the least `1 * 2 ^ k` that reaches
the need is `2 ^ 31`, which is not an `int`: the loop doubles `cap` from 1 to `2 ^ 30`, then
to `2 ^ 31`, which wraps to `-2 ^ 31` and then to 0, and does not terminate, so the call
does not return. -/
theorem C9_overflow_counterexample :
    dynarray.WF (⟨[5], 1, 1⟩ : dynarray Int) ∧ (0 : Int) ≤ 1073741824 ∧
    dynarray._capacity (⟨[5], 1, 1⟩ : dynarray Int) <
      max 1073741824 (dynarray.size (⟨[5], 1, 1⟩ : dynarray Int)) + 1 ∧
    (∀ fuel : Nat, dynarray.grow_loop32 1073741824 fuel 1 = .error .iteration_budget) ∧
    dynarray.insert (⟨[5], 1, 1⟩ : dynarray Int) 1073741824 9 = .error .iteration_budget ∧
    (¬ ∃ d', dynarray.insert (⟨[5], 1, 1⟩ : dynarray Int) 1073741824 9 = .ok d') ∧
    wrap32 (1 * 2 ^ 31) = -2147483648 := by
  have h1 : dynarray.insert (⟨[5], 1, 1⟩ : dynarray Int) 1073741824 9 =
      .error .iteration_budget :=
    insert_grow_error _ 1073741824 9 _ 1073741824 1 (by decide) (by decide) (by decide)
      (grow_loop32_one 64)
  refine ⟨by decide, by decide, by decide, grow_loop32_one, h1, ?_, by decide⟩
  rintro ⟨d', h⟩
  rw [h1] at h
  cases h

/-- C9, amended (doubling growth policy, while the growth fits in `int`): on a `dynarray`
state with `0 ≤ size ≤ capacity ≤ 2 ^ 31 - 1`, for every `index ≥ 0`, with
`need = max index size + 1` at most the capacity or at most `2 ^ 30`: `insert index t`
returns; if `need ≤ capacity` the capacity is unchanged; otherwise the doubling loop on
32-bit `int` terminates (with every iteration budget from some point on it returns the new
capacity), the new capacity is `c0 * 2 ^ k` for some `k`, where `c0` is `capacity` if
`capacity > 0` and `1` otherwise, it is at least `need`, it is the least number of that form
that is at least `need`, and it is less than `2 * need`. -/
theorem C9_doubling_growth {α : Type} [Inhabited α] (d : dynarray α) (hwf : d.WF)
    (hcm : d._capacity ≤ 2147483647) (index : Int) (h0 : 0 ≤ index) (hfit : d.fits index)
    (t : α) :
    ∃ d', d.insert index t = .ok d' ∧
      (max index d.size + 1 ≤ d._capacity → d'._capacity = d._capacity) ∧
      (d._capacity < max index d.size + 1 →
        (∃ budget : Nat, ∀ fuel : Nat, budget ≤ fuel →
          dynarray.grow_loop32 (max index d.size) fuel
            (if d._capacity > 0 then d._capacity else 1) = .ok d'._capacity) ∧
        (∃ k : Nat, d'._capacity = (if d._capacity > 0 then d._capacity else 1) * 2 ^ k) ∧
        max index d.size + 1 ≤ d'._capacity ∧
        (∀ j : Nat, max index d.size + 1 ≤ (if d._capacity > 0 then d._capacity else 1) * 2 ^ j →
          d'._capacity ≤ (if d._capacity > 0 then d._capacity else 1) * 2 ^ j) ∧
        d'._capacity < 2 * (max index d.size + 1)) := by
  obtain ⟨cap, buf, hins, hsame, hgrow, hge, _, _, _, _⟩ :=
    insert_spec d hwf hcm index h0 hfit t
  have hs0 : 0 ≤ d._size := hwf.1
  refine ⟨_, hins, hsame, fun hlt => ?_⟩
  obtain ⟨k, _, hk, hmin, hfuel⟩ := hgrow hlt
  have hc0 : 0 < (if d._capacity > 0 then d._capacity else 1) := by split <;> omega
  refine ⟨⟨k, hfuel⟩, ⟨k, hk⟩, hge, fun j hj => ?_, ?_⟩
  · show cap ≤ _
    have hkj : k ≤ j := by
      by_contra hlt2
      have := hmin j (by omega)
      exact absurd hj (not_le.mpr this)
    rw [hk]
    exact Int.mul_le_mul_of_nonneg_left (pow_le_pow_right₀ (by norm_num) hkj) (le_of_lt hc0)
  · show cap < 2 * (max index d._size + 1)
    have hlt : d._capacity < max index d._size + 1 := hlt
    cases k with
    | zero =>
      rw [hk, pow_zero, Int.mul_one]
      split <;> omega
    | succ k =>
      have := hmin k (Nat.lt_succ_self k)
      have e : (if d._capacity > 0 then d._capacity else 1) * 2 ^ (k + 1) =
          2 * ((if d._capacity > 0 then d._capacity else 1) * 2 ^ k) := by ring
      rw [hk, e]
      have : (if d._capacity > 0 then d._capacity else 1) * 2 ^ k < max index d._size + 1 :=
        this
      omega

/-- Capacity 3 and `need = 8`: the loop doubles 3 to 6 to 12. -/
theorem C9_doubling_growth_witness :
    dynarray.WF (⟨[1, 2, 3], 3, 3⟩ : dynarray Int) ∧
    dynarray._capacity (⟨[1, 2, 3], 3, 3⟩ : dynarray Int) ≤ 2147483647 ∧ (0 : Int) ≤ 7 ∧
    dynarray.fits (⟨[1, 2, 3], 3, 3⟩ : dynarray Int) 7 ∧
    dynarray.insert (⟨[1, 2, 3], 3, 3⟩ : dynarray Int) 7 9 =
      .ok ⟨[1, 2, 3, 0, 0, 0, 0, 9, 0, 0, 0, 0], 8, 12⟩ ∧
    (∃ d', dynarray.insert (⟨[1, 2, 3], 3, 3⟩ : dynarray Int) 7 9 = .ok d' ∧
      ((3 : Int) < max 7 3 + 1 →
        (∃ k : Nat, d'._capacity = 3 * 2 ^ k) ∧ max 7 3 + 1 ≤ d'._capacity ∧
          d'._capacity < 2 * (max 7 3 + 1))) := by
  refine ⟨by decide, by decide, by decide, by decide, by decide, ?_⟩
  obtain ⟨d', h1, _, h3⟩ :=
    C9_doubling_growth (⟨[1, 2, 3], 3, 3⟩ : dynarray Int) (by decide) (by decide) 7
      (by decide) (by decide) 9
  exact ⟨d', h1, fun hlt => ⟨(h3 hlt).2.1, (h3 hlt).2.2.1, (h3 hlt).2.2.2.2⟩⟩

/-- C10, as stated, fails on 32-bit `int` for a list of `2 ^ 30 + 1` values: from the initial
capacity 0 the first `2 ^ 30` calls of `push_back` return and leave size and capacity
`2 ^ 30` (the capacity goes through the powers of two), and the next `push_back`, which needs
`2 ^ 30 + 1` slots, doubles `cap` to `2 ^ 31`, which wraps; the loop does not terminate and
the call does not return. -/
theorem C10_overflow_counterexample :
    ∃ d0 : dynarray Int, dynarray.ctor 0 = .ok d0 ∧
      (∃ d1 : dynarray Int, d0.push_back_all (List.replicate 1073741824 0) = .ok d1 ∧
        d1._size = 1073741824 ∧ d1._capacity = 1073741824 ∧
        d1.push_back 0 = .error .iteration_budget) ∧
      d0.push_back_all (List.replicate 1073741824 0 ++ [0]) = .error .iteration_budget ∧
      (∀ fuel : Nat,
        dynarray.grow_loop32 1073741824 fuel 1073741824 = .error .iteration_budget) ∧
      ¬ ∃ d : dynarray Int, d0.push_back_all (List.replicate 1073741824 0 ++ [0]) = .ok d := by
  have hwf0 : dynarray.WF
      ({ _buffer := List.replicate (0 : Int).toNat default, _size := 0, _capacity := 0 } :
        dynarray Int) := ⟨le_refl 0, le_refl 0, rfl⟩
  obtain ⟨d1, h1, hw1, hp1, hs1, _⟩ :=
    push_back_all_spec (List.replicate 1073741824 (0 : Int)) _ hwf0 (Or.inl rfl) (by
      rw [List.length_replicate]
      decide)
  have hs : d1._size = 1073741824 := by
    rw [hs1, List.length_replicate]
    rfl
  have hc : d1._capacity = 1073741824 := by
    have hle := hw1.2.1
    rw [hs] at hle
    rcases hp1 with h | ⟨j, hj, h⟩
    · omega
    · have h30 : (2 : Int) ^ 30 = 1073741824 := by norm_num
      have : (2 : Int) ^ j ≤ 2 ^ 30 := pow_le_pow_right₀ (by norm_num) hj
      omega
  have h2 : d1.push_back 0 = .error .iteration_budget :=
    insert_grow_error d1 d1._size 0 _ 1073741824 1073741824 (by rw [hs]; decide)
      (by rw [hc]; decide) (by rw [hc]; decide) (grow_loop32_full 64)
  have h3 : dynarray.push_back_all
      ({ _buffer := List.replicate (0 : Int).toNat default, _size := 0, _capacity := 0 } :
        dynarray Int) (List.replicate 1073741824 0 ++ [0]) = .error .iteration_budget := by
    rw [push_back_all_append, h1]
    show (d1.push_back 0 >>= fun d => d.push_back_all []) = _
    rw [h2]
    rfl
  refine ⟨_, ctor_spec 0 (le_refl 0), ⟨d1, h1, hs, hc, h2⟩, h3, grow_loop32_full, ?_⟩
  rintro ⟨d, h⟩
  rw [h3] at h
  cases h

/-- C10, amended (`push_back` round trip, up to `2 ^ 30` values): calling `push_back` with
each value of a list `vs` of at most `2 ^ 30` values, in order, on a `dynarray` constructed
with initial capacity `0` returns and leaves `size() = |vs|`, a capacity of at least `|vs|`,
and index `i` reading `vs[i]` for every `0 ≤ i < |vs|`. -/
theorem C10_push_back_round_trip {α : Type} [Inhabited α] (vs : List α)
    (hlen : (vs.length : Int) ≤ 1073741824) :
    ∃ d0 d : dynarray α, dynarray.ctor 0 = .ok d0 ∧ d0.push_back_all vs = .ok d ∧
      d.size = (vs.length : Int) ∧ (vs.length : Int) ≤ d._capacity ∧
      ∀ i : Fin vs.length, d.get ((i : Nat) : Int) = .ok (vs.get i) := by
  have hwf0 : dynarray.WF
      ({ _buffer := List.replicate (0 : Int).toNat default, _size := 0, _capacity := 0 } :
        dynarray α) := ⟨le_refl 0, le_refl 0, rfl⟩
  obtain ⟨d, hd, hwf, _, _, hcont⟩ :=
    push_back_all_spec vs _ hwf0 (Or.inl rfl) (by
      show (0 : Int) + (vs.length : Int) ≤ 1073741824
      omega)
  have hc : d.contents = vs := by
    rw [hcont]
    rfl
  have hlen2 := contents_length d hwf
  rw [hc] at hlen2
  refine ⟨_, d, ctor_spec 0 (le_refl 0), hd, hlen2.symm, ?_, fun i => ?_⟩
  · rw [hlen2]
    exact hwf.2.1
  · apply get_of_contents
    rw [hc]
    exact List.getElem?_eq_getElem i.2

/-- Scenario B: initial capacity 0, `push_back` 1, 2, 3. -/
theorem C10_push_back_round_trip_witness :
    (([1, 2, 3] : List Int).length : Int) ≤ 1073741824 ∧
    ∃ d0 d : dynarray Int, dynarray.ctor 0 = .ok d0 ∧ d0.push_back_all [1, 2, 3] = .ok d ∧
      d.size = 3 ∧ (3 : Int) ≤ d._capacity ∧
      d.get 0 = .ok 1 ∧ d.get 1 = .ok 2 ∧ d.get 2 = .ok 3 := by
  obtain ⟨d0, d, h1, h2, h3, h4, h5⟩ :=
    C10_push_back_round_trip ([1, 2, 3] : List Int) (by decide)
  exact ⟨by decide, d0, d, h1, h2, h3, h4, h5 ⟨0, by decide⟩, h5 ⟨1, by decide⟩,
    h5 ⟨2, by decide⟩⟩

/-- C11, as stated, fails on 32-bit `int`.  On an empty array of capacity 0,
`insert(2 ^ 31 - 1, 99)` has `index > size`, computes `topIndex + 1 = -2 ^ 31`, skips the
doubling with `cap = 1`, and writes `_buffer[2 ^ 31 - 1]` into a buffer of one slot: the
access is out of range and no state with size `index + 1` results (`index + 1` is not an
`int`).  On the same array `insert(2 ^ 30, 99)` does not return, the doubling loop not
terminating. -/
theorem C11_overflow_counterexample :
    dynarray.WF (⟨[], 0, 0⟩ : dynarray Int) ∧
    dynarray.size (⟨[], 0, 0⟩ : dynarray Int) < 2147483647 ∧
    dynarray.insert (⟨[], 0, 0⟩ : dynarray Int) 2147483647 99 = .error .out_of_bounds ∧
    (¬ ∃ d', dynarray.insert (⟨[], 0, 0⟩ : dynarray Int) 2147483647 99 = .ok d') ∧
    wrap32 (2147483647 + 1) = -2147483648 ∧
    dynarray.size (⟨[], 0, 0⟩ : dynarray Int) < 1073741824 ∧
    dynarray.insert (⟨[], 0, 0⟩ : dynarray Int) 1073741824 99 = .error .iteration_budget ∧
    (∀ fuel : Nat, dynarray.grow_loop32 1073741824 fuel 1 = .error .iteration_budget) := by
  have h1 : dynarray.insert (⟨[], 0, 0⟩ : dynarray Int) 2147483647 99 =
      .error .out_of_bounds := by decide
  have h2 : dynarray.insert (⟨[], 0, 0⟩ : dynarray Int) 1073741824 99 =
      .error .iteration_budget :=
    insert_grow_error _ 1073741824 99 _ 1073741824 1 (by decide) (by decide) (by decide)
      (grow_loop32_one 64)
  refine ⟨by decide, by decide, h1, ?_, by decide, by decide, h2, grow_loop32_one⟩
  rintro ⟨d', h⟩
  rw [h1] at h
  cases h

/-- C11, amended (sparse insert, while the growth fits in `int`): on a `dynarray` state with
`0 ≤ size ≤ capacity ≤ 2 ^ 31 - 1`, for every `index > size` with `index + 1` at most the
capacity or at most `2 ^ 30`, `insert index value` returns, performs no shift (the shift loop
runs zero iterations and hands back the buffer it is given), leaves every position in
`[0, old size)` reading what it read before, makes `index` read `value`, and sets the size to
`index + 1`.  Nothing is said about the positions in `[old size, index)`. -/
theorem C11_sparse_insert {α : Type} [Inhabited α] (d : dynarray α) (hwf : d.WF)
    (hcm : d._capacity ≤ 2147483647) (index : Int) (hi : d.size < index)
    (hfit : index + 1 ≤ d._capacity ∨ index + 1 ≤ 1073741824) (value : α) :
    ∃ d', d.insert index value = .ok d' ∧
      d'.size = index + 1 ∧
      d'.get index = .ok value ∧
      (∀ p : Int, 0 ≤ p → p < d.size → ∃ x, d.get p = .ok x ∧ d'.get p = .ok x) ∧
      (d._size - index).toNat = 0 ∧
      (∀ buffer : List α,
        dynarray.shift_loop index (d._size - index).toNat buffer = .ok buffer) := by
  have hi : d._size < index := hi
  have hs0 : 0 ≤ d._size := hwf.1
  have h0 : 0 ≤ index := by omega
  have hfit2 : d.fits index := by
    unfold dynarray.fits
    rw [max_eq_left (le_of_lt hi)]
    exact hfit
  obtain ⟨d', hins, hread, hlow, _⟩ := insert_reads d hwf hcm index h0 hfit2 value
  obtain ⟨d2, hins2, hsize, _, _⟩ := insert_size d hwf hcm index h0 hfit2 value
  have e : d2 = d' := Except.ok.inj (hins2.symm.trans hins)
  rw [e] at hsize
  have hk : (d._size - index).toNat = 0 := by omega
  refine ⟨d', hins, ?_, hread, fun p hp0 hp => hlow p hp0 (by have : p < d._size := hp; omega) hp,
    hk, fun buffer => ?_⟩
  · show d'._size = index + 1
    rw [hsize, max_eq_left (le_of_lt hi)]
  · rw [hk]
    rfl

/-- Scenario C: `insert(5, 99)` on an array with size 0 and capacity 0. -/
theorem C11_sparse_insert_witness :
    dynarray.WF (⟨[], 0, 0⟩ : dynarray Int) ∧
    dynarray._capacity (⟨[], 0, 0⟩ : dynarray Int) ≤ 2147483647 ∧
    dynarray.size (⟨[], 0, 0⟩ : dynarray Int) < 5 ∧
    ((5 : Int) + 1 ≤ dynarray._capacity (⟨[], 0, 0⟩ : dynarray Int) ∨
      (5 : Int) + 1 ≤ 1073741824) ∧
    (∃ d', dynarray.insert (⟨[], 0, 0⟩ : dynarray Int) 5 99 = .ok d' ∧
      d'.size = 5 + 1 ∧ d'.get 5 = .ok 99) := by
  refine ⟨by decide, by decide, by decide, by decide, ?_⟩
  obtain ⟨d', h1, h2, h3, _⟩ :=
    C11_sparse_insert (⟨[], 0, 0⟩ : dynarray Int) (by decide) (by decide) 5 (by decide)
      (by decide) 99
  exact ⟨d', h1, h2, h3⟩

/-- C12, as stated, fails for the inline backing store: a `ringbuffer_c<int, 3>` constructed
with target capacity 7 has `capacity() == 3`, not 7. -/
theorem C12_inline_capacity_counterexample :
    (ringbuffer.ctor 7 : Except Fault (ringbuffer_c Int 3)) = .ok ⟨⟨[0, 0, 0], rfl⟩, 0, 0⟩ ∧
    ringbuffer.capacity (⟨⟨[0, 0, 0], rfl⟩, 0, 0⟩ : ringbuffer_c Int 3) = 3 ∧
    ¬ ∃ rb : ringbuffer_c Int 3, ringbuffer.ctor 7 = .ok rb ∧ rb.capacity = 7 := by
  refine ⟨rfl, rfl, ?_⟩
  rintro ⟨rb, h1, h2⟩
  have e : rb = ⟨⟨[0, 0, 0], rfl⟩, 0, 0⟩ := Except.ok.inj (h1.symm.trans (by rfl))
  rw [e] at h2
  exact absurd h2 (by decide)

/-- C12, amended (ring buffer construction): over a `dynarray` backing store, for every target
capacity `c ≥ 0` the constructed ring buffer has `capacity() == c`; over an `array_c` backing
store of `N` slots, for every constructor argument it has `capacity() == N`; in both cases
`size() == 0` and `head == 0`. -/
theorem C12_construction {α : Type} [Inhabited α] (c : Int) (hc : 0 ≤ c) (N : Nat) (a : Int) :
    (∃ rb : ringbuffer_heap α, ringbuffer.ctor c = .ok rb ∧
      rb.capacity = c ∧ rb.size = 0 ∧ rb._dequeue_index = 0) ∧
    (∃ rb : ringbuffer_c α N, ringbuffer.ctor a = .ok rb ∧
      rb.capacity = (N : Int) ∧ rb.size = 0 ∧ rb._dequeue_index = 0) := by
  constructor
  · obtain ⟨rb, hnew, hcap⟩ := @heap_ctor α _ c hc
    obtain ⟨h1, h2, _⟩ := ctor_fresh c rb hnew
    exact ⟨rb, hnew, hcap, h1, h2⟩
  · obtain ⟨rb, hnew, hcap⟩ := @inline_ctor α _ N a
    obtain ⟨h1, h2, _⟩ := ctor_fresh a rb hnew
    exact ⟨rb, hnew, hcap, h1, h2⟩

/-- Construction with 4 over the heap backing store, and with 7 over three inline slots. -/
theorem C12_construction_witness :
    (0 : Int) ≤ 4 ∧
    (∃ rb : ringbuffer_heap Int, ringbuffer.ctor 4 = .ok rb ∧
      rb.capacity = 4 ∧ rb.size = 0 ∧ rb._dequeue_index = 0) ∧
    (∃ rb : ringbuffer_c Int 3, ringbuffer.ctor 7 = .ok rb ∧
      rb.capacity = ((3 : Nat) : Int) ∧ rb.size = 0 ∧ rb._dequeue_index = 0) :=
  ⟨by decide, C12_construction (4 : Int) (by decide) 3 7⟩

/-- C13 (ring buffer state invariant): for every capacity `0 < c ≤ 2 ^ 31 - 1` the predicate
`0 ≤ count ≤ c`, `0 ≤ head < c`, `capacity() == c` holds after construction, over the heap
backing store and over the inline one of `N > 0` slots (with `c = N`), and in every state
reached from there by `enqueue`, by `dequeue` when `size() != 0` and by indexed writes.  Over
any backing store the predicate, together with the backing store having `_capacity` slots, is
preserved by every `enqueue` that returns, by every `dequeue` applied when `count > 0`, which
does return, and by every indexed write that returns; when `c ≤ 2 ^ 30`, every `enqueue` and
every indexed write at an index in `[0, 2 ^ 30]` does return. -/
theorem C13_ring_invariant {α C : Type} [Inhabited α] [Container C α] [LawfulContainer C α]
    (c : Int) (hc : 0 < c) (hc1 : c ≤ 2147483647) (N : Nat) (hN : 0 < N)
    (hN1 : N ≤ 2147483647) :
    (∃ rb0 : ringbuffer_heap α, ringbuffer.ctor c = .ok rb0 ∧ rb0.invariant c ∧
      ∀ rb, ringbuffer.Reachable rb0 rb → rb.invariant c) ∧
    (∀ a : Int, ∃ rb0 : ringbuffer_c α N, ringbuffer.ctor a = .ok rb0 ∧
      rb0.invariant (N : Int) ∧
      ∀ rb, ringbuffer.Reachable rb0 rb → rb.invariant (N : Int)) ∧
    (∀ rb : ringbuffer α C, LawfulContainer.inv rb._buffer → rb.invariant c →
      (∀ (d : α) (rb' : ringbuffer α C), rb.enqueue d = .ok rb' →
        LawfulContainer.inv rb'._buffer ∧ rb'.invariant c) ∧
      (0 < rb._count → ∃ t rb', rb.dequeue = .ok (t, rb') ∧
        LawfulContainer.inv rb'._buffer ∧ rb'.invariant c) ∧
      (∀ (i : Int) (v : α) (rb' : ringbuffer α C), rb.set i v = .ok rb' →
        LawfulContainer.inv rb'._buffer ∧ rb'.invariant c) ∧
      (c ≤ 1073741824 →
        (∀ d : α, ∃ rb', rb.enqueue d = .ok rb') ∧
        (∀ (i : Int) (v : α), 0 ≤ i → i ≤ 1073741824 → ∃ rb', rb.set i v = .ok rb'))) := by
  refine ⟨?_, fun a => ?_, fun rb hext hinv => ?_⟩
  · obtain ⟨rb0, hnew, hcap⟩ := @heap_ctor α _ c (le_of_lt hc)
    obtain ⟨hwf, _, _⟩ := ctor_wf c rb0 hnew (by rw [hcap]; exact hc) (by rw [hcap]; exact hc1)
    refine ⟨rb0, hnew, invariant_of_wf rb0 hwf c hcap, fun rb hr => ?_⟩
    obtain ⟨hw, hcap2⟩ := reachable_wf rb0 rb hwf hr
    exact invariant_of_wf rb hw c (hcap2.trans hcap)
  · obtain ⟨rb0, hnew, hcap⟩ := @inline_ctor α _ N a
    obtain ⟨hwf, _, _⟩ := ctor_wf a rb0 hnew (by rw [hcap]; exact_mod_cast hN)
      (by rw [hcap]; exact_mod_cast hN1)
    refine ⟨rb0, hnew, invariant_of_wf rb0 hwf _ hcap, fun rb hr => ?_⟩
    obtain ⟨hw, hcap2⟩ := reachable_wf rb0 rb hwf hr
    exact invariant_of_wf rb hw _ (hcap2.trans hcap)
  · have hwf := wf_of_invariant rb c hc hc1 hext hinv
    have hcap : rb.capacity = c := hinv.2.2.2.2
    refine ⟨fun d rb' h => ?_, fun hpos => ?_, fun i v rb' h => ?_, fun hsm => ⟨fun d => ?_,
      fun i v hi0 hi1 => ?_⟩⟩
    · obtain ⟨hw, hcap2⟩ := enqueue_ok_wf rb rb' hwf d h
      exact ⟨hw.1, invariant_of_wf rb' hw c (hcap2.trans hcap)⟩
    · obtain ⟨t, rb', h, hw, hcap2, _, _⟩ := dequeue_total rb hwf hpos
      exact ⟨t, rb', h, hw.1, invariant_of_wf rb' hw c (hcap2.trans hcap)⟩
    · obtain ⟨hw, hcap2⟩ := set_ok_wf rb rb' hwf i v h
      exact ⟨hw.1, invariant_of_wf rb' hw c (hcap2.trans hcap)⟩
    · obtain ⟨rb', h, _⟩ :=
        enqueue_total rb hwf (enqueue_sum_small rb hwf (by rw [hcap]; exact hsm)) d
      exact ⟨rb', h⟩
    · have hh1 : rb._dequeue_index < c := hinv.2.2.2.1
      obtain ⟨c', h, _⟩ := rb_set_spec rb hwf i hi0 (by omega) v
      exact ⟨_, h⟩

/-- Capacity 3: the constructed heap ring buffer, and a full one over the heap. -/
theorem C13_ring_invariant_witness :
    (0 : Int) < 3 ∧ (3 : Int) ≤ 2147483647 ∧ 0 < 3 ∧ 3 ≤ 2147483647 ∧
    (∃ rb0 : ringbuffer_heap Int, ringbuffer.ctor 3 = .ok rb0 ∧ rb0.invariant 3) ∧
    LawfulContainer.inv (⟨[4, 2, 3], 0, 3⟩ : dynarray Int) ∧
    ringbuffer.invariant 3 (⟨⟨[4, 2, 3], 0, 3⟩, 3, 1⟩ : ringbuffer_heap Int) ∧
    ringbuffer.enqueue (⟨⟨[4, 2, 3], 0, 3⟩, 3, 1⟩ : ringbuffer_heap Int) 5 =
      .ok ⟨⟨[4, 5, 3], 0, 3⟩, 3, 2⟩ ∧
    (LawfulContainer.inv (⟨[4, 5, 3], 0, 3⟩ : dynarray Int) ∧
      ringbuffer.invariant 3 (⟨⟨[4, 5, 3], 0, 3⟩, 3, 2⟩ : ringbuffer_heap Int)) ∧
    (3 : Int) ≤ 1073741824 ∧
    (∃ rb', ringbuffer.enqueue (⟨⟨[4, 2, 3], 0, 3⟩, 3, 1⟩ : ringbuffer_heap Int) 5 =
      .ok rb') := by
  have h := @C13_ring_invariant Int (dynarray Int) _ _ _ 3 (by decide) (by decide) 3
    (by decide) (by decide)
  have hext : LawfulContainer.inv (⟨[4, 2, 3], 0, 3⟩ : dynarray Int) := rfl
  have hinv : ringbuffer.invariant 3 (⟨⟨[4, 2, 3], 0, 3⟩, 3, 1⟩ : ringbuffer_heap Int) :=
    ⟨by decide, by decide, by decide, by decide, rfl⟩
  have henq : ringbuffer.enqueue (⟨⟨[4, 2, 3], 0, 3⟩, 3, 1⟩ : ringbuffer_heap Int) 5 =
      .ok ⟨⟨[4, 5, 3], 0, 3⟩, 3, 2⟩ := by decide
  obtain ⟨rb0, h1, h2, _⟩ := h.1
  have h3 := h.2.2 (⟨⟨[4, 2, 3], 0, 3⟩, 3, 1⟩ : ringbuffer_heap Int) hext hinv
  exact ⟨by decide, by decide, by decide, by decide, ⟨rb0, h1, h2⟩, hext, hinv, henq,
    h3.1 5 _ henq, by decide, (h3.2.2.2 (by decide)).1 5⟩

/-- C14, as stated, fails on 32-bit `int`, at capacity `C = 2 ^ 31 - 1` over the heap backing
store.  Construct the ring buffer, enqueue `C` values, `dequeue`, `enqueue`, `dequeue`: the
state reached has head 2 and `count = C - 1 < C`.  There `abs_index(count)`, the index that
`enqueue` passes, computes `head + count = 2 ^ 31`, which wraps to `-2 ^ 31`, and returns
`-2 ^ 31 % C = -1`, which is negative and is not `(head + count) mod C = 1`; `enqueue` then
writes `_buffer[-1]`, outside `[0, C)`. -/
theorem C14_overflow_counterexample :
    ∃ rb0 rb : ringbuffer_heap Int, ringbuffer.ctor 2147483647 = .ok rb0 ∧
      0 < rb0.capacity ∧ ringbuffer.Reachable rb0 rb ∧
      rb.capacity = 2147483647 ∧ rb._dequeue_index = 2 ∧ rb._count = 2147483646 ∧
      rb._count < rb.capacity ∧
      rb.abs_index rb._count = .ok (-1) ∧
      (rb._dequeue_index + rb._count) % rb.capacity = 1 ∧
      (∀ d : Int, rb.enqueue d = .error .out_of_bounds) ∧
      ¬ ∃ rb', rb.enqueue 0 = .ok rb' := by
  obtain ⟨rb0, hnew, hcap⟩ := @heap_ctor Int _ 2147483647 (by decide)
  obtain ⟨hwf0, _, hcnt0, hh0⟩ :=
    ctor_wf 2147483647 rb0 hnew (by rw [hcap]; decide) (by rw [hcap])
  obtain ⟨rb1, h1, hw1, hcap1, hh1, hcnt1⟩ :=
    enqueue_all_fill (List.replicate 2147483647 (0 : Int)) rb0 hwf0 hh0 (by
      rw [hcnt0, List.length_replicate, hcap]
      decide)
  rw [hcap] at hcap1
  have hcnt1 : rb1._count = 2147483647 := by
    rw [hcnt1, hcnt0, List.length_replicate]
    rfl
  obtain ⟨t2, rb2, h2, hw2, hcap2, hcnt2, hh2⟩ := dequeue_total rb1 hw1 (by rw [hcnt1]; decide)
  rw [hcap1] at hcap2
  have hcnt2 : rb2._count = 2147483646 := by rw [hcnt2, hcnt1]; decide
  have hh2 : rb2._dequeue_index = 1 := by rw [hh2, hh1, hcap1]; decide
  obtain ⟨rb3, h3, hw3, hcap3, hcnt3, hh3⟩ := enqueue_total rb2 hw2 (by
    unfold ringbuffer.enqueue_sum
    rw [hcnt2, hcap2, hh2]
    decide) 0
  have hcnt3 : rb3._count = 2147483647 := by rw [hcnt3, hcnt2, hcap2]; decide
  have hh3 : rb3._dequeue_index = 1 := by rw [hh3, hcnt2, hcap2, hh2]; decide
  rw [hcap2] at hcap3
  obtain ⟨t4, rb4, h4, hw4, hcap4, hcnt4, hh4⟩ := dequeue_total rb3 hw3 (by rw [hcnt3]; decide)
  rw [hcap3] at hcap4
  have hcnt4 : rb4._count = 2147483646 := by rw [hcnt4, hcnt3]; decide
  have hh4 : rb4._dequeue_index = 2 := by rw [hh4, hh3, hcap3]; decide
  have hr : ringbuffer.Reachable rb0 rb4 :=
    .dequeue rb3 rb4 t4
      (.enqueue rb2 rb3 0
        (.dequeue rb1 rb2 t2 (reachable_enqueue_all rb0 _ rb0 rb1 .start h1)
          (by show rb1._count ≠ 0; rw [hcnt1]; decide) h2) h3)
      (by show rb3._count ≠ 0; rw [hcnt3]; decide) h4
  have hw := fun d : Int => heap_wrap rb4 hcap4 hh4 hcnt4 d
  refine ⟨rb0, rb4, hnew, by rw [hcap]; decide, hr, hcap4, hh4, hcnt4,
    by rw [hcnt4, hcap4]; decide, (hw 0).1, by rw [hh4, hcnt4, hcap4]; decide,
    fun d => (hw d).2, ?_⟩
  rintro ⟨rb', h⟩
  rw [(hw 0).2] at h
  cases h

/-- C14, amended (circular index range, capacities up to `2 ^ 30`): in every state reached
from a constructed ring buffer of capacity `0 < C ≤ 2 ^ 30` by `enqueue`, by `dequeue` when
`size() != 0` and by indexed writes, for every relative index `0 ≤ i ≤ C` (so for
`0 ≤ i < size()`, for `i = 1` and for `i = count`), `abs_index i` returns
`(head + i) mod capacity`, which lies in `[0, capacity - 1]`; the capacity is the constructed
one, so the modulo is never by zero; and `[i]` for `0 ≤ i < size()`, `enqueue`, and `dequeue`
when `size() != 0` return, none of their accesses to the backing store being out of range. -/
theorem C14_circular_index_range {α C : Type} [Container C α] [LawfulContainer C α]
    (c : Int) (rb0 : ringbuffer α C) (hnew : ringbuffer.ctor c = .ok rb0)
    (hC : 0 < rb0.capacity) (hsm : rb0.capacity ≤ 1073741824) (rb : ringbuffer α C)
    (hr : ringbuffer.Reachable rb0 rb) :
    (∀ i : Int, 0 ≤ i → i ≤ rb.capacity →
      ∃ a, rb.abs_index i = .ok a ∧ a = (rb._dequeue_index + i) % rb.capacity ∧
        0 ≤ a ∧ a ≤ rb.capacity - 1) ∧
    rb.capacity = rb0.capacity ∧ rb.capacity ≠ 0 ∧
    (∀ i : Int, 0 ≤ i → i < rb.size → ∃ x, rb.get i = .ok x) ∧
    (∀ d : α, ∃ rb', rb.enqueue d = .ok rb') ∧
    (rb.size ≠ 0 → ∃ t rb', rb.dequeue = .ok (t, rb')) := by
  obtain ⟨hwf0, _, _⟩ := ctor_wf c rb0 hnew hC (by omega)
  obtain ⟨hwf, hcap⟩ := reachable_wf rb0 rb hwf0 hr
  obtain ⟨_, hpos, hh0, hh1, hc0, hc1, _⟩ := id hwf
  have hsm2 : rb.capacity ≤ 1073741824 := by rw [hcap]; exact hsm
  refine ⟨fun i hi hi1 => ?_, hcap, by omega, fun i hi hi1 => ?_, fun d => ?_, fun hne => ?_⟩
  · have hr := emod_range (rb._dequeue_index + i) rb.capacity hpos
    exact ⟨_, abs_index_spec rb hwf i hi (by omega), rfl, hr.1, by omega⟩
  · have hi1 : i < rb._count := hi1
    obtain ⟨x, hx, _⟩ := rb_get_spec rb hwf i hi (by omega)
    exact ⟨x, hx⟩
  · obtain ⟨rb', h, _⟩ := enqueue_total rb hwf (enqueue_sum_small rb hwf hsm2) d
    exact ⟨rb', h⟩
  · have hne : ¬ rb._count = 0 := hne
    obtain ⟨t, rb', h, _⟩ := dequeue_total rb hwf (by omega)
    exact ⟨t, rb', h⟩

/-- Capacity 3 over the heap, after `enqueue` 1, 2, 3, 4: head is 1 and `abs_index 2` is 0. -/
theorem C14_circular_index_range_witness :
    (ringbuffer.ctor 3 : Except Fault (ringbuffer_heap Int)) = .ok ⟨⟨[0, 0, 0], 0, 3⟩, 0, 0⟩ ∧
    0 < ringbuffer.capacity (⟨⟨[0, 0, 0], 0, 3⟩, 0, 0⟩ : ringbuffer_heap Int) ∧
    ringbuffer.capacity (⟨⟨[0, 0, 0], 0, 3⟩, 0, 0⟩ : ringbuffer_heap Int) ≤ 1073741824 ∧
    ringbuffer.Reachable (⟨⟨[0, 0, 0], 0, 3⟩, 0, 0⟩ : ringbuffer_heap Int)
      ⟨⟨[4, 2, 3], 0, 3⟩, 3, 1⟩ ∧
    (∃ a, ringbuffer.abs_index (⟨⟨[4, 2, 3], 0, 3⟩, 3, 1⟩ : ringbuffer_heap Int) 2 = .ok a ∧
      a = (1 + 2) % 3 ∧ 0 ≤ a ∧ a ≤ 3 - 1) := by
  have hr : ringbuffer.Reachable (⟨⟨[0, 0, 0], 0, 3⟩, 0, 0⟩ : ringbuffer_heap Int)
      ⟨⟨[4, 2, 3], 0, 3⟩, 3, 1⟩ :=
    .enqueue ⟨⟨[1, 2, 3], 0, 3⟩, 3, 0⟩ _ 4
      (.enqueue ⟨⟨[1, 2, 0], 0, 3⟩, 2, 0⟩ _ 3
        (.enqueue ⟨⟨[1, 0, 0], 0, 3⟩, 1, 0⟩ _ 2
          (.enqueue ⟨⟨[0, 0, 0], 0, 3⟩, 0, 0⟩ _ 1 .start (by decide)) (by decide))
        (by decide)) (by decide)
  exact ⟨by rfl, by decide, by decide, hr,
    (C14_circular_index_range (3 : Int) (⟨⟨[0, 0, 0], 0, 3⟩, 0, 0⟩ : ringbuffer_heap Int)
      (by rfl) (by decide) (by decide) _ hr).1 2 (by decide) (by decide)⟩

/-- C17, as stated, fails on 32-bit `int`: on a heap ring buffer with capacity
`C = 2 ^ 31 - 1`, head 3 and `C` values, the relative indices `C - 1` and `C - 3` both lie in
`[0, C)` and differ, and `abs_index` maps both to slot 0: `3 + (C - 1) = 2 ^ 31 + 1` wraps to
`-(2 ^ 31 - 1)`, whose remainder by `C` is 0, and `3 + (C - 3) = C` has remainder 0. -/
theorem C17_overflow_counterexample :
    ringbuffer.WF
      (⟨⟨List.replicate 2147483647 0, 0, 2147483647⟩, 2147483647, 3⟩ : ringbuffer_heap Int) ∧
    (0 : Int) ≤ 2147483646 ∧
    (2147483646 : Int) < ringbuffer.capacity
      (⟨⟨List.replicate 2147483647 0, 0, 2147483647⟩, 2147483647, 3⟩ : ringbuffer_heap Int) ∧
    (0 : Int) ≤ 2147483644 ∧
    (2147483644 : Int) < ringbuffer.capacity
      (⟨⟨List.replicate 2147483647 0, 0, 2147483647⟩, 2147483647, 3⟩ : ringbuffer_heap Int) ∧
    ringbuffer.abs_index
      (⟨⟨List.replicate 2147483647 0, 0, 2147483647⟩, 2147483647, 3⟩ : ringbuffer_heap Int)
      2147483646 = .ok 0 ∧
    ringbuffer.abs_index
      (⟨⟨List.replicate 2147483647 0, 0, 2147483647⟩, 2147483647, 3⟩ : ringbuffer_heap Int)
      2147483644 = .ok 0 ∧
    (2147483646 : Int) ≠ 2147483644 ∧ wrap32 (3 + 2147483646) = -2147483647 := by
  obtain ⟨hwf, _⟩ := @heap_replicate_state Int _ 2147483647 2147483647 2147483647 2147483647
    3 0 0 (by rfl) (by rfl) (by decide) (by decide) (by decide) (by decide) (by decide)
  refine ⟨hwf, by decide, by decide, by decide, by decide, ?_, ?_, by decide, by decide⟩
  · rw [abs_index_eval
      (⟨⟨List.replicate 2147483647 0, 0, 2147483647⟩, 2147483647, 3⟩ : ringbuffer_heap Int)
      2147483647 3 2147483646 (by rfl) (by rfl) (by decide)]
    decide
  · rw [abs_index_eval
      (⟨⟨List.replicate 2147483647 0, 0, 2147483647⟩, 2147483647, 3⟩ : ringbuffer_heap Int)
      2147483647 3 2147483644 (by rfl) (by rfl) (by decide)]
    decide

/-- C17, amended (logical slots do not alias, capacities up to `2 ^ 30`): on a ring buffer
with `0 < capacity ≤ 2 ^ 30` and `0 ≤ head < capacity`, for relative indices `i`, `j` in
`[0, capacity)`, `abs_index i` and `abs_index j` return, and they are equal exactly when
`i = j`.  So, on such a state with `0 ≤ count ≤ capacity` whose backing store has `_capacity`
slots, a write of `x` through `[i]` with `0 ≤ i < count` returns, makes `[i]` read `x`, leaves
`[j]` reading what it read for every other `j` in `[0, count)`, and leaves `count` and `head`
as they were. -/
theorem C17_no_alias {α C : Type} [Container C α] [LawfulContainer C α]
    (rb : ringbuffer α C) (hC : 0 < rb.capacity) (hsm : rb.capacity ≤ 1073741824)
    (hh0 : 0 ≤ rb._dequeue_index) (hh1 : rb._dequeue_index < rb.capacity) :
    (∀ i j : Int, 0 ≤ i → i < rb.capacity → 0 ≤ j → j < rb.capacity →
      ∃ a b, rb.abs_index i = .ok a ∧ rb.abs_index j = .ok b ∧ (a = b ↔ i = j)) ∧
    (LawfulContainer.inv rb._buffer → 0 ≤ rb._count → rb._count ≤ rb.capacity →
      ∀ (i : Int) (x : α), 0 ≤ i → i < rb._count →
        ∃ rb', rb.set i x = .ok rb' ∧ rb'.get i = .ok x ∧
          (∀ j : Int, 0 ≤ j → j < rb._count → j ≠ i → rb'.get j = rb.get j) ∧
          rb'._count = rb._count ∧ rb'._dequeue_index = rb._dequeue_index) := by
  refine ⟨fun i j hi0 hi hj0 hj => ?_, fun hext hc0 hc1 i x hi0 hi => ?_⟩
  · refine ⟨_, _, abs_index_of_pos rb hC i (by omega) (by omega),
      abs_index_of_pos rb hC j (by omega) (by omega),
      fun e => emod_window_inj _ _ _ _ hi0 hi hj0 hj e, fun e => by rw [e]⟩
  · have hwf : rb.WF := ⟨hext, hC, hh0, hh1, hc0, hc1, by omega⟩
    obtain ⟨rb', h1, h2, h3, h4, h5⟩ := rb_set_get rb hwf hsm i hi0 (by omega) x
    exact ⟨rb', h1, h2, fun j hj0 hj hne => h3 j hj0 (by omega) hne, h4, h5⟩

/-- A full buffer of capacity 3 with head 1: indices 0 and 2 map to slots 1 and 0, and
writing 9 through `[2]` changes only what `[2]` reads. -/
theorem C17_no_alias_witness :
    0 < ringbuffer.capacity (⟨⟨[4, 2, 3], 0, 3⟩, 3, 1⟩ : ringbuffer_heap Int) ∧
    ringbuffer.capacity (⟨⟨[4, 2, 3], 0, 3⟩, 3, 1⟩ : ringbuffer_heap Int) ≤ 1073741824 ∧
    (∃ a b, ringbuffer.abs_index (⟨⟨[4, 2, 3], 0, 3⟩, 3, 1⟩ : ringbuffer_heap Int) 0 = .ok a ∧
      ringbuffer.abs_index (⟨⟨[4, 2, 3], 0, 3⟩, 3, 1⟩ : ringbuffer_heap Int) 2 = .ok b ∧
      (a = b ↔ (0 : Int) = 2)) ∧
    (∃ rb', ringbuffer.set (⟨⟨[4, 2, 3], 0, 3⟩, 3, 1⟩ : ringbuffer_heap Int) 2 9 = .ok rb' ∧
      rb'.get 2 = .ok 9 ∧
      (∀ j : Int, 0 ≤ j → j < 3 → j ≠ 2 →
        rb'.get j = ringbuffer.get (⟨⟨[4, 2, 3], 0, 3⟩, 3, 1⟩ : ringbuffer_heap Int) j) ∧
      rb'._count = 3 ∧ rb'._dequeue_index = 1) ∧
    ringbuffer.set (⟨⟨[4, 2, 3], 0, 3⟩, 3, 1⟩ : ringbuffer_heap Int) 2 9 =
      .ok ⟨⟨[9, 2, 3], 0, 3⟩, 3, 1⟩ := by
  have h := C17_no_alias (⟨⟨[4, 2, 3], 0, 3⟩, 3, 1⟩ : ringbuffer_heap Int) (by decide)
    (by decide) (by decide) (by decide)
  exact ⟨by decide, by decide, h.1 0 2 (by decide) (by decide) (by decide) (by decide),
    h.2 rfl (by decide) (by decide) 2 9 (by decide) (by decide), by decide⟩

/-- C15 (atomicity under allocation failure): with the allocation modelled as an operation
that may fail, for every `dynarray` state and every requested capacity `n` above the current
one, if the allocation inside `reserve n` fails then `reserve` ends with that failure and the
object (buffer, size, capacity) is the one before the call; likewise for every `index` whose
`insert` has to grow the capacity, whenever the doubling loop on 32-bit `int` returns a
capacity `cap` above the current one and the allocation of `cap` slots fails, `insert` ends
with that failure and the object is the one before the call.  The loop does return such a
capacity when the state has `0 ≤ size`, `0 ≤ capacity` and the need is above the capacity and
at most `2 ^ 30`.  When no allocation fails, both calls end as in the base model. -/
theorem C15_allocation_failure_atomic {α : Type} [Inhabited α] (heap : Int → Bool)
    (d : dynarray α) :
    (∀ (n : Int) (e : Stop), d._capacity < n →
      (new_array_on heap n : Except Stop (List α)) = .error e →
      d.reserve_on heap n = (.error e, d)) ∧
    (∀ n : Int, d._capacity < n → 0 ≤ n → heap n = false →
      d.reserve_on heap n = (.error .bad_alloc, d)) ∧
    (∀ (index : Int) (t : α) (cap : Int), max index d._size > wrap32 (d._capacity - 1) →
      dynarray.grow_loop32 (max index d._size) 64
        (if d._capacity > 0 then d._capacity else 1) = .ok cap →
      d._capacity < cap →
      (∀ e : Stop, (new_array_on heap cap : Except Stop (List α)) = .error e →
        d.insert_on heap index t = (.error e, d)) ∧
      (0 ≤ cap → heap cap = false → d.insert_on heap index t = (.error .bad_alloc, d))) ∧
    (∀ index : Int, 0 ≤ index → 0 ≤ d._size → 0 ≤ d._capacity →
      d._capacity < max index d._size + 1 → max index d._size + 1 ≤ 1073741824 →
      max index d._size > wrap32 (d._capacity - 1) ∧
      ∃ cap, dynarray.grow_loop32 (max index d._size) 64
          (if d._capacity > 0 then d._capacity else 1) = .ok cap ∧
        d._capacity < cap ∧ 0 ≤ cap) ∧
    (∀ (n : Int) (d' : dynarray α), d.reserve n = .ok d' →
      d.reserve_on (fun _ => true) n = (.ok (), d')) ∧
    (∀ (index : Int) (t : α) (d' : dynarray α), d.insert index t = .ok d' →
      d.insert_on (fun _ => true) index t = (.ok (), d')) := by
  refine ⟨fun n e hlt hfail => reserve_on_fail heap d n e hlt hfail,
    fun n hlt hn hfail => reserve_on_fail heap d n _ hlt (new_array_on_fail heap n hn hfail),
    fun index t cap hgrow hloop hlt => ?_, fun index h0 hs0 hc0 hlt hb => ?_,
    fun n d' h => reserve_on_ok d d' n h, fun index t d' h => insert_on_ok d d' index t h⟩
  · exact ⟨fun e hfail => insert_on_fail heap d index t cap e hgrow hloop hlt hfail,
      fun hpos hfail => insert_on_fail heap d index t cap _ hgrow hloop hlt
        (new_array_on_fail heap cap hpos hfail)⟩
  · have hw : wrap32 (d._capacity - 1) = d._capacity - 1 :=
      wrap32_id _ (by omega) (by omega)
    have hp : 0 < (if d._capacity > 0 then d._capacity else 1) := by split <;> omega
    have hp1 : (if d._capacity > 0 then d._capacity else 1) ≤ 2147483647 := by
      split <;> omega
    obtain ⟨k, hk, hge, _, _, hfuel, _⟩ :=
      grow_spec (max index d._size) _ hp hp1 (by omega) hb
    exact ⟨by rw [hw]; omega, _, hfuel 64 (by omega), by omega, by omega⟩

/-- A heap with no block above 4 slots: `reserve 6` and `push_back` on a full array of four
values end with `bad_alloc` and leave the array as it was. -/
theorem C15_allocation_failure_atomic_witness :
    ((4 : Int) < 6 ∧ (0 : Int) ≤ 6 ∧ (fun n : Int => decide (n ≤ 4)) 6 = false ∧
      dynarray.reserve_on (fun n : Int => decide (n ≤ 4))
        (⟨[1, 2, 3, 4], 4, 4⟩ : dynarray Int) 6 = (.error .bad_alloc, ⟨[1, 2, 3, 4], 4, 4⟩)) ∧
    (max (4 : Int) 4 > wrap32 (4 - 1) ∧
      dynarray.grow_loop32 (max 4 4) 64 (if (4 : Int) > 0 then 4 else 1) = .ok 8 ∧
      (4 : Int) < 8 ∧ (0 : Int) ≤ 8 ∧ (fun n : Int => decide (n ≤ 4)) 8 = false ∧
      dynarray.insert_on (fun n : Int => decide (n ≤ 4))
        (⟨[1, 2, 3, 4], 4, 4⟩ : dynarray Int) 4 5 =
          (.error .bad_alloc, ⟨[1, 2, 3, 4], 4, 4⟩)) ∧
    dynarray.insert_on (fun n : Int => decide (n ≤ 8)) (⟨[1, 2, 3, 4], 4, 4⟩ : dynarray Int) 4 5 =
      (.ok (), ⟨[1, 2, 3, 4, 5, 0, 0, 0], 5, 8⟩) := by
  have h := C15_allocation_failure_atomic (fun n : Int => decide (n ≤ 4))
    (⟨[1, 2, 3, 4], 4, 4⟩ : dynarray Int)
  exact ⟨⟨by decide, by decide, by decide, h.2.1 6 (by decide) (by decide) (by decide)⟩,
    ⟨by decide, by decide, by decide, by decide, by decide,
      (h.2.2.1 4 5 8 (by decide) (by decide) (by decide)).2 (by decide) (by decide)⟩,
    by decide⟩

/-- C16, as stated, fails on 32-bit `int`: on an empty array of capacity 0 (a buffer without
slots), `insert(2 ^ 31 - 1, 7)` computes `topIndex + 1 = -2 ^ 31`; the doubling loop is
skipped with `cap = 1`, `reserve(1)` gives a buffer of one slot, the shift loop does nothing,
and the final write at position `2 ^ 31 - 1` is outside `[0, 1)`, the capacity after
growth. -/
theorem C16_overflow_counterexample :
    dynarray.WF (⟨[], 0, 0⟩ : dynarray Int) ∧ (0 : Int) ≤ 2147483647 ∧
    wrap32 (2147483647 + 1) = -2147483648 ∧
    dynarray.grow_loop32 2147483647 64 1 = .ok 1 ∧
    dynarray.reserve (⟨[], 0, 0⟩ : dynarray Int) 1 = .ok ⟨[0], 0, 1⟩ ∧
    dynarray.shift_loop 2147483647 ((0 : Int) - 2147483647).toNat ([0] : List Int) = .ok [0] ∧
    writeAt ([0] : List Int) 2147483647 7 = .error .out_of_bounds ∧
    ¬ (2147483647 : Int) < 1 ∧
    dynarray.insert (⟨[], 0, 0⟩ : dynarray Int) 2147483647 7 = .error .out_of_bounds ∧
    ¬ ∃ d', dynarray.insert (⟨[], 0, 0⟩ : dynarray Int) 2147483647 7 = .ok d' := by
  have h1 : dynarray.insert (⟨[], 0, 0⟩ : dynarray Int) 2147483647 7 =
      .error .out_of_bounds := by decide
  refine ⟨by decide, by decide, by decide, by decide, by decide, by decide, by decide,
    by decide, h1, ?_⟩
  rintro ⟨d', h⟩
  rw [h1] at h
  cases h

/-- C16, amended (in-bounds accesses of `insert` and `reserve`, while the growth fits in
`int`): on a `dynarray` state with `0 ≤ size ≤ capacity ≤ 2 ^ 31 - 1` whose buffer has
`capacity` slots, for every `index ≥ 0` whose need `max index size + 1` is at most the
capacity or at most `2 ^ 30`, `insert index value` returns, so no access of the call is out of
range; the buffer after the call has as many slots as the capacity after growth, and the
positions of the shift loop, `i` and `i - 1` for `index < i ≤ size`, and the position `index`
of the final write lie in `[0, capacity after growth)`.  For every `n`, `reserve n` returns;
when it grows, the new buffer has `n` slots and every position `i` of the copy loop,
`0 ≤ i < capacity`, lies inside the old buffer and inside the new one. -/
theorem C16_in_bounds_accesses {α : Type} [Inhabited α] (d : dynarray α) (hwf : d.WF)
    (hcm : d._capacity ≤ 2147483647) (index : Int) (h0 : 0 ≤ index) (hfit : d.fits index)
    (value : α) (n : Int) :
    (∃ d', d.insert index value = .ok d' ∧
      (d'._buffer.length : Int) = d'._capacity ∧
      (∀ i : Int, index < i → i ≤ d._size → 0 ≤ i - 1 ∧ i - 1 < d'._capacity ∧
        0 ≤ i ∧ i < d'._capacity) ∧
      0 ≤ index ∧ index < d'._capacity) ∧
    (∃ d', d.reserve n = .ok d' ∧
      (d'._buffer.length : Int) = d'._capacity ∧
      (d._capacity < n → d'._capacity = n ∧
        ∀ i : Int, 0 ≤ i → i < d._capacity →
          i < (d._buffer.length : Int) ∧ i < (d'._buffer.length : Int))) := by
  obtain ⟨hs0, hsc, hlen⟩ := id hwf
  constructor
  · obtain ⟨d', hins, hsize, hw, _⟩ := insert_size d hwf hcm index h0 hfit value
    obtain ⟨_, hsc', hlen'⟩ := hw
    rw [hsize] at hsc'
    exact ⟨d', hins, hlen', fun i hi1 hi2 => by omega, h0, by omega⟩
  · obtain ⟨d', hres, _, hcap, hw, _⟩ := reserve_spec d hwf n
    obtain ⟨_, _, hlen'⟩ := hw
    refine ⟨d', hres, hlen', fun hlt => ⟨by rw [hcap]; omega, fun i hi0 hi => ?_⟩⟩
    rw [hcap] at hlen'
    omega

/-- Inserting at index 1 of a full array of three values, and reserving 6 slots. -/
theorem C16_in_bounds_accesses_witness :
    dynarray.WF (⟨[1, 2, 3], 3, 3⟩ : dynarray Int) ∧
    dynarray._capacity (⟨[1, 2, 3], 3, 3⟩ : dynarray Int) ≤ 2147483647 ∧ (0 : Int) ≤ 1 ∧
    dynarray.fits (⟨[1, 2, 3], 3, 3⟩ : dynarray Int) 1 ∧
    (∃ d', dynarray.insert (⟨[1, 2, 3], 3, 3⟩ : dynarray Int) 1 7 = .ok d' ∧
      (d'._buffer.length : Int) = d'._capacity ∧
      (∀ i : Int, 1 < i → i ≤ 3 → 0 ≤ i - 1 ∧ i - 1 < d'._capacity ∧
        0 ≤ i ∧ i < d'._capacity) ∧
      (0 : Int) ≤ 1 ∧ 1 < d'._capacity) ∧
    dynarray.insert (⟨[1, 2, 3], 3, 3⟩ : dynarray Int) 1 7 = .ok ⟨[1, 7, 2, 3, 0, 0], 4, 6⟩ ∧
    dynarray.reserve (⟨[1, 2, 3], 3, 3⟩ : dynarray Int) 6 = .ok ⟨[1, 2, 3, 0, 0, 0], 3, 6⟩ :=
  ⟨by decide, by decide, by decide, by decide,
    (C16_in_bounds_accesses (⟨[1, 2, 3], 3, 3⟩ : dynarray Int) (by decide) (by decide) 1
      (by decide) (by decide) 7 6).1,
    by decide, by decide⟩

/-- C18 (no overflow in the doubling loop under a `2 ^ 30` bound): with `insert`'s loop
evaluated on 32-bit `int` (every result taken modulo `2 ^ 32` into `[-2 ^ 31, 2 ^ 31 - 1]`),
on a `dynarray` state with `0 ≤ size ≤ capacity`, for every `index ≥ 0` with
`need = max index size + 1 ≤ 2 ^ 30`: `topIndex + 1` is in `[0, 2 ^ 31 - 1]`; and when the
loop is entered (`capacity < need`) it terminates, with the capacity `c0 * 2 ^ k` that exact
arithmetic gives, every value `c0 * 2 ^ j`, `j ≤ k`, that `cap` takes being in
`[0, 2 ^ 31 - 1]`.  The bound is tight: with capacity 0 or 1 and `need = 2 ^ 30 + 1` the exact
doubling reaches `2 ^ 31`, which is above `2 ^ 31 - 1` and wraps to `-2 ^ 31`, and the 32-bit
loop does not terminate. -/
theorem C18_doubling_no_overflow {α : Type} [Inhabited α] (d : dynarray α) (hwf : d.WF)
    (index : Int) (h0 : 0 ≤ index) (hb : max index d.size + 1 ≤ 2 ^ 30) :
    (0 ≤ max index d.size + 1 ∧ max index d.size + 1 ≤ 2 ^ 31 - 1 ∧
      wrap32 (max index d.size + 1) = max index d.size + 1) ∧
    (d._capacity < max index d.size + 1 →
      ∃ (k : Nat) (cap : Int),
        (∀ fuel : Nat, (max index d.size + 1).toNat ≤ fuel →
          dynarray.grow_loop32 (max index d.size) fuel
            (if d._capacity > 0 then d._capacity else 1) = .ok cap) ∧
        cap = (if d._capacity > 0 then d._capacity else 1) * 2 ^ k ∧
        max index d.size + 1 ≤ cap ∧
        (∀ j : Nat, j ≤ k →
          0 ≤ (if d._capacity > 0 then d._capacity else 1) * 2 ^ j ∧
          (if d._capacity > 0 then d._capacity else 1) * 2 ^ j ≤ 2 ^ 31 - 1 ∧
          wrap32 ((if d._capacity > 0 then d._capacity else 1) * 2 ^ j) =
            (if d._capacity > 0 then d._capacity else 1) * 2 ^ j)) ∧
    (∀ capacity : Int, capacity = 0 ∨ capacity = 1 →
      (∀ fuel : Nat, 31 ≤ fuel →
        dynarray.grow_loop_exact (2 ^ 30) fuel (if capacity > 0 then capacity else 1) =
          .ok (2 ^ 31)) ∧
      (∀ fuel : Nat,
        dynarray.grow_loop32 (2 ^ 30) fuel (if capacity > 0 then capacity else 1) =
          .error .iteration_budget)) ∧
    ((2 : Int) ^ 31 - 1 < 2 ^ 31 ∧ wrap32 (2 ^ 31) = -2 ^ 31) := by
  have hs0 : 0 ≤ d._size := hwf.1
  simp only [dynarray.size] at hb ⊢
  have hb : max index d._size + 1 ≤ 1073741824 := by
    have h30 : (2 : Int) ^ 30 = 1073741824 := by norm_num
    rw [← h30]
    exact hb
  have h31 : (2 : Int) ^ 31 = 2147483648 := by norm_num
  have h30 : (2 : Int) ^ 30 = 1073741824 := by norm_num
  refine ⟨?_, fun hlt => ?_, fun capacity hcap => ?_, ?_⟩
  · show 0 ≤ max index d._size + 1 ∧ max index d._size + 1 ≤ 2 ^ 31 - 1 ∧
      wrap32 (max index d._size + 1) = max index d._size + 1
    rw [h31]
    exact ⟨by omega, by omega, wrap32_id _ (by omega) (by omega)⟩
  · have hlt : d._capacity < max index d._size + 1 := hlt
    have hc0 : 0 < (if d._capacity > 0 then d._capacity else 1) := by split <;> omega
    have hc1 : (if d._capacity > 0 then d._capacity else 1) ≤ 1073741824 := by
      split <;> omega
    obtain ⟨k, _, hge, hmin, _, _, hfuel⟩ :=
      grow_spec (max index d._size) _ hc0 (by omega) (by omega) hb
    have hvals : ∀ j : Nat, j ≤ k →
        0 < (if d._capacity > 0 then d._capacity else 1) * 2 ^ j ∧
        (if d._capacity > 0 then d._capacity else 1) * 2 ^ j ≤ 2147483647 := by
      intro j hj
      refine ⟨Int.mul_pos hc0 (pow_pos (by norm_num) j), ?_⟩
      cases j with
      | zero =>
        rw [pow_zero, Int.mul_one]
        omega
      | succ j =>
        have := hmin j (by omega)
        have e : (if d._capacity > 0 then d._capacity else 1) * 2 ^ (j + 1) =
            2 * ((if d._capacity > 0 then d._capacity else 1) * 2 ^ j) := by ring
        rw [e]
        omega
    refine ⟨k, _, fun fuel hf => hfuel fuel hf, rfl, hge, fun j hj => ?_⟩
    · obtain ⟨hp, hle⟩ := hvals j hj
      rw [h31]
      exact ⟨le_of_lt hp, by omega, wrap32_id _ (by omega) (by omega)⟩
  · have hc : (if capacity > 0 then capacity else 1) = 1 := by
      rcases hcap with h | h <;> rw [h] <;> decide
    rw [hc, h30, h31]
    refine ⟨fun fuel hf => ?_, fun fuel => ?_⟩
    · have e : fuel = 31 + (fuel - 31) := by omega
      rw [e]
      exact grow_loop_more_fuel 1073741824 31 1 2147483648 (fuel - 31) (by decide)
    · have := grow_loop32_pow 30 (le_refl 30) fuel
      simpa using this
  · rw [h31]
    exact ⟨by decide, by decide⟩

/-- A full array of three values and index 7: `need = 8`, and the 32-bit loop doubles 3 to 6
to 12, as in exact arithmetic. -/
theorem C18_doubling_no_overflow_witness :
    dynarray.WF (⟨[1, 2, 3], 3, 3⟩ : dynarray Int) ∧ (0 : Int) ≤ 7 ∧
    max 7 (dynarray.size (⟨[1, 2, 3], 3, 3⟩ : dynarray Int)) + 1 ≤ 2 ^ 30 ∧
    (3 : Int) < max 7 3 + 1 ∧
    (∃ (k : Nat) (cap : Int),
      (∀ fuel : Nat, (max (7 : Int) 3 + 1).toNat ≤ fuel →
        dynarray.grow_loop32 (max 7 3) fuel (if (3 : Int) > 0 then 3 else 1) = .ok cap) ∧
      cap = (if (3 : Int) > 0 then 3 else 1) * 2 ^ k ∧ max 7 3 + 1 ≤ cap) ∧
    dynarray.grow_loop32 7 8 3 = .ok 12 := by
  have hb : max 7 (dynarray.size (⟨[1, 2, 3], 3, 3⟩ : dynarray Int)) + 1 ≤ 2 ^ 30 := by
    decide
  obtain ⟨k, cap, h1, h2, h3, _⟩ :=
    (C18_doubling_no_overflow (⟨[1, 2, 3], 3, 3⟩ : dynarray Int) (by decide) 7 (by decide)
      hb).2.1 (by decide)
  exact ⟨by decide, by decide, hb, by decide, ⟨k, cap, h1, h2, h3⟩, by decide⟩

/-- C19 (a ring buffer of capacity 0 cannot enqueue): over a `dynarray` backing store the
default constructor and the capacity constructor with 0 give the same state, with
`count == capacity == 0` and `head == 0`, in which `0 ≤ head < capacity` does not hold.  In
that state `abs_index` is a modulo by zero for every relative index; `enqueue v` takes the
full-buffer branch and calls `dequeue`, and it ends in an error for every `v` instead of
storing it: `dequeue` first reads `_buffer[0]` of a buffer without slots, which the model
stops as out of range, and whatever that read yields, the rest of `dequeue` stops at the
modulo by zero of `abs_index(1)`. -/
theorem C19_capacity_zero_enqueue {α : Type} [Inhabited α] :
    ∃ rb : ringbuffer_heap α, ringbuffer.ctor0 = .ok rb ∧ ringbuffer.ctor 0 = .ok rb ∧
      rb.capacity = 0 ∧ rb._count = rb.capacity ∧ rb._dequeue_index = 0 ∧
      ¬ (0 ≤ rb._dequeue_index ∧ rb._dequeue_index < rb.capacity) ∧
      (∀ i : Int, rb.abs_index i = .error .division_by_zero) ∧
      (∀ v : α, ∃ e, rb.enqueue v = .error e) ∧
      (∀ v : α, rb.enqueue v =
        (rb.dequeue >>= fun p => ringbuffer.enqueue p.2 v) ∧
        rb.enqueue v = .error .out_of_bounds) ∧
      rb.dequeue = .error .out_of_bounds ∧
      (∀ t : α, (rb.abs_index 1 >>= fun i =>
          (pure (t, { rb with _dequeue_index := i, _count := wrap32 (rb._count - 1) }) :
            Except Fault (α × ringbuffer_heap α))) = .error .division_by_zero) := by
  refine ⟨⟨⟨[], 0, 0⟩, 0, 0⟩, rfl, rfl, rfl, rfl, rfl, fun h => Int.lt_irrefl 0 h.2,
    fun i => rfl,
    fun v => ⟨_, rfl⟩, fun v => ⟨rfl, rfl⟩, rfl, fun t => rfl⟩

/-- C20: the code divides the `z` component by the constant 2, not by the scalar: for every
`v` and `s`, `operator/(v, s)` is `(v.x / s, v.y / s, v.z / 2)`.  At `v = (0, 0, 1)`, `s = 4`
it returns `(0, 0, 1/2)`, not `(0, 0, 1/4)`; and `normalizesafe` of `(0, 0, 3)`, whose squared
length is 9 with square root 3, returns `(0, 0, 3/2)`, not `(0, 0, 1)`. -/
theorem C20_float3_div_z_by_two (v : float3) (s : ℚ) :
    float3.div v s = { x := v.x / s, y := v.y / s, z := v.z / 2 } ∧
    float3.div { x := 0, y := 0, z := 1 } 4 = { x := 0, y := 0, z := 1 / 2 } ∧
    float3.div { x := 0, y := 0, z := 1 } 4 ≠ { x := 0 / 4, y := 0 / 4, z := 1 / 4 } ∧
    float3.lengthsq { x := 0, y := 0, z := 3 } = 9 ∧
    float3.normalizesafe (fun _ => 3) { x := 0, y := 0, z := 3 } =
      { x := 0, y := 0, z := 3 / 2 } ∧
    float3.normalizesafe (fun _ => 3) { x := 0, y := 0, z := 3 } ≠
      { x := 0 * (1 / 3), y := 0 * (1 / 3), z := 3 * (1 / 3) } := by
  refine ⟨rfl, ?_, ?_, ?_, ?_, ?_⟩
  · simp [float3.div]
  · simp [float3.div]
  · norm_num [float3.lengthsq, float3.dot]
  · simp [float3.normalizesafe, float3.lengthsq, float3.dot, float3.div]
  · simp [float3.normalizesafe, float3.lengthsq, float3.dot, float3.div]
    norm_num

end oats
